import Mathlib

/-! SPHINX validation core: Merkle trees, partial Merkle trees, chain linkage.

A shallow embedding of `src/MerkleBlock.cpp`, `src/Consensus/Merkle.cpp`,
`src/Benchmark/Merkle_root.cpp`, `src/Consensus/Verify.cpp`,
`src/Consensus/Asset.hpp` and `src/Base58.cpp`.

Conventions of the embedding.

* `uint256` is an arbitrary type `D` with decidable equality. The hash
  primitives are fields of a `Hasher D`: `null` is `uint256()`, `Hash` is the
  two-argument `Hash(left, right)` called by `MerkleBlock.cpp`, and
  `SPHINX_256` is what `ComputeMerkleRoot` stores in `hashes[0]`: the first 32
  bytes of `SPHINXHash::SPHINX_256` applied to the concatenation of a list of
  digests (the concatenation of fixed-width digests determines the list, so a
  function on lists loses nothing).
* `std::vector` is `List`; `v[i]` is `v[i]?` and a read outside the vector
  makes the enclosing function return `none` (undefined behaviour in C++), as
  does a failed `assert`.
* In the Merkle code `unsigned int`, `int` and `size_t` quantities are natural
  numbers. No operation of these functions wraps while the transaction count
  stays below `2^30` (positions, leaf ranges and the number of bits consumed
  are bounded by the number of tree nodes), which the weight limit checked by
  `ExtractMatches` guarantees for every block weight that fits 32 bits.
* `while` loops run on fuel; for each of them a lemma shows that the fuel given
  is enough for the loop to leave through its own condition.
-/

namespace SphinxPoC

/-! ## Hash primitives -/

/-- The digest operations the code consumes. -/
structure Hasher (D : Type) where
  /-- The value of `uint256()`: all bytes zero. -/
  null : D
  /-- The call `Hash(left, right)` of `MerkleBlock.cpp`. -/
  Hash : D → D → D
  /-- The digest `ComputeMerkleRoot` copies into `hashes[0]`, as a function of
  the digests whose concatenation is hashed. -/
  SPHINX_256 : List D → D

/-- A digest function on lists of natural numbers for evaluating the code on
explicit inputs: nested Cantor pairs, each incremented, so that different lists
get different digests and no non-empty list gets the digest `0`. -/
def demoDigest (xs : List Nat) : Nat :=
  xs.foldr (fun x acc => Nat.pair x acc + 1) 0

/-- A concrete hasher on natural numbers: the null digest is `0`, and both
`Hash(left, right)` and `SPHINX_256` are `demoDigest` of the digests that are
concatenated. -/
def demoHasher : Hasher Nat where
  null := 0
  Hash := fun l r => demoDigest [l, r]
  SPHINX_256 := demoDigest

/-! ## Constants of `Consensus.hpp` -/

/-- The constant `WITNESS_SCALE_FACTOR`. -/
def WITNESS_SCALE_FACTOR : Nat := 4

/-- The constant `MIN_TRANSACTION_WEIGHT = WITNESS_SCALE_FACTOR * 60`. -/
def MIN_TRANSACTION_WEIGHT : Nat := WITNESS_SCALE_FACTOR * 60

/-! ## `CPartialMerkleTree` (MerkleBlock.hpp, MerkleBlock.cpp) -/

/-- The data members of `CPartialMerkleTree`. -/
structure CPartialMerkleTree (D : Type) where
  nTransactions : Nat
  vBits : List Bool
  vHash : List D
  fBad : Bool
deriving DecidableEq

/-- Modelled from the spec: `CalcTreeWidth` is declared in `MerkleBlock.hpp`
but its body is not in the sources. The spec gives the width of the implicit
tree at height `h` as `ceil(leafCount / 2^h)`. -/
def CalcTreeWidth (nTransactions height : Nat) : Nat :=
  (nTransactions + 2 ^ height - 1) / 2 ^ height

/-- The loop `while (CalcTreeWidth(nHeight) > 1) nHeight++`, on fuel. -/
def heightLoop (nTransactions : Nat) : Nat → Nat → Nat
  | 0, nHeight => nHeight
  | fuel + 1, nHeight =>
    if CalcTreeWidth nTransactions nHeight > 1 then
      heightLoop nTransactions fuel (nHeight + 1)
    else nHeight

/-- The value of `nHeight` after `int nHeight = 0; while (...) nHeight++`.
Fuel `nTransactions` is enough: see `treeHeight_width`. -/
def treeHeight (nTransactions : Nat) : Nat :=
  heightLoop nTransactions nTransactions 0

/-- The method `CPartialMerkleTree::CalcHash`. -/
def CalcHash {D : Type} (H : Hasher D) (nTransactions : Nat) :
    Nat → Nat → List D → Option D
  | 0, pos, vTxid =>
    if vTxid.length = 0 then none
    else vTxid[pos]?
  | height + 1, pos, vTxid =>
    if vTxid.length = 0 then none
    else
      match CalcHash H nTransactions height (pos * 2) vTxid with
      | none => none
      | some left =>
        if pos * 2 + 1 < CalcTreeWidth nTransactions height then
          match CalcHash H nTransactions height (pos * 2 + 1) vTxid with
          | none => none
          | some right => some (H.Hash left right)
        else some (H.Hash left left)

/-- The loop of `TraverseAndBuild` that ors `vMatch[p]` into `fParentOfMatch`,
for `count` consecutive positions from `p`. -/
def scanMatch (vMatch : List Bool) : Nat → Nat → Bool → Option Bool
  | 0, _, fParentOfMatch => some fParentOfMatch
  | count + 1, p, fParentOfMatch =>
    match vMatch[p]? with
    | none => none
    | some b => scanMatch vMatch count (p + 1) (fParentOfMatch || b)

/-- The first statement of `TraverseAndBuild`: the loop
`for (p = pos << height; p < (pos + 1) << height && p < nTransactions; p++)`,
which runs `min ((pos + 1) << height) nTransactions - (pos << height)` times. -/
def parentOfMatch (nTransactions : Nat) (vMatch : List Bool) (height pos : Nat) :
    Option Bool :=
  scanMatch vMatch
    (min ((pos + 1) * 2 ^ height) nTransactions - pos * 2 ^ height)
    (pos * 2 ^ height) false

/-- The method `CPartialMerkleTree::TraverseAndBuild`, acting on the tree under
construction. -/
def TraverseAndBuild {D : Type} (H : Hasher D) (vTxid : List D) (vMatch : List Bool) :
    Nat → Nat → CPartialMerkleTree D → Option (CPartialMerkleTree D)
  | 0, pos, T =>
    match parentOfMatch T.nTransactions vMatch 0 pos with
    | none => none
    | some fParentOfMatch =>
      match CalcHash H T.nTransactions 0 pos vTxid with
      | none => none
      | some h =>
        some { T with vBits := T.vBits ++ [fParentOfMatch], vHash := T.vHash ++ [h] }
  | height + 1, pos, T =>
    match parentOfMatch T.nTransactions vMatch (height + 1) pos with
    | none => none
    | some fParentOfMatch =>
      if !fParentOfMatch then
        match CalcHash H T.nTransactions (height + 1) pos vTxid with
        | none => none
        | some h =>
          some { T with vBits := T.vBits ++ [fParentOfMatch], vHash := T.vHash ++ [h] }
      else
        match TraverseAndBuild H vTxid vMatch height (pos * 2)
            { T with vBits := T.vBits ++ [fParentOfMatch] } with
        | none => none
        | some T1 =>
          if pos * 2 + 1 < CalcTreeWidth T1.nTransactions height then
            TraverseAndBuild H vTxid vMatch height (pos * 2 + 1) T1
          else some T1

/-- The constructor `CPartialMerkleTree(vTxid, vMatch)`. -/
def CPartialMerkleTree.build {D : Type} (H : Hasher D) (vTxid : List D)
    (vMatch : List Bool) : Option (CPartialMerkleTree D) :=
  TraverseAndBuild H vTxid vMatch (treeHeight vTxid.length) 0
    { nTransactions := vTxid.length, vBits := [], vHash := [], fBad := false }

/-- What `TraverseAndExtract` reads and writes besides the tree's vectors: its
four reference parameters and the member `fBad`. The field `overflowed` is not
in the code: it records that one of the two branches commented
"Overflowed the bits array" and "Overflowed the hash array" was taken, and
nothing reads it. -/
structure ExtractState (D : Type) where
  nBitsUsed : Nat
  nHashUsed : Nat
  vMatch : List D
  vnIndex : List Nat
  fBad : Bool
  overflowed : Bool
deriving DecidableEq

/-- The method `CPartialMerkleTree::TraverseAndExtract`. -/
def TraverseAndExtract {D : Type} [DecidableEq D] (H : Hasher D)
    (T : CPartialMerkleTree D) :
    Nat → Nat → ExtractState D → Option (D × ExtractState D)
  | 0, pos, s =>
    if s.nBitsUsed ≥ T.vBits.length then
      some (H.null, { s with fBad := true, overflowed := true })
    else
      match T.vBits[s.nBitsUsed]? with
      | none => none
      | some fParentOfMatch =>
        if s.nHashUsed ≥ T.vHash.length then
          some (H.null,
            { s with nBitsUsed := s.nBitsUsed + 1, fBad := true, overflowed := true })
        else
          match T.vHash[s.nHashUsed]? with
          | none => none
          | some hash =>
            if fParentOfMatch then
              some (hash,
                { s with nBitsUsed := s.nBitsUsed + 1, nHashUsed := s.nHashUsed + 1,
                         vMatch := s.vMatch ++ [hash], vnIndex := s.vnIndex ++ [pos] })
            else
              some (hash,
                { s with nBitsUsed := s.nBitsUsed + 1, nHashUsed := s.nHashUsed + 1 })
  | height + 1, pos, s =>
    if s.nBitsUsed ≥ T.vBits.length then
      some (H.null, { s with fBad := true, overflowed := true })
    else
      match T.vBits[s.nBitsUsed]? with
      | none => none
      | some fParentOfMatch =>
        if !fParentOfMatch then
          if s.nHashUsed ≥ T.vHash.length then
            some (H.null,
              { s with nBitsUsed := s.nBitsUsed + 1, fBad := true, overflowed := true })
          else
            match T.vHash[s.nHashUsed]? with
            | none => none
            | some hash =>
              some (hash,
                { s with nBitsUsed := s.nBitsUsed + 1, nHashUsed := s.nHashUsed + 1 })
        else
          match TraverseAndExtract H T height (pos * 2)
              { s with nBitsUsed := s.nBitsUsed + 1 } with
          | none => none
          | some (left, s1) =>
            if pos * 2 + 1 < CalcTreeWidth T.nTransactions height then
              match TraverseAndExtract H T height (pos * 2 + 1) s1 with
              | none => none
              | some (right, s2) =>
                if right = left then
                  some (H.Hash left right, { s2 with fBad := true })
                else some (H.Hash left right, s2)
            else some (H.Hash left left, s1)

/-- What a call of `ExtractMatches` leaves behind: the returned digest, the two
output vectors, and the tree (whose `fBad` the traversal may have set). -/
structure ExtractResult (D : Type) where
  root : D
  vMatch : List D
  vnIndex : List Nat
  tree : CPartialMerkleTree D
deriving DecidableEq

/-- The state in which `ExtractMatches` starts the traversal: both counters
zero, `vMatch` cleared, `vnIndex` as the caller passed it, `fBad` as the tree
holds it. -/
def extractStart {D : Type} (T : CPartialMerkleTree D) (vnIndex : List Nat) :
    ExtractState D :=
  { nBitsUsed := 0, nHashUsed := 0, vMatch := [], vnIndex := vnIndex,
    fBad := T.fBad, overflowed := false }

/-- The method `CPartialMerkleTree::ExtractMatches`. `MAX_BLOCK_WEIGHT` is not
defined in the sources and is a parameter. The incoming `vMatch` is cleared
first; the incoming `vnIndex` is not. -/
def ExtractMatches {D : Type} [DecidableEq D] (H : Hasher D) (MAX_BLOCK_WEIGHT : Nat)
    (T : CPartialMerkleTree D) (_vMatch : List D) (vnIndex : List Nat) :
    Option (ExtractResult D) :=
  if T.nTransactions = 0 then
    some { root := H.null, vMatch := [], vnIndex := vnIndex, tree := T }
  else if T.nTransactions > MAX_BLOCK_WEIGHT / MIN_TRANSACTION_WEIGHT then
    some { root := H.null, vMatch := [], vnIndex := vnIndex, tree := T }
  else if T.vHash.length > T.nTransactions then
    some { root := H.null, vMatch := [], vnIndex := vnIndex, tree := T }
  else if T.vBits.length < T.vHash.length then
    some { root := H.null, vMatch := [], vnIndex := vnIndex, tree := T }
  else
    match TraverseAndExtract H T (treeHeight T.nTransactions) 0 (extractStart T vnIndex) with
    | none => none
    | some (hashMerkleRoot, s) =>
      if s.fBad then
        some { root := H.null, vMatch := s.vMatch, vnIndex := s.vnIndex,
               tree := { T with fBad := s.fBad } }
      else if (s.nBitsUsed + 7) / 8 ≠ (T.vBits.length + 7) / 8 then
        some { root := H.null, vMatch := s.vMatch, vnIndex := s.vnIndex,
               tree := { T with fBad := s.fBad } }
      else if s.nHashUsed ≠ T.vHash.length then
        some { root := H.null, vMatch := s.vMatch, vnIndex := s.vnIndex,
               tree := { T with fBad := s.fBad } }
      else
        some { root := hashMerkleRoot, vMatch := s.vMatch, vnIndex := s.vnIndex,
               tree := { T with fBad := s.fBad } }

/-! ## Bit packing (MerkleBlock.cpp) -/

/-- The loop of `BitsToBytes`: `ret[p / 8] |= bits[p] << (p % 8)` for `count`
consecutive positions from `p`. Bytes are natural numbers below 256. -/
def bitsToBytesLoop (bits : List Bool) : Nat → Nat → List Nat → Option (List Nat)
  | 0, _, ret => some ret
  | count + 1, p, ret =>
    match bits[p]?, ret[p / 8]? with
    | some b, some byte =>
      bitsToBytesLoop bits count (p + 1)
        (ret.set (p / 8) ((byte ||| ((if b then 1 else 0) <<< (p % 8))) % 256))
    | _, _ => none

/-- The function `BitsToBytes`. -/
def BitsToBytes (bits : List Bool) : Option (List Nat) :=
  bitsToBytesLoop bits bits.length 0 (List.replicate ((bits.length + 7) / 8) 0)

/-- The loop of `BytesToBits`: `ret[p] = (bytes[p / 8] & (1 << (p % 8))) != 0`
for `count` consecutive positions from `p`. -/
def bytesToBitsLoop (bytes : List Nat) : Nat → Nat → List Bool → Option (List Bool)
  | 0, _, ret => some ret
  | count + 1, p, ret =>
    match bytes[p / 8]? with
    | none => none
    | some byte =>
      bytesToBitsLoop bytes count (p + 1) (ret.set p ((byte &&& (1 <<< (p % 8))) != 0))

/-- The function `BytesToBits`. -/
def BytesToBits (bytes : List Nat) : Option (List Bool) :=
  bytesToBitsLoop bytes (bytes.length * 8) 0 (List.replicate (bytes.length * 8) false)

/-- Flipping bit `p` of a byte array: bit `p % 8` of byte `p / 8`, the position
at which `BitsToBytes` stores bit `p`. The array is unchanged when `p` is
outside it. -/
def flipBit (bytes : List Nat) (p : Nat) : List Nat :=
  match bytes[p / 8]? with
  | none => bytes
  | some byte => bytes.set (p / 8) (byte ^^^ (1 <<< (p % 8)))

/-! ## `ComputeMerkleRoot` (Consensus/Merkle.cpp) -/

/-- The scan `for (pos = 0; pos + 1 < hashes.size(); pos += 2)` that sets
`mutation` when `hashes[pos] == hashes[pos + 1]`: it walks the list two
elements at a time and stops when fewer than two remain. -/
def scanPairs {D : Type} [DecidableEq D] : List D → Bool → Bool
  | a :: b :: rest, mutation => scanPairs rest (if a = b then true else mutation)
  | _, mutation => mutation

/-- One pass of the body of the `while` loop of `ComputeMerkleRoot` after the
scan: duplicate the last element when the size is odd, hash the concatenation
of the whole vector, copy the digest into `hashes[0]`, halve the size. -/
def merkleRound {D : Type} (H : Hasher D) (hashes : List D) : List D :=
  let padded :=
    if hashes.length % 2 = 1 then
      match hashes.getLast? with
      | some back => hashes ++ [back]
      | none => hashes
    else hashes
  (padded.set 0 (H.SPHINX_256 padded)).take (padded.length / 2)

/-- The `while (hashes.size() > 1)` loop of `ComputeMerkleRoot`, on fuel.
`mutated` tells whether the pointer `mutated` is non-null. -/
def merkleLoop {D : Type} [DecidableEq D] (H : Hasher D) (mutated : Bool) :
    Nat → List D → Bool → List D × Bool
  | 0, hashes, mutation => (hashes, mutation)
  | fuel + 1, hashes, mutation =>
    if hashes.length > 1 then
      merkleLoop H mutated fuel (merkleRound H hashes)
        (if mutated then scanPairs hashes mutation else mutation)
    else (hashes, mutation)

/-- The function `ComputeMerkleRoot` of `Consensus/Merkle.cpp`. `mutated` tells
whether the pointer `mutated` is non-null; the second component is what the
call stores through it. Fuel `hashes.size()` is enough: see
`merkleLoop_length`. -/
def ComputeMerkleRoot {D : Type} [DecidableEq D] (H : Hasher D) (hashes : List D)
    (mutated : Bool) : D × Option Bool :=
  let r := merkleLoop H mutated hashes.length hashes false
  (match r.1 with
    | [] => H.null
    | h :: _ => h,
   if mutated then some r.2 else none)

/-! ## `SPHINXMerkle::ComputeMerkleRoot` (Benchmark/Merkle_root.cpp) -/

/-- The inner loop of `SPHINXMerkle::ComputeMerkleRoot`: `new_hashes` receives
`SPHINX_256(hashes[i] + hashes[i + 1])` for `i = 0, 2, 4, ...`; the size is even
when it runs. -/
def benchPairs {D : Type} (H : Hasher D) : List D → List D
  | a :: b :: rest => H.SPHINX_256 [a, b] :: benchPairs H rest
  | _ => []

/-- The `while` loop of `SPHINXMerkle::ComputeMerkleRoot`, on fuel. -/
def benchLoop {D : Type} (H : Hasher D) : Nat → List D → List D
  | 0, hashes => hashes
  | fuel + 1, hashes =>
    if hashes.length > 1 then
      benchLoop H fuel
        (benchPairs H
          (if hashes.length % 2 ≠ 0 then
            match hashes.getLast? with
            | some back => hashes ++ [back]
            | none => hashes
          else hashes))
    else hashes

/-- The function `SPHINXMerkle::ComputeMerkleRoot`; `return hashes[0]` reads
outside the vector when the input is empty. -/
def SPHINXMerkle.ComputeMerkleRoot {D : Type} (H : Hasher D)
    (transactionHashes : List D) : Option D :=
  (benchLoop H transactionHashes.length transactionHashes)[0]?

/-! ## The pairwise reduction of the specification -/

/-- Specification, "duplicate the last element if the count is odd". -/
def dupLastIfOdd {D : Type} (xs : List D) : List D :=
  if xs.length % 2 = 1 then
    match xs.getLast? with
    | some x => xs ++ [x]
    | none => xs
  else xs

/-- Specification, "the list of combine(left, right) of its adjacent pairs". -/
def combinePairs {D : Type} (combine : D → D → D) : List D → List D
  | a :: b :: rest => combine a b :: combinePairs combine rest
  | _ => []

/-- Specification, one halving: pad to an even count, combine adjacent pairs. -/
def pairwiseStep {D : Type} (combine : D → D → D) (xs : List D) : List D :=
  combinePairs combine (dupLastIfOdd xs)

/-- Specification, "while more than one element remains ...", on fuel. -/
def pairwiseLoop {D : Type} (combine : D → D → D) : Nat → List D → List D
  | 0, xs => xs
  | fuel + 1, xs =>
    if xs.length > 1 then pairwiseLoop combine fuel (pairwiseStep combine xs) else xs

/-- Specification of the Merkle root (spec 4.1): the single element left by the
pairwise reduction, and the null digest for the empty list. -/
def pairwiseRoot {D : Type} (null : D) (combine : D → D → D) (xs : List D) : D :=
  match pairwiseLoop combine xs.length xs with
  | [] => null
  | r :: _ => r

/-- Specification, "the elements at positions 2k and 2k+1 of the current list
are identical for some k": a trailing element without a partner is not looked
at. -/
def hasEqualPair {D : Type} [DecidableEq D] : List D → Bool
  | a :: b :: rest => decide (a = b) || hasEqualPair rest
  | _ => false

/-- Specification of the flag `mutated`, on fuel: some round of the pairwise
reduction starts with a list that has an identical pair. -/
def pairwiseMutated {D : Type} [DecidableEq D] (combine : D → D → D) : Nat → List D → Bool
  | 0, _ => false
  | fuel + 1, xs =>
    if xs.length > 1 then hasEqualPair xs || pairwiseMutated combine fuel (pairwiseStep combine xs)
    else false

/-! ## Chain linkage (Consensus/Verify.cpp) -/

/-- What `verifyBlock` and `verifyChain` read from a `SPHINXBlock` through its
accessors `getPreviousHash`, `getMerkleRoot`, `getTimestamp`, `getNonce`,
`getHeaderHash` and `getHash`. -/
structure SPHINXBlock where
  previousHash : String
  merkleRoot : String
  timestamp : Nat
  nonce : Nat
  headerHash : String
  hash : String
deriving DecidableEq

/-- What `Verify.cpp` calls without defining: `calculateBlockHeaderHash`, and
the outcome of the prover and verifier interaction that
`verify_sphinx_protocol` runs on freshly constructed objects. -/
structure VerifyEnv where
  calculateBlockHeaderHash : String → String → Nat → Nat → String
  verify_sphinx_protocol : Bool

/-- The function `SPHINXVerify::verifyBlock`. -/
def verifyBlock (E : VerifyEnv) (block : SPHINXBlock) : Bool :=
  let calculatedHeaderHash :=
    E.calculateBlockHeaderHash block.previousHash block.merkleRoot block.timestamp block.nonce
  if calculatedHeaderHash = block.headerHash then E.verify_sphinx_protocol
  else false

/-- The `for` loop of `verifyChain`, for `count` consecutive indices from `i`;
`chain.getBlockAt(i)` is `chain[i]?`. -/
def verifyChainLoop (E : VerifyEnv) (chain : List SPHINXBlock) : Nat → Nat → Option Bool
  | 0, _ => some true
  | count + 1, i =>
    match chain[i]? with
    | none => none
    | some currentBlock =>
      if !verifyBlock E currentBlock then some false
      else if i > 0 then
        match chain[i - 1]? with
        | none => none
        | some previousBlock =>
          if currentBlock.previousHash ≠ previousBlock.hash then some false
          else verifyChainLoop E chain count (i + 1)
      else verifyChainLoop E chain count (i + 1)

/-- The function `SPHINXVerify::verifyChain`. -/
def verifyChain (E : VerifyEnv) (chain : List SPHINXBlock) : Option Bool :=
  if chain.length = 0 then some E.verify_sphinx_protocol
  else verifyChainLoop E chain chain.length 0

/-! ## Closed forms used by the proofs

Pure descriptions of what the constructor stores and the traversal returns,
indexed by a tree node `(height, pos)`. None of them is part of the model; the
lemmas below show that the model computes them. -/

/-- The value of `CalcHash(height, pos, vTxid)` when every read is in bounds. -/
def nodeHash {D : Type} (H : Hasher D) (n : Nat) (L : List D) : Nat → Nat → D
  | 0, pos => L.getD pos H.null
  | h + 1, pos =>
    if pos * 2 + 1 < CalcTreeWidth n h then
      H.Hash (nodeHash H n L h (pos * 2)) (nodeHash H n L h (pos * 2 + 1))
    else H.Hash (nodeHash H n L h (pos * 2)) (nodeHash H n L h (pos * 2))

/-- The leaf positions below node `(h, pos)` in a tree of `n` leaves, in
increasing order. -/
def leafIdx (n h pos : Nat) : List Nat :=
  List.range' (pos * 2 ^ h) (min ((pos + 1) * 2 ^ h) n - pos * 2 ^ h)

/-- Whether a leaf below node `(h, pos)` is matched. -/
def anyMatch (n : Nat) (M : List Bool) (h pos : Nat) : Bool :=
  (leafIdx n h pos).any (fun p => M.getD p false)

/-- The matched leaf positions below node `(h, pos)`, in increasing order. -/
def matchedIdx (n : Nat) (M : List Bool) (h pos : Nat) : List Nat :=
  (leafIdx n h pos).filter (fun p => M.getD p false)

/-- The bits `TraverseAndBuild(h, pos)` appends to `vBits`. -/
def builtBits (n : Nat) (M : List Bool) : Nat → Nat → List Bool
  | 0, pos => [anyMatch n M 0 pos]
  | h + 1, pos =>
    if anyMatch n M (h + 1) pos then
      true :: (builtBits n M h (pos * 2) ++
        (if pos * 2 + 1 < CalcTreeWidth n h then builtBits n M h (pos * 2 + 1) else []))
    else [false]

/-- The digests `TraverseAndBuild(h, pos)` appends to `vHash`. -/
def builtHashes {D : Type} (H : Hasher D) (n : Nat) (L : List D) (M : List Bool) :
    Nat → Nat → List D
  | 0, pos => [nodeHash H n L 0 pos]
  | h + 1, pos =>
    if anyMatch n M (h + 1) pos then
      builtHashes H n L M h (pos * 2) ++
        (if pos * 2 + 1 < CalcTreeWidth n h then builtHashes H n L M h (pos * 2 + 1) else [])
    else [nodeHash H n L (h + 1) pos]

/-- Whether the traversal of the subtree at `(h, pos)` of a built tree meets a
node with a real right child whose digest equals the left child's. -/
def twinBelow {D : Type} [DecidableEq D] (H : Hasher D) (n : Nat) (L : List D)
    (M : List Bool) : Nat → Nat → Bool
  | 0, _ => false
  | h + 1, pos =>
    anyMatch n M (h + 1) pos &&
      (twinBelow H n L M h (pos * 2) ||
        (decide (pos * 2 + 1 < CalcTreeWidth n h) &&
          (twinBelow H n L M h (pos * 2 + 1) ||
            decide (nodeHash H n L h (pos * 2 + 1) = nodeHash H n L h (pos * 2)))))

/-- The state in which the traversal of the subtree at `(h, pos)` of a built
tree ends when it started in `s`. -/
def afterNode {D : Type} [DecidableEq D] (H : Hasher D) (L : List D) (M : List Bool)
    (h pos : Nat) (s : ExtractState D) : ExtractState D :=
  { nBitsUsed := s.nBitsUsed + (builtBits L.length M h pos).length,
    nHashUsed := s.nHashUsed + (builtHashes H L.length L M h pos).length,
    vMatch := s.vMatch ++ (matchedIdx L.length M h pos).map (fun p => L.getD p H.null),
    vnIndex := s.vnIndex ++ matchedIdx L.length M h pos,
    fBad := s.fBad || twinBelow H L.length L M h pos,
    overflowed := s.overflowed }

/-- The tree the constructor returns for `(L, M)`. -/
def builtTree {D : Type} (H : Hasher D) (L : List D) (M : List Bool) : CPartialMerkleTree D :=
  { nTransactions := L.length,
    vBits := builtBits L.length M (treeHeight L.length) 0,
    vHash := builtHashes H L.length L M (treeHeight L.length) 0,
    fBad := false }

/-- The list the pairwise reduction holds after `k` halvings. -/
def levelAt {D : Type} (c : D → D → D) (L : List D) (k : Nat) : List D :=
  (pairwiseStep c)^[k] L

/-- The tree the constructor returns, under `demoHasher`, for the leaves
`[1, 2, 3]` and the mask `[false, false, true]`. -/
def demoTree : CPartialMerkleTree Nat :=
  { nTransactions := 3, vBits := [true, false, true, true], vHash := [51, 3], fBad := false }

/-- An environment for evaluating `verifyChain`: the header hash is the
concatenation of the previous hash and the Merkle root, and the protocol
interaction succeeds. -/
def demoEnv : VerifyEnv where
  calculateBlockHeaderHash := fun prev root _ _ => prev ++ root
  verify_sphinx_protocol := true

/-- A chain of two correctly linked blocks for `demoEnv`. -/
def demoChain : List SPHINXBlock :=
  [ { previousHash := "", merkleRoot := "a", timestamp := 1, nonce := 0,
      headerHash := "a", hash := "h0" },
    { previousHash := "h0", merkleRoot := "b", timestamp := 2, nonce := 0,
      headerHash := "h0b", hash := "h1" } ]

/-! ## Transaction checks (Consensus/Verify.cpp)

`int`, `int64_t` and `CAmount` values are integers. For `CheckTxInputs` the
exact sums give the same verdicts as 64-bit wrapping sums whenever the coin
values are 64-bit and `MAX_MONEY` is below `2^63`: a sum of two amounts in
range that leaves the 64-bit range wraps to a negative amount, which is out of
range like the exact sum. The one place where a conversion changes a verdict,
the comparison of a signed depth with the unsigned `COINBASE_MATURITY`, is
modelled with the conversion. -/

/-- Constants used by the transaction checks whose definitions are not in the
sources: `LOCKTIME_THRESHOLD` and the members of `SPHINXTrx::CTxIn`. -/
structure TxConsts where
  LOCKTIME_THRESHOLD : Nat
  SEQUENCE_FINAL : Nat
  SEQUENCE_LOCKTIME_DISABLE_FLAG : Nat
  SEQUENCE_LOCKTIME_TYPE_FLAG : Nat
  SEQUENCE_LOCKTIME_MASK : Nat
  SEQUENCE_LOCKTIME_GRANULARITY : Nat

/-- The values these constants have in BIP 68 and BIP 113, for evaluating the
code on explicit inputs. -/
def demoConsts : TxConsts where
  LOCKTIME_THRESHOLD := 500000000
  SEQUENCE_FINAL := 0xffffffff
  SEQUENCE_LOCKTIME_DISABLE_FLAG := 2 ^ 31
  SEQUENCE_LOCKTIME_TYPE_FLAG := 2 ^ 22
  SEQUENCE_LOCKTIME_MASK := 0x0000ffff
  SEQUENCE_LOCKTIME_GRANULARITY := 9

/-- What the checks read from a `SPHINXTrx::CTxIn`: the outpoint it spends
(transaction id and output index) and its 32-bit sequence number. -/
structure CTxIn where
  prevout : Nat × Nat
  nSequence : Nat
deriving DecidableEq

/-- What the checks read from a `SPHINXTrx::Transaction`: its inputs, its
32-bit `nLockTime`, and the result of `GetValueOut()`, a method whose body is
not in the sources. -/
structure Transaction where
  vin : List CTxIn
  nLockTime : Nat
  valueOut : Int
deriving DecidableEq

/-- The loop of `IsFinalTx` over `tx.vin`. -/
def allSequenceFinal (K : TxConsts) : List CTxIn → Bool
  | [] => true
  | txin :: rest =>
    if txin.nSequence ≠ K.SEQUENCE_FINAL then false
    else allSequenceFinal K rest

/-- The function `SPHINXVerify::IsFinalTx`. -/
def IsFinalTx (K : TxConsts) (tx : Transaction) (nBlockHeight nBlockTime : Int) : Bool :=
  if tx.nLockTime = 0 then true
  else if (tx.nLockTime : Int) <
      (if (tx.nLockTime : Int) < (K.LOCKTIME_THRESHOLD : Int) then nBlockHeight
       else nBlockTime) then true
  else allSequenceFinal K tx.vin

/-- The conversion `(int)` of a 32-bit unsigned value. -/
def toInt32 (x : Nat) : Int :=
  if x % 2 ^ 32 < 2 ^ 31 then ((x % 2 ^ 32 : Nat) : Int) else ((x % 2 ^ 32 : Nat) : Int) - 2 ^ 32

/-- The value an addition or subtraction of two `int` operands leaves in a
32-bit register: the exact result reduced into `[-2^31, 2^31)`. The C++
standard leaves a signed operation whose exact result is outside that range
undefined; the compiled code computes this value. -/
def wrapInt32 (x : Int) : Int :=
  (x + 2147483648) % 4294967296 - 2147483648

/-- The height candidate of an input:
`nCoinHeight + (int)(txin.nSequence & SEQUENCE_LOCKTIME_MASK) - 1`, an `int`
sum followed by an `int` difference. -/
def heightCandidate (K : TxConsts) (txin : CTxIn) (nCoinHeight : Int) : Int :=
  wrapInt32 (wrapInt32 (nCoinHeight + toInt32 (txin.nSequence &&& K.SEQUENCE_LOCKTIME_MASK)) - 1)

/-- The value of `nCoinTime`: `0` when `nCoinHeight == 0`, otherwise
`block.GetAncestor(nCoinHeight - 1)->GetMedianTimePast()`. The argument
`ancestorMTP` gives the median time past of the ancestor of `block` at a
height, and `none` where `GetAncestor` returns a null pointer. -/
def coinTime (ancestorMTP : Int → Option Int) (nCoinHeight : Int) : Option Int :=
  if nCoinHeight = 0 then some 0 else ancestorMTP (nCoinHeight - 1)

/-- The offset `(int64_t)((txin.nSequence & SEQUENCE_LOCKTIME_MASK) <<
SEQUENCE_LOCKTIME_GRANULARITY)`, a 32-bit unsigned shift. -/
def timeOffset (K : TxConsts) (txin : CTxIn) : Int :=
  ((((txin.nSequence &&& K.SEQUENCE_LOCKTIME_MASK) <<< K.SEQUENCE_LOCKTIME_GRANULARITY)
    % 2 ^ 32 : Nat) : Int)

/-- The update `x = (x == -1) ? c : std::min(x, c)` of `nMinHeight` and
`nMinTime`. -/
def minOrFirst (x c : Int) : Int :=
  if x = -1 then c else min x c

/-- The loop of `CalculateSequenceLocks`, for `count` consecutive indices from
`txinIndex`. -/
def sequenceLocksLoop (K : TxConsts) (ancestorMTP : Int → Option Int) (vin : List CTxIn) :
    Nat → Nat → Int → Int → List Int → Option (Int × Int × List Int)
  | 0, _, nMinHeight, nMinTime, prevHeights => some (nMinHeight, nMinTime, prevHeights)
  | count + 1, txinIndex, nMinHeight, nMinTime, prevHeights =>
    match vin[txinIndex]?, prevHeights[txinIndex]? with
    | some txin, some nCoinHeight =>
      if txin.nSequence &&& K.SEQUENCE_LOCKTIME_DISABLE_FLAG ≠ 0 then
        sequenceLocksLoop K ancestorMTP vin count (txinIndex + 1) nMinHeight nMinTime
          (prevHeights.set txinIndex 0)
      else
        if txin.nSequence &&& K.SEQUENCE_LOCKTIME_TYPE_FLAG ≠ 0 then
          match coinTime ancestorMTP nCoinHeight with
          | none => none
          | some nCoinTime =>
            sequenceLocksLoop K ancestorMTP vin count (txinIndex + 1)
              (minOrFirst nMinHeight (heightCandidate K txin nCoinHeight))
              (minOrFirst nMinTime (nCoinTime + timeOffset K txin - 1))
              prevHeights
        else
          sequenceLocksLoop K ancestorMTP vin count (txinIndex + 1)
            (minOrFirst nMinHeight (heightCandidate K txin nCoinHeight))
            nMinTime prevHeights
    | _, _ => none

/-- The function `SPHINXVerify::CalculateSequenceLocks` (its parameter `flags`
is not used). The result is the returned pair and the vector `prevHeights` as
the call leaves it; `none` stands for the failed assertion and for following a
null ancestor. -/
def CalculateSequenceLocks (K : TxConsts) (ancestorMTP : Int → Option Int)
    (tx : Transaction) (prevHeights : List Int) : Option (Int × Int × List Int) :=
  if prevHeights.length ≠ tx.vin.length then none
  else sequenceLocksLoop K ancestorMTP tx.vin tx.vin.length 0 (-1) (-1) prevHeights

/-- The constant `COINBASE_MATURITY` of `Consensus.hpp`, a `uint64_t`. -/
def COINBASE_MATURITY : Nat := 100

/-- What `CheckTxInputs` reads from a `Coin`: `out.nValue`, `IsCoinBase()` and
`nHeight`. -/
structure Coin where
  nValue : Int
  fCoinBase : Bool
  nHeight : Int
deriving DecidableEq

/-- Modelled from the spec: `MoneyRange` is called by `CheckTxInputs` but is
not in the sources. The spec speaks of the protocol's valid-amount range; it
is taken as `[0, MAX_MONEY]`, the shape of `SPXRange` in `Asset.hpp`, with
`MAX_MONEY` a parameter. -/
def MoneyRange (MAX_MONEY : Int) (nValue : Int) : Bool :=
  decide (0 ≤ nValue ∧ nValue ≤ MAX_MONEY)

/-- Modelled from the spec: `CCoinsViewCache::HaveInputs` is not in the
sources. A coin view maps an outpoint to its unspent coin, if there is one, and
`HaveInputs` holds when every input's referenced coin exists and is unspent. -/
def HaveInputs (inputs : Nat × Nat → Option Coin) (tx : Transaction) : Bool :=
  tx.vin.all (fun txin => (inputs txin.prevout).isSome)

/-- The outcome of `CheckTxInputs`: `true` with the fee written to `txfee`, or
`false` with the reject reason passed to `state.Invalid`. -/
inductive TxCheck where
  | success (txfee : Int)
  | invalid (reason : String)
deriving DecidableEq

/-- The loop of `CheckTxInputs` over `tx.vin`, from the running sum `nValueIn`:
it ends with the final sum or with a reject reason. `AccessCoin` on an outpoint
without unspent coin returns a spent coin, on which the assertion fails. The
depth `nSpendHeight - coin.nHeight` is converted to 64 bits unsigned for the
comparison with `COINBASE_MATURITY`. -/
def checkInputsLoop (MAX_MONEY : Int) (inputs : Nat × Nat → Option Coin) (nSpendHeight : Int) :
    List CTxIn → Int → Option (Except String Int)
  | [], nValueIn => some (.ok nValueIn)
  | txin :: rest, nValueIn =>
    match inputs txin.prevout with
    | none => none
    | some coin =>
      if coin.fCoinBase ∧ (nSpendHeight - coin.nHeight) % 2 ^ 64 < (COINBASE_MATURITY : Int) then
        some (.error "bad-txns-premature-spend-of-coinbase")
      else
        if !MoneyRange MAX_MONEY coin.nValue || !MoneyRange MAX_MONEY (nValueIn + coin.nValue) then
          some (.error "bad-txns-inputvalues-outofrange")
        else checkInputsLoop MAX_MONEY inputs nSpendHeight rest (nValueIn + coin.nValue)

/-- The function `SPHINXVerify::CheckTxInputs`. -/
def CheckTxInputs (MAX_MONEY : Int) (tx : Transaction) (inputs : Nat × Nat → Option Coin)
    (nSpendHeight : Int) : Option TxCheck :=
  if !HaveInputs inputs tx then some (.invalid "bad-txns-inputs-missingorspent")
  else
    match checkInputsLoop MAX_MONEY inputs nSpendHeight tx.vin 0 with
    | none => none
    | some (.error reason) => some (.invalid reason)
    | some (.ok nValueIn) =>
      if nValueIn < tx.valueOut then some (.invalid "bad-txns-in-belowout")
      else
        if !MoneyRange MAX_MONEY (nValueIn - tx.valueOut) then
          some (.invalid "bad-txns-fee-outofrange")
        else some (.success (nValueIn - tx.valueOut))

/-- A chain of three blocks for `demoEnv` in which the first two are correctly
linked and the previous-hash of the third is not the hash of the second. -/
def demoBrokenChain : List SPHINXBlock :=
  [ { previousHash := "", merkleRoot := "a", timestamp := 1, nonce := 0,
      headerHash := "a", hash := "h0" },
    { previousHash := "h0", merkleRoot := "b", timestamp := 2, nonce := 0,
      headerHash := "h0b", hash := "h1" },
    { previousHash := "zz", merkleRoot := "c", timestamp := 3, nonce := 0,
      headerHash := "zzc", hash := "h2" } ]

/-- A coin view for evaluating `CheckTxInputs`: two ordinary coins worth 5 and
3, a coinbase coin created at height 100 and a coinbase coin created at height
200, each worth 50. -/
def demoView : Nat × Nat → Option Coin := fun outpoint =>
  if outpoint = (1, 0) then some { nValue := 5, fCoinBase := false, nHeight := 10 }
  else if outpoint = (1, 1) then some { nValue := 3, fCoinBase := false, nHeight := 10 }
  else if outpoint = (2, 0) then some { nValue := 50, fCoinBase := true, nHeight := 100 }
  else if outpoint = (3, 0) then some { nValue := 50, fCoinBase := true, nHeight := 200 }
  else none

/-- A transaction spending the coins worth 5 and 3 with an output total of 7. -/
def demoTxFee : Transaction :=
  { vin := [{ prevout := (1, 0), nSequence := 0 }, { prevout := (1, 1), nSequence := 0 }],
    nLockTime := 0, valueOut := 7 }

/-- A transaction spending the coins worth 5 and 3 with an output total of 9. -/
def demoTxBelow : Transaction :=
  { vin := [{ prevout := (1, 0), nSequence := 0 }, { prevout := (1, 1), nSequence := 0 }],
    nLockTime := 0, valueOut := 9 }

/-- A transaction spending the coinbase coin created at height 100. -/
def demoTxCoinbase : Transaction :=
  { vin := [{ prevout := (2, 0), nSequence := 0 }], nLockTime := 0, valueOut := 9 }

/-- A transaction spending the coinbase coin created at height 200. -/
def demoTxLateCoinbase : Transaction :=
  { vin := [{ prevout := (3, 0), nSequence := 0 }], nLockTime := 0, valueOut := 9 }

/-- A transaction with lock time 500000 and one input whose sequence number is
not `SEQUENCE_FINAL`. -/
def demoTxLocked : Transaction :=
  { vin := [{ prevout := (1, 0), nSequence := 0 }], nLockTime := 500000, valueOut := 0 }

/-! ## Closed forms for `CalculateSequenceLocks` -/

/-- The loop of `CalculateSequenceLocks` as a recursion over the inputs paired
with their entries of `prevHeights`: the two minima and the entries as the loop
leaves them. -/
def seqFold (K : TxConsts) (ancestorMTP : Int → Option Int) :
    List (CTxIn × Int) → Int → Int → Option (Int × Int × List Int)
  | [], h, t => some (h, t, [])
  | (txin, p) :: rest, h, t =>
    if txin.nSequence &&& K.SEQUENCE_LOCKTIME_DISABLE_FLAG ≠ 0 then
      (seqFold K ancestorMTP rest h t).map (fun r => (r.1, r.2.1, 0 :: r.2.2))
    else
      if txin.nSequence &&& K.SEQUENCE_LOCKTIME_TYPE_FLAG ≠ 0 then
        match coinTime ancestorMTP p with
        | none => none
        | some nCoinTime =>
          (seqFold K ancestorMTP rest (minOrFirst h (heightCandidate K txin p))
            (minOrFirst t (nCoinTime + timeOffset K txin - 1))).map
            (fun r => (r.1, r.2.1, p :: r.2.2))
      else
        (seqFold K ancestorMTP rest (minOrFirst h (heightCandidate K txin p)) t).map
          (fun r => (r.1, r.2.1, p :: r.2.2))

/-- The height constraints of a transaction: one for every input whose
sequence number has the disable bit clear, `prevHeights[i] +
(int)(nSequence & SEQUENCE_LOCKTIME_MASK) - 1`, in input order. -/
def heightCandidatesOf (K : TxConsts) (l : List (CTxIn × Int)) : List Int :=
  l.filterMap (fun e =>
    if e.1.nSequence &&& K.SEQUENCE_LOCKTIME_DISABLE_FLAG ≠ 0 then none
    else some (heightCandidate K e.1 e.2))

/-- The time constraints of a transaction: one for every input whose sequence
number has the disable bit clear and the type flag set, `nCoinTime +
((nSequence & SEQUENCE_LOCKTIME_MASK) << SEQUENCE_LOCKTIME_GRANULARITY) - 1`,
in input order, where `nCoinTime` is 0 for an entry 0 of `prevHeights` and the
median time past of the ancestor at height `prevHeights[i] - 1` otherwise. -/
def timeCandidatesOf (K : TxConsts) (ancestorMTP : Int → Option Int)
    (l : List (CTxIn × Int)) : List Int :=
  l.filterMap (fun e =>
    if e.1.nSequence &&& K.SEQUENCE_LOCKTIME_DISABLE_FLAG ≠ 0 then none
    else if e.1.nSequence &&& K.SEQUENCE_LOCKTIME_TYPE_FLAG ≠ 0 then
      (coinTime ancestorMTP e.2).map (fun nCoinTime => nCoinTime + timeOffset K e.1 - 1)
    else none)

/-- The least element of a list of integers, and `-1` for the empty list. -/
def leastOrMinusOne : List Int → Int
  | [] => -1
  | c :: cs => cs.foldl min c

/-- Height constraints in the words of the specification as first stated: one
for each input that has neither the disable bit nor the type flag set. -/
def claimedHeightConstraints (K : TxConsts) (l : List (CTxIn × Int)) : List Int :=
  l.filterMap (fun e =>
    if e.1.nSequence &&& K.SEQUENCE_LOCKTIME_DISABLE_FLAG ≠ 0 then none
    else if e.1.nSequence &&& K.SEQUENCE_LOCKTIME_TYPE_FLAG ≠ 0 then none
    else some (e.2 + ((e.1.nSequence &&& K.SEQUENCE_LOCKTIME_MASK : Nat) : Int) - 1))

/-- Height constraints, one for each input whose disable bit is clear, whatever
its type flag: `prevHeights[i] + (sequence & SEQUENCE_LOCKTIME_MASK) - 1`. -/
def heightConstraints (K : TxConsts) (l : List (CTxIn × Int)) : List Int :=
  l.filterMap (fun e =>
    if e.1.nSequence &&& K.SEQUENCE_LOCKTIME_DISABLE_FLAG ≠ 0 then none
    else some (e.2 + ((e.1.nSequence &&& K.SEQUENCE_LOCKTIME_MASK : Nat) : Int) - 1))

/-- A chain for the examples: the ancestor at height `h ≥ 0` has median time
past `1000 + h`, and there is no ancestor below height 0. -/
def demoMTP : Int → Option Int := fun h => if 0 ≤ h then some (1000 + h) else none

/-- A transaction with one input, time-typed with masked field 5. -/
def demoTxTimeLock : Transaction :=
  { vin := [{ prevout := (1, 0), nSequence := 2 ^ 22 + 5 }], nLockTime := 0, valueOut := 0 }

/-- A transaction with four inputs: height-typed with field 0, time-typed with
field 5, disabled, height-typed with field 7. -/
def demoTxSeq : Transaction :=
  { vin := [{ prevout := (1, 0), nSequence := 0 },
            { prevout := (1, 1), nSequence := 2 ^ 22 + 5 },
            { prevout := (2, 0), nSequence := 2 ^ 31 },
            { prevout := (3, 0), nSequence := 7 }],
    nLockTime := 0, valueOut := 0 }

/-- The inputs, paired with their entries of `prevHeights`, whose sequence
number has the disable bit clear. -/
def enabledInputs (K : TxConsts) (l : List (CTxIn × Int)) : List (CTxIn × Int) :=
  l.filter (fun e => decide (e.1.nSequence &&& K.SEQUENCE_LOCKTIME_DISABLE_FLAG = 0))

/-! ## `EvaluateSequenceLocks` (Consensus/Verify.cpp) -/

/-- What `EvaluateSequenceLocks` reads of a `CBlockIndex` (a type that is not in
the sources): the member `nHeight`, and `pprev->GetMedianTimePast()`, which is
`none` when `pprev` is null. -/
structure CBlockIndex where
  nHeight : Int
  pprevMedianTimePast : Option Int
deriving DecidableEq

/-- The function `EvaluateSequenceLocks`; `none` when `assert(block.pprev)`
fails. -/
def EvaluateSequenceLocks (block : CBlockIndex) (lockPair : Int × Int) : Option Bool :=
  match block.pprevMedianTimePast with
  | none => none
  | some nBlockTime =>
    if lockPair.1 ≥ block.nHeight ∨ lockPair.2 ≥ nBlockTime then some false
    else some true

/-! ## Block roots (Consensus/Merkle.cpp) -/

/-- What the code reads of a `CBlock` (a type that is not in the sources): the
result of `GetBlockHeader()` and the vector `vtx`. The types of headers and of
transactions are parameters. -/
structure CBlock (Hd Tx : Type) where
  header : Hd
  vtx : List Tx

/-- The loops `for (s = ...; s < block.vtx.size(); s++) leaves[s] = f(block.vtx[s])`
of `BlockMerkleRoot` and `BlockWitnessMerkleRoot`, for `count` consecutive
positions from `s`. -/
def fillLeaves {Tx D : Type} (f : Tx → D) (vtx : List Tx) :
    Nat → Nat → List D → Option (List D)
  | 0, _, leaves => some leaves
  | count + 1, s, leaves =>
    match vtx[s]? with
    | none => none
    | some tx =>
      if s < leaves.length then fillLeaves f vtx count (s + 1) (leaves.set s (f tx))
      else none

/-- The function `BlockMerkleRoot`; `GetHash` is the method of the transaction
type. `leaves.resize(n)` fills with `uint256()`. -/
def BlockMerkleRoot {Hd Tx D : Type} [DecidableEq D] (H : Hasher D) (GetHash : Tx → D)
    (block : CBlock Hd Tx) (mutated : Bool) : Option (D × Option Bool) :=
  match fillLeaves GetHash block.vtx block.vtx.length 0
      (List.replicate block.vtx.length H.null) with
  | none => none
  | some leaves => some (ComputeMerkleRoot H leaves mutated)

/-- The function `BlockWitnessMerkleRoot`; `GetWitnessHash` is the method of the
transaction type. `leaves[0].SetNull()` is outside the vector for a block
without transactions. -/
def BlockWitnessMerkleRoot {Hd Tx D : Type} [DecidableEq D] (H : Hasher D)
    (GetWitnessHash : Tx → D) (block : CBlock Hd Tx) (mutated : Bool) :
    Option (D × Option Bool) :=
  if 0 < (List.replicate block.vtx.length H.null).length then
    match fillLeaves GetWitnessHash block.vtx (block.vtx.length - 1) 1
        ((List.replicate block.vtx.length H.null).set 0 H.null) with
    | none => none
    | some leaves => some (ComputeMerkleRoot H leaves mutated)
  else none

/-! ## `CMerkleBlock` (MerkleBlock.hpp, MerkleBlock.cpp) -/

/-- The data members of `CMerkleBlock`. -/
structure CMerkleBlock (Hd D : Type) where
  header : Hd
  txn : CPartialMerkleTree D
  vMatchedTxn : List (Nat × D)

/-- The test `txids && txids->count(hash)`: `none` is the null pointer, and a
set of digests is given by a list of its elements. -/
def txidsCount {D : Type} [DecidableEq D] (txids : Option (List D)) (hash : D) : Bool :=
  match txids with
  | none => false
  | some ids => decide (hash ∈ ids)

/-- What the loop of the `CMerkleBlock` constructor reads and writes: the bloom
filter behind the pointer `filter` (`none` is the null pointer), the locals
`vMatch` and `vHashes`, and the member `vMatchedTxn`. -/
structure MatchState (F D : Type) where
  filter : Option F
  vMatch : List Bool
  vHashes : List D
  vMatchedTxn : List (Nat × D)

/-- The loop `for (i = 0; i < block.vtx.size(); i++)` of the `CMerkleBlock`
constructor, over the transactions from index `i` on.
`CBloomFilter::IsRelevantAndUpdate` is not in the sources: it is a parameter
that returns its verdict and the filter as it leaves it. -/
def matchLoop {Tx F D : Type} [DecidableEq D] (GetHash : Tx → D)
    (IsRelevantAndUpdate : F → Tx → Bool × F) (txids : Option (List D)) :
    List Tx → Nat → MatchState F D → MatchState F D
  | [], _, s => s
  | tx :: rest, i, s =>
    if txidsCount txids (GetHash tx) then
      matchLoop GetHash IsRelevantAndUpdate txids rest (i + 1)
        { s with vMatch := s.vMatch ++ [true], vHashes := s.vHashes ++ [GetHash tx] }
    else
      match s.filter with
      | some f =>
        if (IsRelevantAndUpdate f tx).1 then
          matchLoop GetHash IsRelevantAndUpdate txids rest (i + 1)
            { filter := some (IsRelevantAndUpdate f tx).2,
              vMatch := s.vMatch ++ [true],
              vHashes := s.vHashes ++ [GetHash tx],
              vMatchedTxn := s.vMatchedTxn ++ [(i, GetHash tx)] }
        else
          matchLoop GetHash IsRelevantAndUpdate txids rest (i + 1)
            { filter := some (IsRelevantAndUpdate f tx).2,
              vMatch := s.vMatch ++ [false],
              vHashes := s.vHashes ++ [GetHash tx],
              vMatchedTxn := s.vMatchedTxn }
      | none =>
        matchLoop GetHash IsRelevantAndUpdate txids rest (i + 1)
          { s with vMatch := s.vMatch ++ [false], vHashes := s.vHashes ++ [GetHash tx] }

/-- The state in which the loop of the `CMerkleBlock` constructor ends. -/
def matchResult {Hd Tx F D : Type} [DecidableEq D] (GetHash : Tx → D)
    (IsRelevantAndUpdate : F → Tx → Bool × F) (block : CBlock Hd Tx)
    (filter : Option F) (txids : Option (List D)) : MatchState F D :=
  matchLoop GetHash IsRelevantAndUpdate txids block.vtx 0
    { filter := filter, vMatch := [], vHashes := [], vMatchedTxn := [] }

/-- The combined constructor `CMerkleBlock(block, filter, txids)`: the object
built and the filter as the constructor leaves it; `none` when the constructor
of the partial tree fails. -/
def CMerkleBlock.build {Hd Tx F D : Type} [DecidableEq D] (H : Hasher D) (GetHash : Tx → D)
    (IsRelevantAndUpdate : F → Tx → Bool × F) (block : CBlock Hd Tx)
    (filter : Option F) (txids : Option (List D)) :
    Option (CMerkleBlock Hd D × Option F) :=
  match CPartialMerkleTree.build H
      (matchResult GetHash IsRelevantAndUpdate block filter txids).vHashes
      (matchResult GetHash IsRelevantAndUpdate block filter txids).vMatch with
  | none => none
  | some txn =>
    some ({ header := block.header, txn := txn,
            vMatchedTxn := (matchResult GetHash IsRelevantAndUpdate block filter txids).vMatchedTxn },
          (matchResult GetHash IsRelevantAndUpdate block filter txids).filter)

/-- The filter after the constructor has gone through the transactions `txs`
starting with the filter `f`: `IsRelevantAndUpdate` has been called, in order,
on those whose id is not in the explicit id set. -/
def filterAfter {Tx F D : Type} [DecidableEq D] (GetHash : Tx → D)
    (IsRelevantAndUpdate : F → Tx → Bool × F) (txids : Option (List D)) (f : F)
    (txs : List Tx) : F :=
  txs.foldl (fun g tx => if txidsCount txids (GetHash tx) then g
    else (IsRelevantAndUpdate g tx).2) f

/-- Whether the filter, when it is asked about transaction `i` after the
transactions before it, reports it relevant; false when no filter is given or
there is no transaction `i`. -/
def filterRelevantAt {Tx F D : Type} [DecidableEq D] (GetHash : Tx → D)
    (IsRelevantAndUpdate : F → Tx → Bool × F) (txids : Option (List D))
    (filter : Option F) (vtx : List Tx) (i : Nat) : Bool :=
  match filter, vtx[i]? with
  | some f, some tx =>
    (IsRelevantAndUpdate (filterAfter GetHash IsRelevantAndUpdate txids f (vtx.take i)) tx).1
  | _, _ => false

/-- Whether the id of transaction `i` is in the explicit id set; false when no
set is given or there is no transaction `i`. -/
def inTxidsAt {Tx D : Type} [DecidableEq D] (GetHash : Tx → D) (txids : Option (List D))
    (vtx : List Tx) (i : Nat) : Bool :=
  match vtx[i]? with
  | some tx => txidsCount txids (GetHash tx)
  | none => false

/-- The side list in the words of the specification as first stated: the pairs
`(i, id of transaction i)`, in increasing `i`, of all transactions marked
matched, by the id set or by the filter. -/
def claimedMatchedTxn {Tx F D : Type} [DecidableEq D] (null : D) (GetHash : Tx → D)
    (IsRelevantAndUpdate : F → Tx → Bool × F) (txids : Option (List D))
    (filter : Option F) (vtx : List Tx) : List (Nat × D) :=
  ((List.range vtx.length).filter (fun i =>
      inTxidsAt GetHash txids vtx i ||
        filterRelevantAt GetHash IsRelevantAndUpdate txids filter vtx i)).map
    (fun i => (i, (vtx.map GetHash).getD i null))

/-- The pairs `(i, id of transaction i)`, in increasing `i`, of the transactions
whose id is not in the explicit id set and which the filter reports relevant. -/
def filterMatchedTxn {Tx F D : Type} [DecidableEq D] (null : D) (GetHash : Tx → D)
    (IsRelevantAndUpdate : F → Tx → Bool × F) (txids : Option (List D))
    (filter : Option F) (vtx : List Tx) : List (Nat × D) :=
  ((List.range vtx.length).filter (fun i =>
      !inTxidsAt GetHash txids vtx i &&
        filterRelevantAt GetHash IsRelevantAndUpdate txids filter vtx i)).map
    (fun i => (i, (vtx.map GetHash).getD i null))

/-- A block of two transactions for the examples; a transaction is its id. -/
def demoBlock : CBlock Nat Nat := { header := 99, vtx := [7, 8] }

/-- A filter for the examples: its state is the list of transactions it has
been asked about, and it reports the even ones relevant. -/
def demoIsRelevantAndUpdate : List Nat → Nat → Bool × List Nat :=
  fun f tx => (tx % 2 == 0, f ++ [tx])

/-! ## Signature-operation cost (Consensus/Verify.cpp)

The counters are reduced where the code's types reduce them: sums and products
of `unsigned int` modulo `2^32`, additions to the `int64_t` accumulator modulo
`2^64`. -/

/-- The script operations the sig-op functions of `Consensus/Verify.cpp` call;
none of them is in the sources, so they are parameters, as are the types of
scripts and of witnesses. Counts are natural numbers; the code that adds them
up reduces them to the width of its accumulator. -/
structure ScriptOps (Script Witness : Type) where
  /-- The call `script.GetSigOpCount(fAccurate)`. -/
  GetSigOpCount : Script → Bool → Nat
  /-- The call `scriptPubKey.GetSigOpCount(scriptSig)`. -/
  GetSigOpCountOf : Script → Script → Nat
  /-- The call `scriptPubKey.IsPayToScriptHash()`. -/
  IsPayToScriptHash : Script → Bool
  /-- The call `CountWitnessSigOps(scriptSig, scriptPubKey, &scriptWitness, flags)`. -/
  CountWitnessSigOps : Script → Script → Witness → Nat → Nat
  /-- The flag bit `SCRIPT_VERIFY_P2SH`. -/
  SCRIPT_VERIFY_P2SH : Nat

/-- The members of a transaction input that the sig-op functions read. -/
structure ScriptTxIn (Script Witness : Type) where
  prevout : Nat × Nat
  scriptSig : Script
  scriptWitness : Witness

/-- The members of a transaction that the sig-op functions read: the inputs,
the `scriptPubKey` of each output, and the value of `IsCoinBase()`. -/
structure ScriptTransaction (Script Witness : Type) where
  vin : List (ScriptTxIn Script Witness)
  vout : List Script
  IsCoinBase : Bool

/-- The function `GetLegacySigOpCount`: two loops of `nSigOps += ...` on an
`unsigned int`. -/
def GetLegacySigOpCount {Script Witness : Type} (S : ScriptOps Script Witness)
    (tx : ScriptTransaction Script Witness) : Nat :=
  tx.vout.foldl (fun nSigOps scriptPubKey =>
      (nSigOps + S.GetSigOpCount scriptPubKey false) % 2 ^ 32)
    (tx.vin.foldl (fun nSigOps txin =>
      (nSigOps + S.GetSigOpCount txin.scriptSig false) % 2 ^ 32) 0)

/-- The loop of `GetP2SHSigOpCount`. The coin view gives the `scriptPubKey` of
the coin at an outpoint, and `none` for a spent coin, on which
`assert(!coin.IsSpent())` fails. -/
def p2shLoop {Script Witness : Type} (S : ScriptOps Script Witness)
    (inputs : Nat × Nat → Option Script) :
    List (ScriptTxIn Script Witness) → Nat → Option Nat
  | [], nSigOps => some nSigOps
  | txin :: rest, nSigOps =>
    match inputs txin.prevout with
    | none => none
    | some scriptPubKey =>
      if S.IsPayToScriptHash scriptPubKey then
        p2shLoop S inputs rest
          ((nSigOps + S.GetSigOpCountOf scriptPubKey txin.scriptSig) % 2 ^ 32)
      else p2shLoop S inputs rest nSigOps

/-- The function `GetP2SHSigOpCount`. -/
def GetP2SHSigOpCount {Script Witness : Type} (S : ScriptOps Script Witness)
    (tx : ScriptTransaction Script Witness) (inputs : Nat × Nat → Option Script) :
    Option Nat :=
  if tx.IsCoinBase then some 0
  else p2shLoop S inputs tx.vin 0

/-- Conversion of an integer to `int64_t`: reduction modulo `2^64` into the
range from `-2^63` to `2^63 - 1`. -/
def toInt64 (x : Int) : Int :=
  (x + 2 ^ 63) % 2 ^ 64 - 2 ^ 63

/-- The last loop of `GetTransactionSigOpCost`:
`nSigOps += CountWitnessSigOps(...)` on an `int64_t`. -/
def witnessLoop {Script Witness : Type} (S : ScriptOps Script Witness)
    (inputs : Nat × Nat → Option Script) (flags : Nat) :
    List (ScriptTxIn Script Witness) → Int → Option Int
  | [], nSigOps => some nSigOps
  | txin :: rest, nSigOps =>
    match inputs txin.prevout with
    | none => none
    | some scriptPubKey =>
      witnessLoop S inputs flags rest
        (toInt64 (nSigOps +
          (S.CountWitnessSigOps txin.scriptSig scriptPubKey txin.scriptWitness flags : Nat)))

/-- The function `GetTransactionSigOpCost`. The products with
`WITNESS_SCALE_FACTOR` are products of an `unsigned int` and a `uint32_t`,
computed modulo `2^32` before they are converted to `int64_t`. -/
def GetTransactionSigOpCost {Script Witness : Type} (S : ScriptOps Script Witness)
    (tx : ScriptTransaction Script Witness) (inputs : Nat × Nat → Option Script)
    (flags : Nat) : Option Int :=
  if tx.IsCoinBase then
    some (((GetLegacySigOpCount S tx * WITNESS_SCALE_FACTOR) % 2 ^ 32 : Nat) : Int)
  else if flags &&& S.SCRIPT_VERIFY_P2SH ≠ 0 then
    match GetP2SHSigOpCount S tx inputs with
    | none => none
    | some nP2SH =>
      witnessLoop S inputs flags tx.vin
        ((((GetLegacySigOpCount S tx * WITNESS_SCALE_FACTOR) % 2 ^ 32 : Nat) : Int) +
          (((nP2SH * WITNESS_SCALE_FACTOR) % 2 ^ 32 : Nat) : Int))
  else
    witnessLoop S inputs flags tx.vin
      (((GetLegacySigOpCount S tx * WITNESS_SCALE_FACTOR) % 2 ^ 32 : Nat) : Int)

/-- The legacy sig-op count as an exact sum: over the unlock scripts of the
inputs and the lock scripts of the outputs. -/
def legacyCount {Script Witness : Type} (S : ScriptOps Script Witness)
    (tx : ScriptTransaction Script Witness) : Nat :=
  (tx.vin.map (fun txin => S.GetSigOpCount txin.scriptSig false)).sum +
    (tx.vout.map (fun scriptPubKey => S.GetSigOpCount scriptPubKey false)).sum

/-- The P2SH sig-op count as an exact sum over the inputs paired with the lock
scripts of the coins they spend. -/
def p2shCount {Script Witness : Type} (S : ScriptOps Script Witness)
    (l : List (ScriptTxIn Script Witness × Script)) : Nat :=
  (l.map (fun e =>
    if S.IsPayToScriptHash e.2 then S.GetSigOpCountOf e.2 e.1.scriptSig else 0)).sum

/-- The witness sig-op count as an exact sum over the inputs paired with the
lock scripts of the coins they spend. -/
def witnessCount {Script Witness : Type} (S : ScriptOps Script Witness) (flags : Nat)
    (l : List (ScriptTxIn Script Witness × Script)) : Nat :=
  (l.map (fun e => S.CountWitnessSigOps e.1.scriptSig e.2 e.1.scriptWitness flags)).sum

/-- Script operations for the examples: a script is a number, its sig-op count
is that number, a lock script is pay-to-script-hash when it is odd, and a
witness is its own sig-op count. -/
def demoScriptOps : ScriptOps Nat Nat where
  GetSigOpCount := fun script _ => script
  GetSigOpCountOf := fun _ scriptSig => scriptSig
  IsPayToScriptHash := fun scriptPubKey => scriptPubKey % 2 == 1
  CountWitnessSigOps := fun _ _ witness _ => witness
  SCRIPT_VERIFY_P2SH := 1

/-- A coinbase transaction whose one output has a lock script with `2^30`
signature operations. -/
def demoTxManySigOps : ScriptTransaction Nat Nat :=
  { vin := [{ prevout := (0, 0), scriptSig := 0, scriptWitness := 0 }],
    vout := [2 ^ 30], IsCoinBase := true }

/-- A coinbase transaction with 3 legacy signature operations. -/
def demoTxCoinbaseSigOps : ScriptTransaction Nat Nat :=
  { vin := [{ prevout := (0, 0), scriptSig := 1, scriptWitness := 0 }],
    vout := [2], IsCoinBase := true }

/-- A transaction with two inputs and one output: 6 legacy signature
operations, 5 witness signature operations, and 2 signature operations in the
unlock script of the first input. -/
def demoTxSigOps : ScriptTransaction Nat Nat :=
  { vin := [{ prevout := (1, 0), scriptSig := 2, scriptWitness := 5 },
            { prevout := (1, 1), scriptSig := 1, scriptWitness := 0 }],
    vout := [3], IsCoinBase := false }

/-- A coin view for the examples: the coin at `(1, 0)` has a pay-to-script-hash
lock script, the coin at `(1, 1)` has not, and there are no other coins. -/
def demoScriptView : Nat × Nat → Option Nat := fun outpoint =>
  if outpoint = (1, 0) then some 7
  else if outpoint = (1, 1) then some 4
  else none

/-! ## Amounts (Consensus/Asset.hpp) -/

/-- The constant `SPX` of `Consensus/Asset.hpp`: a `CAmount` (`int64_t`). -/
def SPX : Int := 1000000000000000000

/-- The constant `static constexpr uint64_t MAX_SUPPLY = 50000000ULL * SPX`: the
product of two 64-bit unsigned operands, taken modulo `2^64`. -/
def MAX_SUPPLY : Nat := (50000000 * SPX.toNat) % 2 ^ 64

/-- The function `SPXRange`: `nValue >= 0 && nValue <= MAX_SUPPLY`. In the second
comparison the `int64_t` operand is converted to `uint64_t`. -/
def SPXRange (nValue : Int) : Bool :=
  decide (nValue ≥ 0) && decide (nValue % 2 ^ 64 ≤ (MAX_SUPPLY : Int))

/-! ## Calls made in the course of a traversal -/

/-- `SubCall H T c c1`: the call of `TraverseAndExtract` with the arguments `c`
(height, position, state) makes, itself or through the calls it makes, the
call with the arguments `c1`. A call above height 0 whose bit is true calls
its left child, and, when the right child is inside the tree width, its right
child in the state the left call returned. -/
inductive SubCall {D : Type} [DecidableEq D] (H : Hasher D) (T : CPartialMerkleTree D) :
    Nat × Nat × ExtractState D → Nat × Nat × ExtractState D → Prop
  | refl (c : Nat × Nat × ExtractState D) : SubCall H T c c
  | left (height pos : Nat) (s : ExtractState D) (c1 : Nat × Nat × ExtractState D) :
      T.vBits[s.nBitsUsed]? = some true →
      SubCall H T (height, pos * 2, { s with nBitsUsed := s.nBitsUsed + 1 }) c1 →
      SubCall H T (height + 1, pos, s) c1
  | right (height pos : Nat) (s : ExtractState D) (left : D) (s1 : ExtractState D)
      (c1 : Nat × Nat × ExtractState D) :
      T.vBits[s.nBitsUsed]? = some true →
      TraverseAndExtract H T height (pos * 2) { s with nBitsUsed := s.nBitsUsed + 1 } =
        some (left, s1) →
      pos * 2 + 1 < CalcTreeWidth T.nTransactions height →
      SubCall H T (height, pos * 2 + 1, s1) c1 →
      SubCall H T (height + 1, pos, s) c1

/-- The tree of the two equal leaves `[7, 7]`, both matched. -/
def demoTwinTree : CPartialMerkleTree Nat :=
  { nTransactions := 2, vBits := [true, true, true], vHash := [7, 7], fBad := false }

/-- A state with the flag `fBad` set. -/
def setBad {D : Type} (s : ExtractState D) : ExtractState D :=
  { s with fBad := true }

/-! ## Base58 (Base58.cpp)

Bytes are natural numbers below 256, a `std::string` is the list of its
characters, and `int` quantities are natural numbers except `maxRetLength`,
which the caller chooses. -/

/-- The array `Base58Characters` of `Base58.cpp`. -/
def Base58Characters : List Char :=
  "123456789ABCDEFGHJKLMNPQRSTUVWXYZabcdefghijkmnopqrstuvwxyz".toList

/-- The table `Base58Map` of `Base58.cpp`, entry by entry. -/
def Base58Map : List Int :=
  [
   -1, -1, -1, -1, -1, -1, -1, -1, -1, -1, -1, -1, -1, -1, -1, -1,
   -1, -1, -1, -1, -1, -1, -1, -1, -1, -1, -1, -1, -1, -1, -1, -1,
   -1, -1, -1, -1, -1, -1, -1, -1, -1, -1, -1, -1, -1, -1, -1, -1,
   -1,  0,  1,  2,  3,  4,  5,  6,  7,  8, -1, -1, -1, -1, -1, -1,
   -1,  9, 10, 11, 12, 13, 14, 15, 16, -1, 17, 18, 19, 20, 21, -1,
   22, 23, 24, 25, 26, 27, 28, 29, 30, 31, 32, -1, -1, -1, -1, -1,
   -1, 33, 34, 35, 36, 37, 38, 39, 40, 41, 42, 43, -1, 44, 45, 46,
   47, 48, 49, 50, 51, 52, 53, 54, 55, 56, 57, -1, -1, -1, -1, -1,
   -1, -1, -1, -1, -1, -1, -1, -1, -1, -1, -1, -1, -1, -1, -1, -1,
   -1, -1, -1, -1, -1, -1, -1, -1, -1, -1, -1, -1, -1, -1, -1, -1,
   -1, -1, -1, -1, -1, -1, -1, -1, -1, -1, -1, -1, -1, -1, -1, -1,
   -1, -1, -1, -1, -1, -1, -1, -1, -1, -1, -1, -1, -1, -1, -1, -1,
   -1, -1, -1, -1, -1, -1, -1, -1, -1, -1, -1, -1, -1, -1, -1, -1,
   -1, -1, -1, -1, -1, -1, -1, -1, -1, -1, -1, -1, -1, -1, -1, -1,
   -1, -1, -1, -1, -1, -1, -1, -1, -1, -1, -1, -1, -1, -1, -1, -1,
   -1, -1, -1, -1, -1, -1, -1, -1, -1, -1, -1, -1, -1, -1, -1, -1
  ]

/-- The loop `while (input.size() > 0 && input[0] == 0)` of `EncodeBase58`: it
drops the leading zero bytes and counts them in `zeroes`. -/
def skipZeroes : List Nat → Nat → List Nat × Nat
  | 0 :: rest, zeroes => skipZeroes rest (zeroes + 1)
  | input, zeroes => (input, zeroes)

/-- The inner `for` loop of `EncodeBase58`, which walks `b58` from `rbegin()`:
the argument list is the part of the vector from `it` to `rend()`, last element
first, and the result is that part after the loop, the counter `i` and the
carry. The loop goes on while `(carry != 0 || i < size)` and `it != rend()`. -/
def encodeCarry (size : Nat) : List Nat → Nat → Nat → List Nat × Nat × Nat
  | [], i, carry => ([], i, carry)
  | digit :: rest, i, carry =>
    if carry ≠ 0 ∨ i < size then
      ((carry + 256 * digit) % 58 ::
          (encodeCarry size rest (i + 1) ((carry + 256 * digit) / 58)).1,
        (encodeCarry size rest (i + 1) ((carry + 256 * digit) / 58)).2)
    else (digit :: rest, i, carry)

/-- The loop `while (input.size() > 0)` of `EncodeBase58`, acting on `size` and
`b58`; `none` when `assert(carry == 0)` fails. -/
def encodeBytes : List Nat → Nat → List Nat → Option (Nat × List Nat)
  | [], size, b58 => some (size, b58)
  | byte :: rest, size, b58 =>
    if (encodeCarry size b58.reverse 0 byte).2.2 ≠ 0 then none
    else
      encodeBytes rest (encodeCarry size b58.reverse 0 byte).2.1
        (encodeCarry size b58.reverse 0 byte).1.reverse

/-- The function `EncodeBase58`. Bytes are natural numbers below 256 and the
result is the list of the characters of the string. The iterator
`b58.begin() + (size - zeroes)` is before the vector when `size < zeroes`, and
the function then returns `none`. -/
def EncodeBase58 (input : List Nat) : Option (List Char) :=
  match encodeBytes (skipZeroes input 0).1
      ((skipZeroes input 0).1.length * 138 / 100 + 1)
      (List.replicate ((skipZeroes input 0).1.length * 138 / 100 + 1) 0) with
  | none => none
  | some (size, b58) =>
    if size < (skipZeroes input 0).2 then none
    else
      match ((b58.drop (size - (skipZeroes input 0).2)).dropWhile (fun d => d == 0)).mapM
          (fun d => Base58Characters[d]?) with
      | none => none
      | some digits => some (List.replicate (skipZeroes input 0).2 '1' ++ digits)

/-- The loop `while (*str == '1')` of `DecodeBase58`: it drops the leading
characters `1` and counts them in `zeroes`; `none` when the function returns
false because `zeroes > maxRetLength`. -/
def skipOnes (maxRetLength : Int) : List Char → Nat → Option (List Char × Nat)
  | [], zeroes => some ([], zeroes)
  | c :: rest, zeroes =>
    if c = '1' then
      if ((zeroes + 1 : Nat) : Int) > maxRetLength then none
      else skipOnes maxRetLength rest (zeroes + 1)
    else some (c :: rest, zeroes)

/-- The inner `for` loop of `DecodeBase58`, which walks `b256` from `rbegin()`,
in the same form as `encodeCarry`. -/
def decodeCarry (size : Nat) : List Nat → Nat → Nat → List Nat × Nat × Nat
  | [], i, carry => ([], i, carry)
  | byte :: rest, i, carry =>
    if carry ≠ 0 ∨ i < size then
      ((carry + 58 * byte) % 256 ::
          (decodeCarry size rest (i + 1) ((carry + 58 * byte) / 256)).1,
        (decodeCarry size rest (i + 1) ((carry + 58 * byte) / 256)).2)
    else (byte :: rest, i, carry)

/-- What a part of `DecodeBase58` does: it goes on with a value, returns false,
or has no defined behaviour (a failed `assert`, an iterator outside the
vector). -/
inductive Outcome (α : Type) where
  | go (a : α)
  | fail
  | undefined
deriving DecidableEq

/-- The loop `while (*str && !IsSpace(*str))` of `DecodeBase58`, acting on the
rest of the string, `size` and `b256`. `IsSpace` is not in the sources and is a
parameter. -/
def decodeChars (IsSpace : Char → Bool) (maxRetLength : Int) (zeroes : Nat) :
    List Char → Nat → List Nat → Outcome (List Char × Nat × List Nat)
  | [], size, b256 => .go ([], size, b256)
  | c :: rest, size, b256 =>
    if IsSpace c then .go (c :: rest, size, b256)
    else
      match Base58Map[c.toNat % 256]? with
      | none => .undefined
      | some carry =>
        if carry = -1 then .fail
        else if (decodeCarry size b256.reverse 0 carry.toNat).2.2 ≠ 0 then .undefined
        else if (((decodeCarry size b256.reverse 0 carry.toNat).2.1 + zeroes : Nat) : Int)
            > maxRetLength then .fail
        else
          decodeChars IsSpace maxRetLength zeroes rest
            (decodeCarry size b256.reverse 0 carry.toNat).2.1
            (decodeCarry size b256.reverse 0 carry.toNat).1.reverse

/-- The function `DecodeBase58`, given the characters of `str` before the
terminating NUL: `go result` when it returns true with `result`. The iterator
`b256.begin() + (size - zeroes)` is before the vector when `size < zeroes`. -/
def DecodeBase58 (IsSpace : Char → Bool) (str : List Char) (maxRetLength : Int) :
    Outcome (List Nat) :=
  match skipOnes maxRetLength (str.dropWhile IsSpace) 0 with
  | none => .fail
  | some (str1, zeroes) =>
    match decodeChars IsSpace maxRetLength zeroes str1 (str1.length * 733 / 1000 + 1)
        (List.replicate (str1.length * 733 / 1000 + 1) 0) with
    | .undefined => .undefined
    | .fail => .fail
    | .go (str2, size, b256) =>
      if str2.dropWhile IsSpace ≠ [] then .fail
      else if size < zeroes then .undefined
      else .go (List.replicate zeroes 0 ++ b256.drop (size - zeroes))

/-- The digits of `n` in base 58, most significant first and without a leading
zero digit (none for 0); `fuel` bounds the number of digits. -/
def base58Digits : Nat → Nat → List Nat
  | 0, _ => []
  | fuel + 1, n => if n = 0 then [] else base58Digits fuel (n / 58) ++ [n % 58]

/-- The big-endian integer formed by a byte sequence. -/
def bigEndian (bytes : List Nat) : Nat :=
  bytes.foldl (fun acc b => acc * 256 + b) 0

/-- The Base58 encoding in the words of the specification: one character `1`
for each leading zero byte, followed by the base-58 digits, most significant
first, of the big-endian integer formed by the remaining bytes, each digit
written as its character of the alphabet. An integer below `256^k` has at most
`2 k` digits in base 58. -/
def base58Encoding (x : List Nat) : List Char :=
  List.replicate (skipZeroes x 0).2 '1' ++
    (base58Digits (2 * (skipZeroes x 0).1.length) (bigEndian (skipZeroes x 0).1)).map
      (fun d => Base58Characters.getD d '1')

/-- The character classification of the usual `IsSpace`, for the examples. -/
def demoIsSpace (c : Char) : Bool :=
  c = ' ' || c.toNat = 9 || c.toNat = 10 || c.toNat = 11 || c.toNat = 12 || c.toNat = 13

/-! ## Width and height of the implicit tree -/

theorem lt_CalcTreeWidth (n h p : Nat) : p < CalcTreeWidth n h ↔ p * 2 ^ h < n := by
  unfold CalcTreeWidth
  have hpos : 0 < 2 ^ h := Nat.two_pow_pos h
  rw [Nat.lt_iff_add_one_le, Nat.le_div_iff_mul_le hpos, Nat.add_mul]
  omega

theorem heightLoop_width (n : Nat) : ∀ fuel h, n ≤ 2 ^ (h + fuel) →
    CalcTreeWidth n (heightLoop n fuel h) ≤ 1 := by
  intro fuel
  induction fuel with
  | zero =>
    intro h hn
    simp only [heightLoop]
    by_contra hc
    have := (lt_CalcTreeWidth n h 1).1 (by omega)
    simp at hn
    omega
  | succ fuel ih =>
    intro h hn
    simp only [heightLoop]
    split
    · apply ih
      have : h + 1 + fuel = h + (fuel + 1) := by omega
      rw [this]; exact hn
    · omega

theorem treeHeight_width (n : Nat) : CalcTreeWidth n (treeHeight n) ≤ 1 := by
  apply heightLoop_width
  simpa using (Nat.lt_two_pow n).le

theorem treeHeight_cover (n : Nat) : n ≤ 2 ^ treeHeight n := by
  have h := treeHeight_width n
  by_contra hc
  have := (lt_CalcTreeWidth n (treeHeight n) 1).2 (by omega)
  omega

/-! ## What the constructor stores -/

theorem CalcHash_eq {D : Type} (H : Hasher D) (L : List D) (hL : L ≠ []) :
    ∀ h pos, pos * 2 ^ h < L.length →
      CalcHash H L.length h pos L = some (nodeHash H L.length L h pos) := by
  have hlen : L.length ≠ 0 := by
    intro h0; exact hL (List.length_eq_zero.1 h0)
  intro h
  induction h with
  | zero =>
    intro pos hp
    simp only [pow_zero, mul_one] at hp
    simp [CalcHash, nodeHash, hlen, List.getElem?_eq_getElem hp, List.getD_eq_getElem _ _ hp]
  | succ h ih =>
    intro pos hp
    have hl : pos * 2 * 2 ^ h < L.length := by
      rw [pow_succ] at hp; nlinarith
    simp only [CalcHash, nodeHash, hlen, if_false, ih _ hl]
    by_cases hr : pos * 2 + 1 < CalcTreeWidth L.length h
    · have hr2 := (lt_CalcTreeWidth _ _ _).1 hr
      simp [hr, ih _ hr2]
    · simp [hr]

theorem scanMatch_eq (M : List Bool) : ∀ count p f, p + count ≤ M.length →
    scanMatch M count p f =
      some (f || (List.range' p count).any (fun q => M.getD q false)) := by
  intro count
  induction count with
  | zero => intro p f _; simp [scanMatch]
  | succ count ih =>
    intro p f hp
    have hlt : p < M.length := by omega
    simp only [scanMatch, List.getElem?_eq_getElem hlt]
    rw [ih (p + 1) _ (by omega)]
    simp [List.range'_succ, List.getElem?_eq_getElem hlt, Bool.or_assoc]

theorem parentOfMatch_eq (n : Nat) (M : List Bool) (hM : M.length = n) (h pos : Nat) :
    parentOfMatch n M h pos = some (anyMatch n M h pos) := by
  unfold parentOfMatch anyMatch leafIdx
  have hle : pos * 2 ^ h ≤ (pos + 1) * 2 ^ h := Nat.mul_le_mul_right _ (by omega)
  by_cases hc : min ((pos + 1) * 2 ^ h) n - pos * 2 ^ h = 0
  · rw [hc]; simp [scanMatch]
  · rw [scanMatch_eq]
    · simp
    · omega

theorem TraverseAndBuild_eq {D : Type} (H : Hasher D) (L : List D) (M : List Bool)
    (hL : L ≠ []) (hM : M.length = L.length) :
    ∀ h pos (T : CPartialMerkleTree D), T.nTransactions = L.length →
      pos * 2 ^ h < L.length →
      TraverseAndBuild H L M h pos T =
        some { T with vBits := T.vBits ++ builtBits L.length M h pos,
                      vHash := T.vHash ++ builtHashes H L.length L M h pos } := by
  intro h
  induction h with
  | zero =>
    intro pos T hT hp
    simp [TraverseAndBuild, hT, parentOfMatch_eq _ _ hM, CalcHash_eq H L hL 0 pos hp,
      builtBits, builtHashes]
  | succ h ih =>
    intro pos T hT hp
    have hl : pos * 2 * 2 ^ h < L.length := by
      rw [pow_succ] at hp; nlinarith
    simp only [TraverseAndBuild, hT, parentOfMatch_eq _ _ hM, builtBits, builtHashes]
    cases hm : anyMatch L.length M (h + 1) pos with
    | false =>
      simp [CalcHash_eq H L hL (h + 1) pos hp]
    | true =>
      simp only [Bool.not_true, if_false, if_true]
      rw [ih (pos * 2) _ rfl hl]
      by_cases hr : pos * 2 + 1 < CalcTreeWidth L.length h
      · have hr2 := (lt_CalcTreeWidth _ _ _).1 hr
        simp only [hr, if_true]
        rw [ih (pos * 2 + 1) _ rfl hr2]
        simp
      · simp [hr]

theorem build_eq {D : Type} (H : Hasher D) (L : List D) (M : List Bool)
    (hL : L ≠ []) (hM : M.length = L.length) :
    CPartialMerkleTree.build H L M =
      some { nTransactions := L.length,
             vBits := builtBits L.length M (treeHeight L.length) 0,
             vHash := builtHashes H L.length L M (treeHeight L.length) 0,
             fBad := false } := by
  have hlen : 0 < L.length := List.length_pos.2 hL
  unfold CPartialMerkleTree.build
  rw [TraverseAndBuild_eq H L M hL hM _ _ _ rfl (by simpa using hlen)]
  simp

/-! ## Leaves below a node -/

theorem getElem?_mid {α : Type} (pre : List α) (x : α) (post : List α) :
    (pre ++ x :: post)[pre.length]? = some x := by
  rw [List.getElem?_append_right (le_refl _)]; simp

theorem leafIdx_zero (n pos : Nat) (hp : pos < n) : leafIdx n 0 pos = [pos] := by
  unfold leafIdx
  have : min ((pos + 1) * 2 ^ 0) n - pos * 2 ^ 0 = 1 := by simp; omega
  rw [this]; simp

theorem leafIdx_succ (n h pos : Nat) :
    leafIdx n (h + 1) pos = leafIdx n h (pos * 2) ++ leafIdx n h (pos * 2 + 1) := by
  unfold leafIdx
  have e1 : pos * 2 ^ (h + 1) = pos * 2 * 2 ^ h := by rw [pow_succ]; ring
  have e2 : (pos + 1) * 2 ^ (h + 1) = pos * 2 * 2 ^ h + 2 ^ h + 2 ^ h := by rw [pow_succ]; ring
  have e3 : (pos * 2 + 1) * 2 ^ h = pos * 2 * 2 ^ h + 2 ^ h := by ring
  have e4 : (pos * 2 + 1 + 1) * 2 ^ h = pos * 2 * 2 ^ h + 2 ^ h + 2 ^ h := by ring
  rw [e1, e2, e3, e4]
  generalize pos * 2 * 2 ^ h = a
  generalize 2 ^ h = w
  by_cases hn : n ≤ a + w
  · have h2 : min (a + w + w) n - (a + w) = 0 := by omega
    have h1 : min (a + w + w) n - a = min (a + w) n - a := by omega
    rw [h2, h1]; simp
  · have h1 : min (a + w) n - a = w := by omega
    have h3 : min (a + w + w) n - a = (min (a + w + w) n - (a + w)) + w := by omega
    rw [h1, h3, ← List.range'_append]
    simp

theorem leafIdx_right_nil (n h pos : Nat) (hr : ¬ pos * 2 + 1 < CalcTreeWidth n h) :
    leafIdx n h (pos * 2 + 1) = [] := by
  rw [lt_CalcTreeWidth] at hr
  unfold leafIdx
  have : min ((pos * 2 + 1 + 1) * 2 ^ h) n - (pos * 2 + 1) * 2 ^ h = 0 := by omega
  rw [this]; simp

theorem anyMatch_zero (n : Nat) (M : List Bool) (pos : Nat) (hp : pos < n) :
    anyMatch n M 0 pos = M.getD pos false := by
  simp [anyMatch, leafIdx_zero n pos hp]

theorem matchedIdx_zero (n : Nat) (M : List Bool) (pos : Nat) (hp : pos < n) :
    matchedIdx n M 0 pos = if M.getD pos false then [pos] else [] := by
  simp only [matchedIdx, leafIdx_zero n pos hp]
  cases hb : M.getD pos false <;>
    simp only [List.filter_cons, List.filter_nil, hb, if_true, Bool.false_eq_true, if_false]

theorem matchedIdx_of_not_anyMatch (n : Nat) (M : List Bool) (h pos : Nat)
    (hm : anyMatch n M h pos = false) : matchedIdx n M h pos = [] := by
  unfold anyMatch at hm
  unfold matchedIdx
  rw [List.filter_eq_nil_iff]
  intro a ha
  rw [List.any_eq_false] at hm
  exact hm a ha

theorem matchedIdx_succ (n : Nat) (M : List Bool) (h pos : Nat) :
    matchedIdx n M (h + 1) pos =
      matchedIdx n M h (pos * 2) ++
        (if pos * 2 + 1 < CalcTreeWidth n h then matchedIdx n M h (pos * 2 + 1) else []) := by
  unfold matchedIdx
  rw [leafIdx_succ, List.filter_append]
  split
  · rfl
  · rename_i hr
    rw [leafIdx_right_nil n h pos hr]; simp

/-! ## Extraction from a built tree -/

theorem TraverseAndExtract_built {D : Type} [DecidableEq D] (H : Hasher D) (L : List D)
    (M : List Bool) :
    ∀ h pos (T : CPartialMerkleTree D) (s : ExtractState D) (pre post : List Bool)
      (hpre hpost : List D),
      T.nTransactions = L.length →
      pos * 2 ^ h < L.length →
      T.vBits = pre ++ (builtBits L.length M h pos ++ post) →
      T.vHash = hpre ++ (builtHashes H L.length L M h pos ++ hpost) →
      s.nBitsUsed = pre.length → s.nHashUsed = hpre.length →
      TraverseAndExtract H T h pos s =
        some (nodeHash H L.length L h pos, afterNode H L M h pos s) := by
  intro h
  induction h with
  | zero =>
    intro pos T s pre post hpre hpost hT hp hb hh hsb hsh
    simp only [pow_zero, mul_one] at hp
    simp only [builtBits, builtHashes, List.singleton_append] at hb hh
    have hb1 : T.vBits[s.nBitsUsed]? = some (anyMatch L.length M 0 pos) := by
      rw [hb, hsb]; exact getElem?_mid _ _ _
    have hh1 : T.vHash[s.nHashUsed]? = some (nodeHash H L.length L 0 pos) := by
      rw [hh, hsh]; exact getElem?_mid _ _ _
    have hbl : ¬ s.nBitsUsed ≥ T.vBits.length := by
      rw [hb, hsb]; simp
    have hhl : ¬ s.nHashUsed ≥ T.vHash.length := by
      rw [hh, hsh]; simp
    simp only [TraverseAndExtract, hbl, hhl, if_false, hb1, hh1]
    rw [anyMatch_zero _ _ _ hp]
    cases hm : M.getD pos false with
    | false =>
      have hm2 : M[pos]?.getD false = false := by simpa using hm
      simp [afterNode, builtBits, builtHashes, matchedIdx_zero _ _ _ hp, hm2, twinBelow]
    | true =>
      have hm2 : M[pos]?.getD false = true := by simpa using hm
      simp [afterNode, builtBits, builtHashes, matchedIdx_zero _ _ _ hp, hm2, twinBelow,
        nodeHash]
  | succ h ih =>
    intro pos T s pre post hpre hpost hT hp hb hh hsb hsh
    have hl : pos * 2 * 2 ^ h < L.length := by
      rw [pow_succ] at hp; nlinarith
    cases hm : anyMatch L.length M (h + 1) pos with
    | false =>
      simp only [builtBits, builtHashes, hm, Bool.false_eq_true, if_false,
        List.singleton_append] at hb hh
      have hb1 : T.vBits[s.nBitsUsed]? = some false := by
        rw [hb, hsb]; exact getElem?_mid _ _ _
      have hh1 : T.vHash[s.nHashUsed]? = some (nodeHash H L.length L (h + 1) pos) := by
        rw [hh, hsh]; exact getElem?_mid _ _ _
      have hbl : ¬ s.nBitsUsed ≥ T.vBits.length := by
        rw [hb, hsb]; simp
      have hhl : ¬ s.nHashUsed ≥ T.vHash.length := by
        rw [hh, hsh]; simp
      simp only [TraverseAndExtract, hbl, hhl, if_false, hb1, hh1]
      simp [afterNode, builtBits, builtHashes, hm, matchedIdx_of_not_anyMatch _ _ _ _ hm,
        twinBelow]
    | true =>
      simp only [builtBits, builtHashes, hm, if_true, List.cons_append] at hb hh
      have hb1 : T.vBits[s.nBitsUsed]? = some true := by
        rw [hb, hsb]; exact getElem?_mid _ _ _
      have hbl : ¬ s.nBitsUsed ≥ T.vBits.length := by
        rw [hb, hsb]; simp
      simp only [TraverseAndExtract, hbl, if_false, hb1, Bool.not_true, Bool.false_eq_true]
      by_cases hr : pos * 2 + 1 < CalcTreeWidth L.length h
      · have hr2 := (lt_CalcTreeWidth _ _ _).1 hr
        simp only [hr, if_true, List.append_assoc] at hb hh
        rw [ih (pos * 2) T { s with nBitsUsed := s.nBitsUsed + 1 } (pre ++ [true])
          (builtBits L.length M h (pos * 2 + 1) ++ post) hpre
          (builtHashes H L.length L M h (pos * 2 + 1) ++ hpost) hT hl (by rw [hb]; simp) hh
          (by simp [hsb]) hsh]
        simp only [hT, hr, if_true]
        rw [ih (pos * 2 + 1) T (afterNode H L M h (pos * 2) { s with nBitsUsed := s.nBitsUsed + 1 })
          (pre ++ [true] ++ builtBits L.length M h (pos * 2)) post
          (hpre ++ builtHashes H L.length L M h (pos * 2)) hpost hT hr2
          (by rw [hb]; simp) (by rw [hh]; simp)
          (by simp [afterNode, hsb]; omega) (by simp [afterNode, hsh])]
        by_cases he : nodeHash H L.length L h (pos * 2 + 1) = nodeHash H L.length L h (pos * 2)
        · simp only [he, if_true]
          simp [afterNode, builtBits, builtHashes, hm, hr, matchedIdx_succ, twinBelow, he,
            nodeHash, Nat.add_assoc, Nat.add_comm 1]
        · simp only [he, if_false]
          simp [afterNode, builtBits, builtHashes, hm, hr, matchedIdx_succ, twinBelow, he,
            nodeHash, Nat.add_assoc, Nat.add_comm 1, Bool.or_assoc]
      · simp only [hr, if_false, List.append_nil] at hb hh
        rw [ih (pos * 2) T { s with nBitsUsed := s.nBitsUsed + 1 } (pre ++ [true])
          post hpre hpost hT hl (by rw [hb]; simp) hh (by simp [hsb]) hsh]
        simp only [hT, hr, if_false]
        simp [afterNode, builtBits, builtHashes, hm, hr, matchedIdx_succ, twinBelow,
          nodeHash, Nat.add_assoc, Nat.add_comm 1]

/-! ## Size of a built tree -/

theorem leafIdx_length_pos (n h pos : Nat) (hp : pos * 2 ^ h < n) :
    1 ≤ (leafIdx n h pos).length := by
  unfold leafIdx
  have hw : 0 < 2 ^ h := Nat.two_pow_pos h
  have e : (pos + 1) * 2 ^ h = pos * 2 ^ h + 2 ^ h := by ring
  rw [List.length_range', e]
  omega

theorem builtHashes_length_le {D : Type} (H : Hasher D) (L : List D) (M : List Bool) :
    ∀ h pos, pos * 2 ^ h < L.length →
      (builtHashes H L.length L M h pos).length ≤ (leafIdx L.length h pos).length := by
  intro h
  induction h with
  | zero =>
    intro pos hp
    simpa [builtHashes] using leafIdx_length_pos _ _ _ hp
  | succ h ih =>
    intro pos hp
    have hl : pos * 2 * 2 ^ h < L.length := by
      rw [pow_succ] at hp; nlinarith
    simp only [builtHashes]
    cases hm : anyMatch L.length M (h + 1) pos with
    | false => simpa using leafIdx_length_pos _ _ _ hp
    | true =>
      simp only [if_true, leafIdx_succ, List.length_append]
      have h1 := ih (pos * 2) hl
      by_cases hr : pos * 2 + 1 < CalcTreeWidth L.length h
      · have h2 := ih (pos * 2 + 1) ((lt_CalcTreeWidth _ _ _).1 hr)
        simp only [hr, if_true]
        omega
      · simp only [hr, if_false, List.length_nil]
        omega

theorem builtHashes_length_le_bits {D : Type} (H : Hasher D) (L : List D) (M : List Bool) :
    ∀ h pos, (builtHashes H L.length L M h pos).length ≤ (builtBits L.length M h pos).length := by
  intro h
  induction h with
  | zero => intro pos; simp [builtHashes, builtBits]
  | succ h ih =>
    intro pos
    simp only [builtHashes, builtBits]
    cases hm : anyMatch L.length M (h + 1) pos with
    | false => simp
    | true =>
      simp only [if_true, List.length_append, List.length_cons]
      have h1 := ih (pos * 2)
      have h2 := ih (pos * 2 + 1)
      split <;> simp <;> omega

theorem builtBits_length_pos (n : Nat) (M : List Bool) (h pos : Nat) :
    1 ≤ (builtBits n M h pos).length := by
  cases h with
  | zero => simp [builtBits]
  | succ h =>
    simp only [builtBits]
    split <;> simp

theorem leafIdx_top (n : Nat) : leafIdx n (treeHeight n) 0 = List.range n := by
  unfold leafIdx
  have := treeHeight_cover n
  simp [List.range_eq_range', Nat.min_eq_right this]

theorem matchedIdx_top (n : Nat) (M : List Bool) :
    matchedIdx n M (treeHeight n) 0 = (List.range n).filter (fun p => M.getD p false) := by
  unfold matchedIdx
  rw [leafIdx_top]

theorem builtTree_hash_le {D : Type} (H : Hasher D) (L : List D) (M : List Bool)
    (hL : L ≠ []) : (builtTree H L M).vHash.length ≤ L.length := by
  have hlen : 0 < L.length := List.length_pos.2 hL
  have := builtHashes_length_le H L M (treeHeight L.length) 0 (by simpa using hlen)
  rw [leafIdx_top, List.length_range] at this
  exact this

theorem traverse_builtTree {D : Type} [DecidableEq D] (H : Hasher D) (L : List D)
    (M : List Bool) (hL : L ≠ []) (post : List Bool) (vnIndex : List Nat) (fBad : Bool)
    (T : CPartialMerkleTree D) (hn : T.nTransactions = L.length)
    (hb : T.vBits = (builtTree H L M).vBits ++ post) (hh : T.vHash = (builtTree H L M).vHash) :
    TraverseAndExtract H T (treeHeight L.length) 0
        { nBitsUsed := 0, nHashUsed := 0, vMatch := [], vnIndex := vnIndex,
          fBad := fBad, overflowed := false } =
      some (nodeHash H L.length L (treeHeight L.length) 0,
        { nBitsUsed := (builtTree H L M).vBits.length,
          nHashUsed := (builtTree H L M).vHash.length,
          vMatch := ((List.range L.length).filter (fun p => M.getD p false)).map
            (fun p => L.getD p H.null),
          vnIndex := vnIndex ++ (List.range L.length).filter (fun p => M.getD p false),
          fBad := fBad || twinBelow H L.length L M (treeHeight L.length) 0,
          overflowed := false }) := by
  have hlen : 0 < L.length := List.length_pos.2 hL
  rw [TraverseAndExtract_built H L M (treeHeight L.length) 0 T _ [] post [] [] hn
    (by simpa using hlen) (by simpa [builtTree] using hb) (by simpa [builtTree] using hh)
    rfl rfl]
  simp [afterNode, builtTree, matchedIdx_top]

/-! ## The root of a built tree is the pairwise reduction -/

theorem dupLastIfOdd_cons_cons {D : Type} (a b : D) (rest : List D) :
    dupLastIfOdd (a :: b :: rest) = a :: b :: dupLastIfOdd rest := by
  unfold dupLastIfOdd
  cases rest with
  | nil => simp
  | cons c rest =>
    have hpar : (a :: b :: c :: rest).length % 2 = (c :: rest).length % 2 := by
      simp only [List.length_cons]; omega
    rw [hpar]
    split
    · simp only [List.getLast?_cons_cons]
      cases (c :: rest).getLast? <;> simp
    · rfl

theorem pairwiseStep_cons_cons {D : Type} (c : D → D → D) (a b : D) (rest : List D) :
    pairwiseStep c (a :: b :: rest) = c a b :: pairwiseStep c rest := by
  simp [pairwiseStep, dupLastIfOdd_cons_cons, combinePairs]

theorem pairwiseStep_singleton {D : Type} (c : D → D → D) (a : D) :
    pairwiseStep c [a] = [c a a] := by
  simp [pairwiseStep, dupLastIfOdd, combinePairs]

theorem pairwiseStep_nil {D : Type} (c : D → D → D) :
    pairwiseStep c ([] : List D) = [] := by
  simp [pairwiseStep, dupLastIfOdd, combinePairs]

theorem pairwiseStep_length {D : Type} (c : D → D → D) :
    ∀ xs : List D, (pairwiseStep c xs).length = (xs.length + 1) / 2
  | [] => by simp [pairwiseStep_nil]
  | [_] => by simp [pairwiseStep_singleton]
  | a :: b :: rest => by
    rw [pairwiseStep_cons_cons, List.length_cons, pairwiseStep_length c rest]
    simp only [List.length_cons]; omega

theorem pairwiseStep_getD {D : Type} (c : D → D → D) (d : D) :
    ∀ (xs : List D) (p : Nat), p * 2 < xs.length →
      (pairwiseStep c xs).getD p d =
        if p * 2 + 1 < xs.length then c (xs.getD (p * 2) d) (xs.getD (p * 2 + 1) d)
        else c (xs.getD (p * 2) d) (xs.getD (p * 2) d)
  | [], p, hp => by simp at hp
  | [a], p, hp => by
    have : p = 0 := by simp at hp; omega
    subst this
    simp [pairwiseStep_singleton]
  | a :: b :: rest, p, hp => by
    rw [pairwiseStep_cons_cons]
    cases p with
    | zero => simp
    | succ p =>
      have hp2 : p * 2 < rest.length := by simp only [List.length_cons] at hp; omega
      have e1 : (p + 1) * 2 = p * 2 + 1 + 1 := by ring
      have e2 : (p + 1) * 2 + 1 = p * 2 + 1 + 1 + 1 := by ring
      have ih := pairwiseStep_getD c d rest p hp2
      simp only [List.getD_cons_succ, e1, List.length_cons, Nat.add_lt_add_iff_right]
      rw [ih]

theorem levelAt_succ {D : Type} (c : D → D → D) (L : List D) (k : Nat) :
    levelAt c L (k + 1) = pairwiseStep c (levelAt c L k) := by
  simp [levelAt, Function.iterate_succ_apply']

theorem CalcTreeWidth_succ (n k : Nat) :
    CalcTreeWidth n (k + 1) = (CalcTreeWidth n k + 1) / 2 := by
  have key : ∀ p, p < CalcTreeWidth n (k + 1) ↔ p < (CalcTreeWidth n k + 1) / 2 := by
    intro p
    rw [lt_CalcTreeWidth]
    have h2 : p < (CalcTreeWidth n k + 1) / 2 ↔ p * 2 < CalcTreeWidth n k := by omega
    rw [h2, lt_CalcTreeWidth, pow_succ]
    have : p * (2 ^ k * 2) = p * 2 * 2 ^ k := by ring
    rw [this]
  rcases Nat.lt_trichotomy (CalcTreeWidth n (k + 1)) ((CalcTreeWidth n k + 1) / 2) with h | h | h
  · exact absurd ((key _).2 h) (lt_irrefl _)
  · exact h
  · exact absurd ((key _).1 h) (lt_irrefl _)

theorem levelAt_length {D : Type} (c : D → D → D) (L : List D) :
    ∀ k, (levelAt c L k).length = CalcTreeWidth L.length k := by
  intro k
  induction k with
  | zero => simp [levelAt, CalcTreeWidth]
  | succ k ih => rw [levelAt_succ, pairwiseStep_length, ih, CalcTreeWidth_succ]

theorem nodeHash_eq_levelAt {D : Type} (H : Hasher D) (L : List D) :
    ∀ h pos, pos * 2 ^ h < L.length →
      nodeHash H L.length L h pos = (levelAt H.Hash L h).getD pos H.null := by
  intro h
  induction h with
  | zero => intro pos _; simp [nodeHash, levelAt]
  | succ h ih =>
    intro pos hp
    have hl : pos * 2 * 2 ^ h < L.length := by
      rw [pow_succ] at hp; nlinarith
    have hl2 : pos * 2 < (levelAt H.Hash L h).length := by
      rw [levelAt_length, lt_CalcTreeWidth]; exact hl
    rw [levelAt_succ, pairwiseStep_getD _ _ _ _ hl2, levelAt_length]
    simp only [nodeHash]
    by_cases hr : pos * 2 + 1 < CalcTreeWidth L.length h
    · simp only [hr, if_true]
      rw [ih _ hl, ih _ ((lt_CalcTreeWidth _ _ _).1 hr)]
    · simp only [hr, if_false]
      rw [ih _ hl]

theorem pairwiseLoop_eq_levelAt {D : Type} (c : D → D → D) (L : List D) :
    ∀ fuel h, pairwiseLoop c fuel (levelAt c L h) =
      levelAt c L (heightLoop L.length fuel h) := by
  intro fuel
  induction fuel with
  | zero => intro h; simp [pairwiseLoop, heightLoop]
  | succ fuel ih =>
    intro h
    simp only [pairwiseLoop, heightLoop, levelAt_length]
    split
    · rw [← levelAt_succ, ih]
    · rfl

theorem pairwiseRoot_eq_nodeHash {D : Type} (H : Hasher D) (L : List D) (hL : L ≠ []) :
    pairwiseRoot H.null H.Hash L = nodeHash H L.length L (treeHeight L.length) 0 := by
  have hlen : 0 < L.length := List.length_pos.2 hL
  have h0 : pairwiseLoop H.Hash L.length L = levelAt H.Hash L (treeHeight L.length) := by
    have := pairwiseLoop_eq_levelAt H.Hash L L.length 0
    simpa [levelAt, treeHeight] using this
  have hw : (levelAt H.Hash L (treeHeight L.length)).length = 1 := by
    rw [levelAt_length]
    have h1 := treeHeight_width L.length
    have h2 : 0 < CalcTreeWidth L.length (treeHeight L.length) := by
      rw [lt_CalcTreeWidth]; simpa using hlen
    omega
  rw [nodeHash_eq_levelAt H L _ _ (by simpa using hlen)]
  unfold pairwiseRoot
  rw [h0]
  match hx : levelAt H.Hash L (treeHeight L.length), hw with
  | [r], _ => simp

/-! ## ExtractMatches on a built tree -/

theorem ExtractMatches_padded {D : Type} [DecidableEq D] (H : Hasher D) (W : Nat)
    (L : List D) (M : List Bool) (hL : L ≠ []) (hW : L.length ≤ W / MIN_TRANSACTION_WEIGHT)
    (post : List Bool) (T : CPartialMerkleTree D) (hn : T.nTransactions = L.length)
    (hb : T.vBits = (builtTree H L M).vBits ++ post) (hh : T.vHash = (builtTree H L M).vHash)
    (hpad : ((builtTree H L M).vBits.length + 7) / 8 = (T.vBits.length + 7) / 8)
    (vMatch : List D) (vnIndex : List Nat) :
    ExtractMatches H W T vMatch vnIndex =
      some { root := if (T.fBad || twinBelow H L.length L M (treeHeight L.length) 0) = true
                     then H.null else nodeHash H L.length L (treeHeight L.length) 0,
             vMatch := ((List.range L.length).filter (fun p => M.getD p false)).map
               (fun p => L.getD p H.null),
             vnIndex := vnIndex ++ (List.range L.length).filter (fun p => M.getD p false),
             tree := { T with fBad := T.fBad || twinBelow H L.length L M (treeHeight L.length) 0 } } := by
  have hlen : 0 < L.length := List.length_pos.2 hL
  have h1 : ¬ T.nTransactions = 0 := by omega
  have h2 : ¬ T.nTransactions > W / MIN_TRANSACTION_WEIGHT := by omega
  have h3 : ¬ T.vHash.length > T.nTransactions := by
    rw [hh, hn]; exact Nat.not_lt.2 (builtTree_hash_le H L M hL)
  have h4 : ¬ T.vBits.length < T.vHash.length := by
    rw [hh, hb, List.length_append]
    have := builtHashes_length_le_bits H L M (treeHeight L.length) 0
    simp only [builtTree]; omega
  have h5 : (builtTree H L M).vHash.length = T.vHash.length := by rw [hh]
  unfold ExtractMatches
  rw [if_neg h1, if_neg h2, if_neg h3, if_neg h4, hn]
  simp only [extractStart]
  rw [traverse_builtTree H L M hL post vnIndex T.fBad T hn hb hh]
  simp only [hpad, h5, ne_eq, not_true_eq_false, if_false]
  split <;> rfl

theorem ExtractMatches_builtTree {D : Type} [DecidableEq D] (H : Hasher D) (W : Nat)
    (L : List D) (M : List Bool) (hL : L ≠ []) (hW : L.length ≤ W / MIN_TRANSACTION_WEIGHT)
    (vMatch : List D) (vnIndex : List Nat) :
    ExtractMatches H W (builtTree H L M) vMatch vnIndex =
      some { root := if twinBelow H L.length L M (treeHeight L.length) 0 = true
                     then H.null else nodeHash H L.length L (treeHeight L.length) 0,
             vMatch := ((List.range L.length).filter (fun p => M.getD p false)).map
               (fun p => L.getD p H.null),
             vnIndex := vnIndex ++ (List.range L.length).filter (fun p => M.getD p false),
             tree := { builtTree H L M with
               fBad := twinBelow H L.length L M (treeHeight L.length) 0 } } := by
  rw [ExtractMatches_padded H W L M hL hW [] (builtTree H L M) rfl (by simp) rfl (by simp)]
  simp [builtTree]

theorem anyMatch_exists (n : Nat) (M : List Bool) (h pos : Nat)
    (hm : anyMatch n M h pos = true) :
    ∃ i, pos * 2 ^ h ≤ i ∧ i < (pos + 1) * 2 ^ h ∧ M[i]? = some true := by
  unfold anyMatch leafIdx at hm
  rw [List.any_eq_true] at hm
  obtain ⟨i, hi, hb⟩ := hm
  rw [List.mem_range'_1] at hi
  refine ⟨i, hi.1, by omega, ?_⟩
  rw [List.getD_eq_getElem?_getD] at hb
  cases hx : M[i]? with
  | none => rw [hx] at hb; simp at hb
  | some b => rw [hx] at hb; simpa using hb

theorem twinBelow_false {D : Type} [DecidableEq D] (H : Hasher D) (L : List D)
    (M : List Bool) (hL : L ≠ [])
    (hne : ∀ h pos, pos * 2 + 1 < CalcTreeWidth L.length h →
      (∃ i, pos * 2 ^ (h + 1) ≤ i ∧ i < (pos + 1) * 2 ^ (h + 1) ∧ M[i]? = some true) →
      CalcHash H L.length h (pos * 2) L ≠ CalcHash H L.length h (pos * 2 + 1) L) :
    ∀ h pos, twinBelow H L.length L M h pos = false := by
  intro h
  induction h with
  | zero => intro pos; rfl
  | succ h ih =>
    intro pos
    simp only [twinBelow, ih, Bool.false_or]
    cases hm : anyMatch L.length M (h + 1) pos with
    | false => rfl
    | true =>
      by_cases hr : pos * 2 + 1 < CalcTreeWidth L.length h
      · have hr2 := (lt_CalcTreeWidth _ _ _).1 hr
        have hl : pos * 2 * 2 ^ h < L.length := by
          have : pos * 2 * 2 ^ h ≤ (pos * 2 + 1) * 2 ^ h := Nat.mul_le_mul_right _ (by omega)
          omega
        have := hne h pos hr (anyMatch_exists _ _ _ _ hm)
        rw [CalcHash_eq H L hL _ _ hl, CalcHash_eq H L hL _ _ hr2] at this
        have hne2 : ¬ nodeHash H L.length L h (pos * 2 + 1) = nodeHash H L.length L h (pos * 2) := by
          intro he; exact this (by rw [he])
        simp [hne2]
      · simp [hr]

/-! ## The checks of ExtractMatches -/

theorem ExtractMatches_precheck {D : Type} [DecidableEq D] (H : Hasher D) (W : Nat)
    (T : CPartialMerkleTree D) (vMatch : List D) (vnIndex : List Nat)
    (h : T.nTransactions = 0 ∨ T.nTransactions > W / MIN_TRANSACTION_WEIGHT ∨
      T.vHash.length > T.nTransactions ∨ T.vBits.length < T.vHash.length) :
    ExtractMatches H W T vMatch vnIndex =
      some { root := H.null, vMatch := [], vnIndex := vnIndex, tree := T } := by
  unfold ExtractMatches
  by_cases h1 : T.nTransactions = 0
  · rw [if_pos h1]
  · rw [if_neg h1]
    by_cases h2 : T.nTransactions > W / MIN_TRANSACTION_WEIGHT
    · rw [if_pos h2]
    · rw [if_neg h2]
      by_cases h3 : T.vHash.length > T.nTransactions
      · rw [if_pos h3]
      · rw [if_neg h3]
        by_cases h4 : T.vBits.length < T.vHash.length
        · rw [if_pos h4]
        · exfalso
          rcases h with h | h | h | h
          · exact h1 h
          · exact h2 h
          · exact h3 h
          · exact h4 h

/-! ## The traversal on an arbitrary tree -/

theorem TraverseAndExtract_total {D : Type} [DecidableEq D] (H : Hasher D)
    (T : CPartialMerkleTree D) :
    ∀ h pos (s : ExtractState D), ∃ r, TraverseAndExtract H T h pos s = some r := by
  intro h
  induction h with
  | zero =>
    intro pos s
    simp only [TraverseAndExtract]
    by_cases hb : s.nBitsUsed ≥ T.vBits.length
    · simp [hb]
    · rw [if_neg hb, List.getElem?_eq_getElem (by omega)]
      by_cases hh : s.nHashUsed ≥ T.vHash.length
      · simp [hh]
      · simp only [if_neg hh, List.getElem?_eq_getElem (show s.nHashUsed < T.vHash.length by omega)]
        split <;> simp
  | succ h ih =>
    intro pos s
    simp only [TraverseAndExtract]
    by_cases hb : s.nBitsUsed ≥ T.vBits.length
    · simp [hb]
    · rw [if_neg hb, List.getElem?_eq_getElem (by omega)]
      simp only
      split
      · by_cases hh : s.nHashUsed ≥ T.vHash.length
        · simp [hh]
        · simp [if_neg hh, List.getElem?_eq_getElem (show s.nHashUsed < T.vHash.length by omega)]
      · obtain ⟨⟨left, s1⟩, h1⟩ := ih (pos * 2) { s with nBitsUsed := s.nBitsUsed + 1 }
        rw [h1]
        simp only
        split
        · obtain ⟨⟨right, s2⟩, h2⟩ := ih (pos * 2 + 1) s1
          rw [h2]
          simp only
          split <;> simp
        · simp

theorem TraverseAndExtract_fBad_mono {D : Type} [DecidableEq D] (H : Hasher D)
    (T : CPartialMerkleTree D) :
    ∀ h pos (s : ExtractState D) x s', TraverseAndExtract H T h pos s = some (x, s') →
      s.fBad = true → s'.fBad = true := by
  intro h
  induction h with
  | zero =>
    intro pos s x s' he hf
    simp only [TraverseAndExtract] at he
    split at he
    · simp only [Option.some.injEq, Prod.mk.injEq] at he
      rw [← he.2]
    · split at he
      · simp at he
      · split at he
        · simp only [Option.some.injEq, Prod.mk.injEq] at he
          rw [← he.2]
        · split at he
          · simp at he
          · split at he <;>
            · simp only [Option.some.injEq, Prod.mk.injEq] at he
              rw [← he.2]; exact hf
  | succ h ih =>
    intro pos s x s' he hf
    simp only [TraverseAndExtract] at he
    split at he
    · simp only [Option.some.injEq, Prod.mk.injEq] at he
      rw [← he.2]
    · split at he
      · simp at he
      · split at he
        · split at he
          · simp only [Option.some.injEq, Prod.mk.injEq] at he
            rw [← he.2]
          · split at he
            · simp at he
            · simp only [Option.some.injEq, Prod.mk.injEq] at he
              rw [← he.2]; exact hf
        · split at he
          · simp at he
          · rename_i left s1 h1
            have hf1 := ih _ _ _ _ h1 hf
            split at he
            · split at he
              · simp at he
              · rename_i right s2 h2
                have hf2 := ih _ _ _ _ h2 hf1
                split at he <;>
                · simp only [Option.some.injEq, Prod.mk.injEq] at he
                  rw [← he.2]
                  try exact hf2
            · simp only [Option.some.injEq, Prod.mk.injEq] at he
              rw [← he.2]
              try exact hf1

/-! ## Extraction after a digest was removed -/

theorem TraverseAndExtract_truncated {D : Type} [DecidableEq D] (H : Hasher D) (L : List D)
    (M : List Bool) :
    ∀ h pos (T : CPartialMerkleTree D) (s : ExtractState D) (pre post : List Bool)
      (hpre : List D) (k : Nat),
      T.nTransactions = L.length →
      pos * 2 ^ h < L.length →
      T.vBits = pre ++ (builtBits L.length M h pos ++ post) →
      T.vHash = hpre ++ (builtHashes H L.length L M h pos).take k →
      k < (builtHashes H L.length L M h pos).length →
      s.nBitsUsed = pre.length → s.nHashUsed = hpre.length →
      ∃ x s', TraverseAndExtract H T h pos s = some (x, s') ∧ s'.fBad = true := by
  intro h
  induction h with
  | zero =>
    intro pos T s pre post hpre k hT hp hb hh hk hsb hsh
    simp only [builtBits, builtHashes, List.singleton_append, List.length_singleton] at hb hh hk
    have hk0 : k = 0 := by omega
    subst hk0
    simp only [List.take_zero, List.append_nil] at hh
    have hb1 : T.vBits[s.nBitsUsed]? = some (anyMatch L.length M 0 pos) := by
      rw [hb, hsb]; exact getElem?_mid _ _ _
    have hbl : ¬ s.nBitsUsed ≥ T.vBits.length := by
      rw [hb, hsb]; simp
    have hhl : s.nHashUsed ≥ T.vHash.length := by
      rw [hh, hsh]
    simp only [TraverseAndExtract, hbl, hhl, hb1, if_true, if_false]
    exact ⟨_, _, rfl, rfl⟩
  | succ h ih =>
    intro pos T s pre post hpre k hT hp hb hh hk hsb hsh
    have hl : pos * 2 * 2 ^ h < L.length := by
      rw [pow_succ] at hp; nlinarith
    cases hm : anyMatch L.length M (h + 1) pos with
    | false =>
      simp only [builtBits, builtHashes, hm, Bool.false_eq_true, if_false,
        List.singleton_append, List.length_singleton] at hb hh hk
      have hk0 : k = 0 := by omega
      subst hk0
      simp only [List.take_zero, List.append_nil] at hh
      have hb1 : T.vBits[s.nBitsUsed]? = some false := by
        rw [hb, hsb]; exact getElem?_mid _ _ _
      have hbl : ¬ s.nBitsUsed ≥ T.vBits.length := by
        rw [hb, hsb]; simp
      have hhl : s.nHashUsed ≥ T.vHash.length := by
        rw [hh, hsh]
      simp only [TraverseAndExtract, hbl, hhl, hb1, if_true, if_false, Bool.not_false]
      exact ⟨_, _, rfl, rfl⟩
    | true =>
      simp only [builtBits, builtHashes, hm, if_true, List.cons_append] at hb hh hk
      have hb1 : T.vBits[s.nBitsUsed]? = some true := by
        rw [hb, hsb]; exact getElem?_mid _ _ _
      have hbl : ¬ s.nBitsUsed ≥ T.vBits.length := by
        rw [hb, hsb]; simp
      simp only [TraverseAndExtract, hbl, if_false, hb1, Bool.not_true, Bool.false_eq_true, hT]
      by_cases hkl : k < (builtHashes H L.length L M h (pos * 2)).length
      · -- the missing digest is below the left child
        rw [List.take_append_of_le_length (by omega)] at hh
        obtain ⟨left, s1, h1, hf1⟩ := ih (pos * 2) T { s with nBitsUsed := s.nBitsUsed + 1 }
          (pre ++ [true])
          ((if pos * 2 + 1 < CalcTreeWidth L.length h then builtBits L.length M h (pos * 2 + 1)
            else []) ++ post) hpre k hT hl (by rw [hb]; simp) hh hkl (by simp [hsb]) hsh
        rw [h1]
        simp only
        split
        · obtain ⟨⟨right, s2⟩, h2⟩ := TraverseAndExtract_total H T h (pos * 2 + 1) s1
          have hf2 := TraverseAndExtract_fBad_mono H T _ _ _ _ _ h2 hf1
          rw [h2]
          simp only
          split
          · exact ⟨_, _, rfl, rfl⟩
          · exact ⟨_, _, rfl, hf2⟩
        · exact ⟨_, _, rfl, hf1⟩
      · -- the left child is complete; the missing digest is below the right child
        by_cases hr : pos * 2 + 1 < CalcTreeWidth L.length h
        · have hr2 := (lt_CalcTreeWidth _ _ _).1 hr
          simp only [hr, if_true, List.length_append, List.append_assoc] at hb hh hk
          rw [List.take_append_eq_append_take, List.take_of_length_le (by omega)] at hh
          rw [TraverseAndExtract_built H L M h (pos * 2) T { s with nBitsUsed := s.nBitsUsed + 1 }
            (pre ++ [true]) (builtBits L.length M h (pos * 2 + 1) ++ post) hpre
            ((builtHashes H L.length L M h (pos * 2 + 1)).take
              (k - (builtHashes H L.length L M h (pos * 2)).length))
            hT hl (by rw [hb]; simp) (by rw [hh]) (by simp [hsb]) hsh]
          simp only [hr, if_true]
          obtain ⟨right, s2, h2, hf2⟩ := ih (pos * 2 + 1) T
            (afterNode H L M h (pos * 2) { s with nBitsUsed := s.nBitsUsed + 1 })
            (pre ++ [true] ++ builtBits L.length M h (pos * 2)) post
            (hpre ++ builtHashes H L.length L M h (pos * 2))
            (k - (builtHashes H L.length L M h (pos * 2)).length) hT hr2
            (by rw [hb]; simp) (by rw [hh]; simp) (by omega)
            (by simp [afterNode, hsb]; omega) (by simp [afterNode, hsh])
          rw [h2]
          simp only
          split
          · exact ⟨_, _, rfl, rfl⟩
          · exact ⟨_, _, rfl, hf2⟩
        · simp only [hr, if_false, List.append_nil] at hk
          omega

theorem builtTree_hash_pos {D : Type} (H : Hasher D) (L : List D) (M : List Bool) :
    ∀ h pos, 1 ≤ (builtHashes H L.length L M h pos).length := by
  intro h
  induction h with
  | zero => intro pos; simp [builtHashes]
  | succ h ih =>
    intro pos
    simp only [builtHashes]
    split
    · have := ih (pos * 2)
      rw [List.length_append]; omega
    · simp

/-! ## A traversal that sets fBad -/

theorem ExtractMatches_of_fBad {D : Type} [DecidableEq D] (H : Hasher D) (W : Nat)
    (T : CPartialMerkleTree D) (vMatch : List D) (vnIndex : List Nat) (x : D)
    (s : ExtractState D)
    (ht : TraverseAndExtract H T (treeHeight T.nTransactions) 0 (extractStart T vnIndex) =
      some (x, s))
    (hf : s.fBad = true) :
    ∃ r, ExtractMatches H W T vMatch vnIndex = some r ∧ r.root = H.null := by
  unfold ExtractMatches
  split
  · exact ⟨_, rfl, rfl⟩
  · split
    · exact ⟨_, rfl, rfl⟩
    · split
      · exact ⟨_, rfl, rfl⟩
      · split
        · exact ⟨_, rfl, rfl⟩
        · rw [ht]
          simp only [hf, if_true]
          exact ⟨_, rfl, rfl⟩

/-! ## The overflow branches set fBad -/

theorem TraverseAndExtract_overflow_bad {D : Type} [DecidableEq D] (H : Hasher D)
    (T : CPartialMerkleTree D) :
    ∀ h pos (s : ExtractState D) x s', TraverseAndExtract H T h pos s = some (x, s') →
      (s.overflowed = true → s.fBad = true) → s'.overflowed = true → s'.fBad = true := by
  intro h
  induction h with
  | zero =>
    intro pos s x s' he hf
    simp only [TraverseAndExtract] at he
    split at he
    · simp only [Option.some.injEq, Prod.mk.injEq] at he
      rw [← he.2]; intro _; rfl
    · split at he
      · simp at he
      · split at he
        · simp only [Option.some.injEq, Prod.mk.injEq] at he
          rw [← he.2]; intro _; rfl
        · split at he
          · simp at he
          · split at he <;>
            · simp only [Option.some.injEq, Prod.mk.injEq] at he
              rw [← he.2]; exact hf
  | succ h ih =>
    intro pos s x s' he hf
    simp only [TraverseAndExtract] at he
    split at he
    · simp only [Option.some.injEq, Prod.mk.injEq] at he
      rw [← he.2]; intro _; rfl
    · split at he
      · simp at he
      · split at he
        · split at he
          · simp only [Option.some.injEq, Prod.mk.injEq] at he
            rw [← he.2]; intro _; rfl
          · split at he
            · simp at he
            · simp only [Option.some.injEq, Prod.mk.injEq] at he
              rw [← he.2]; exact hf
        · split at he
          · simp at he
          · rename_i left s1 h1
            have hf1 := ih _ _ _ _ h1 hf
            split at he
            · split at he
              · simp at he
              · rename_i right s2 h2
                have hf2 := ih _ _ _ _ h2 hf1
                split at he
                · simp only [Option.some.injEq, Prod.mk.injEq] at he
                  rw [← he.2]; intro _; rfl
                · simp only [Option.some.injEq, Prod.mk.injEq] at he
                  rw [← he.2]; exact hf2
            · simp only [Option.some.injEq, Prod.mk.injEq] at he
              rw [← he.2]; exact hf1

/-! ## Chain linkage -/

theorem verifyChainLoop_spec (E : VerifyEnv) (chain : List SPHINXBlock) :
    ∀ count i, i + count = chain.length →
      ∃ b, verifyChainLoop E chain count i = some b ∧
        (b = true ↔
          (∀ j (hj : j < chain.length), i ≤ j → verifyBlock E chain[j] = true) ∧
          (∀ j (hj : j + 1 < chain.length), i ≤ j + 1 →
            chain[j + 1].previousHash = chain[j].hash)) := by
  intro count
  induction count with
  | zero =>
    intro i hi
    refine ⟨true, rfl, ?_⟩
    simp only [true_iff]
    exact ⟨fun j hj hij => by omega, fun j hj hij => by omega⟩
  | succ count ih =>
    intro i hi
    have hlt : i < chain.length := by omega
    obtain ⟨b, hb, hspec⟩ := ih (i + 1) (by omega)
    simp only [verifyChainLoop, List.getElem?_eq_getElem hlt]
    cases hv : verifyBlock E chain[i] with
    | false =>
      refine ⟨false, by simp, ?_⟩
      simp only [Bool.false_eq_true, false_iff, not_and]
      intro hall
      have := hall i hlt (le_refl _)
      rw [hv] at this
      exact absurd this (by decide)
    | true =>
      simp only [Bool.not_true, Bool.false_eq_true, if_false]
      by_cases hi0 : i > 0
      · have hprev : i - 1 < chain.length := by omega
        simp only [hi0, if_true, List.getElem?_eq_getElem hprev]
        by_cases hlink : chain[i].previousHash ≠ chain[i - 1].hash
        · refine ⟨false, by simp [hlink], ?_⟩
          simp only [Bool.false_eq_true, false_iff, not_and]
          intro _ hall
          have h1 : i - 1 + 1 < chain.length := by omega
          have := hall (i - 1) h1 (by omega)
          apply hlink
          have e : i - 1 + 1 = i := by omega
          simp only [e] at this
          exact this
        · refine ⟨b, by simp only [hlink, if_false]; exact hb, ?_⟩
          rw [hspec]
          have hlink2 : chain[i].previousHash = chain[i - 1].hash := not_not.1 hlink
          constructor
          · rintro ⟨h1, h2⟩
            refine ⟨?_, ?_⟩
            · intro j hj hij
              by_cases hji : j = i
              · subst hji; exact hv
              · exact h1 j hj (by omega)
            · intro j hj hij
              by_cases hji : j + 1 = i
              · subst hji
                simpa using hlink2
              · exact h2 j hj (by omega)
          · rintro ⟨h1, h2⟩
            exact ⟨fun j hj hij => h1 j hj (by omega), fun j hj hij => h2 j hj (by omega)⟩
      · have hi00 : i = 0 := by omega
        subst hi00
        refine ⟨b, by simp only [gt_iff_lt, lt_self_iff_false, if_false]; exact hb, ?_⟩
        rw [hspec]
        constructor
        · rintro ⟨h1, h2⟩
          refine ⟨?_, ?_⟩
          · intro j hj hij
            by_cases hji : j = 0
            · subst hji; exact hv
            · exact h1 j hj (by omega)
          · intro j hj hij
            exact h2 j hj (by omega)
        · rintro ⟨h1, h2⟩
          exact ⟨fun j hj hij => h1 j hj (by omega), fun j hj hij => h2 j hj (by omega)⟩

/-! ## ComputeMerkleRoot and the pairwise reduction -/

theorem ComputeMerkleRoot_four {D : Type} [DecidableEq D] (H : Hasher D) (a b c d : D)
    (mutated : Bool) :
    (ComputeMerkleRoot H [a, b, c, d] mutated).1 =
      H.SPHINX_256 [H.SPHINX_256 [a, b, c, d], b] := by
  simp [ComputeMerkleRoot, merkleLoop, merkleRound]

theorem pairwiseRoot_four {D : Type} (null : D) (combine : D → D → D) (a b c d : D) :
    pairwiseRoot null combine [a, b, c, d] = combine (combine a b) (combine c d) := by
  simp [pairwiseRoot, pairwiseLoop, pairwiseStep_cons_cons, pairwiseStep_nil]

theorem benchPairs_eq {D : Type} (H : Hasher D) :
    ∀ xs : List D, benchPairs H xs = combinePairs (fun l r => H.SPHINX_256 [l, r]) xs
  | [] => rfl
  | [_] => rfl
  | a :: b :: rest => by simp only [benchPairs, combinePairs, benchPairs_eq H rest]

theorem benchLoop_eq_pairwiseLoop {D : Type} (H : Hasher D) :
    ∀ fuel (xs : List D),
      benchLoop H fuel xs = pairwiseLoop (fun l r => H.SPHINX_256 [l, r]) fuel xs := by
  intro fuel
  induction fuel with
  | zero => intro xs; rfl
  | succ fuel ih =>
    intro xs
    simp only [benchLoop, pairwiseLoop, pairwiseStep, dupLastIfOdd, benchPairs_eq,
      Nat.mod_two_ne_zero, ih]

theorem pairwiseLoop_singleton {D : Type} (c : D → D → D) (L : List D) (hL : L ≠ []) :
    ∃ r, pairwiseLoop c L.length L = [r] := by
  have hlen : 0 < L.length := List.length_pos.2 hL
  have h0 : pairwiseLoop c L.length L = levelAt c L (treeHeight L.length) := by
    have := pairwiseLoop_eq_levelAt c L L.length 0
    simpa [levelAt, treeHeight] using this
  have hw : (levelAt c L (treeHeight L.length)).length = 1 := by
    rw [levelAt_length]
    have h1 := treeHeight_width L.length
    have h2 : 0 < CalcTreeWidth L.length (treeHeight L.length) := by
      rw [lt_CalcTreeWidth]; simpa using hlen
    omega
  rw [h0]
  exact List.length_eq_one.1 hw

/-- The benchmark's `SPHINXMerkle::ComputeMerkleRoot` computes the pairwise
reduction of the specification on every non-empty input. -/
theorem SPHINXMerkle_ComputeMerkleRoot_eq {D : Type} (H : Hasher D) (xs : List D)
    (hx : xs ≠ []) :
    SPHINXMerkle.ComputeMerkleRoot H xs =
      some (pairwiseRoot H.null (fun l r => H.SPHINX_256 [l, r]) xs) := by
  obtain ⟨r, hr⟩ := pairwiseLoop_singleton (fun l r => H.SPHINX_256 [l, r]) xs hx
  simp [SPHINXMerkle.ComputeMerkleRoot, pairwiseRoot, benchLoop_eq_pairwiseLoop, hr]

/-! ## The mutation flag -/

theorem scanPairs_iff {D : Type} [DecidableEq D] :
    ∀ (xs : List D) (m : Bool),
      scanPairs xs m = true ↔
        m = true ∨ ∃ k, k * 2 + 1 < xs.length ∧ xs[k * 2]? = xs[k * 2 + 1]?
  | [], m => by simp [scanPairs]
  | [_], m => by simp [scanPairs]
  | a :: b :: rest, m => by
    rw [scanPairs, scanPairs_iff rest]
    constructor
    · rintro (h | ⟨k, hk, he⟩)
      · by_cases hab : a = b
        · exact Or.inr ⟨0, by simp, by simp [hab]⟩
        · simp only [hab, if_false] at h; exact Or.inl h
      · refine Or.inr ⟨k + 1, by simp only [List.length_cons]; omega, ?_⟩
        have e1 : (k + 1) * 2 = k * 2 + 1 + 1 := by ring
        have e2 : (k + 1) * 2 + 1 = k * 2 + 1 + 1 + 1 := by ring
        rw [e1]
        simpa using he
    · rintro (h | ⟨k, hk, he⟩)
      · left; simp [h]
      · cases k with
        | zero =>
          left
          have hab : a = b := by simpa using he
          simp [hab]
        | succ k =>
          right
          have e1 : (k + 1) * 2 = k * 2 + 1 + 1 := by ring
          have e2 : (k + 1) * 2 + 1 = k * 2 + 1 + 1 + 1 := by ring
          rw [e1] at he
          rw [e2] at hk
          exact ⟨k, by simp only [List.length_cons] at hk; omega, by simpa using he⟩

theorem merkleRound_length {D : Type} (H : Hasher D) (xs : List D) :
    (merkleRound H xs).length = (xs.length + 1) / 2 := by
  unfold merkleRound
  by_cases hodd : xs.length % 2 = 1
  · cases hl : xs.getLast? with
    | none =>
      rw [List.getLast?_eq_none_iff] at hl
      subst hl; simp at hodd
    | some back =>
      simp only [hodd, if_true, List.length_take, List.length_set, List.length_append,
        List.length_singleton]
      omega
  · simp only [hodd, if_false, List.length_take, List.length_set]
    omega

theorem merkleRound_iterate_le_one {D : Type} (H : Hasher D) (xs : List D)
    (hx : xs.length ≤ 1) : ∀ r, ((merkleRound H)^[r] xs).length ≤ 1 := by
  intro r
  induction r with
  | zero => simpa using hx
  | succ r ih =>
    rw [Function.iterate_succ_apply', merkleRound_length]
    omega

theorem merkleLoop_length {D : Type} [DecidableEq D] (H : Hasher D) (mutated : Bool) :
    ∀ fuel (xs : List D) (m : Bool), xs.length ≤ fuel + 1 →
      (merkleLoop H mutated fuel xs m).1.length ≤ 1 := by
  intro fuel
  induction fuel with
  | zero => intro xs m hx; simpa [merkleLoop] using hx
  | succ fuel ih =>
    intro xs m hx
    simp only [merkleLoop]
    split
    · apply ih
      rw [merkleRound_length]; omega
    · simp only; omega

theorem merkleLoop_mutation {D : Type} [DecidableEq D] (H : Hasher D) :
    ∀ fuel (xs : List D) (m : Bool), xs.length ≤ fuel + 1 →
      ((merkleLoop H true fuel xs m).2 = true ↔
        m = true ∨ ∃ r k, k * 2 + 1 < ((merkleRound H)^[r] xs).length ∧
          ((merkleRound H)^[r] xs)[k * 2]? = ((merkleRound H)^[r] xs)[k * 2 + 1]?) := by
  intro fuel
  induction fuel with
  | zero =>
    intro xs m hx
    simp only [merkleLoop]
    constructor
    · exact Or.inl
    · rintro (h | ⟨r, k, hk, _⟩)
      · exact h
      · have := merkleRound_iterate_le_one H xs (by omega) r
        omega
  | succ fuel ih =>
    intro xs m hx
    simp only [merkleLoop]
    split
    · rw [ih _ _ (by rw [merkleRound_length]; omega)]
      simp only [if_true, scanPairs_iff]
      constructor
      · rintro ((h | ⟨k, hk, he⟩) | ⟨r, k, hk, he⟩)
        · exact Or.inl h
        · exact Or.inr ⟨0, k, hk, he⟩
        · exact Or.inr ⟨r + 1, k, by simpa [Function.iterate_succ_apply] using hk,
            by simpa [Function.iterate_succ_apply] using he⟩
      · rintro (h | ⟨r, k, hk, he⟩)
        · exact Or.inl (Or.inl h)
        · cases r with
          | zero => exact Or.inl (Or.inr ⟨k, hk, he⟩)
          | succ r =>
            exact Or.inr ⟨r, k, by simpa [Function.iterate_succ_apply] using hk,
              by simpa [Function.iterate_succ_apply] using he⟩
    · rename_i hle
      simp only
      constructor
      · exact Or.inl
      · rintro (h | ⟨r, k, hk, _⟩)
        · exact h
        · have := merkleRound_iterate_le_one H xs (by omega) r
          omega

theorem scanPairs_trailing {D : Type} [DecidableEq D] :
    ∀ (xs : List D) (x : D) (m : Bool), xs.length % 2 = 0 →
      scanPairs (xs ++ [x]) m = scanPairs xs m
  | [], x, m, _ => by simp [scanPairs]
  | [_], x, m, h => by simp at h
  | a :: b :: rest, x, m, h => by
    have hr : rest.length % 2 = 0 := by simp only [List.length_cons] at h; omega
    simp only [List.cons_append, scanPairs]
    exact scanPairs_trailing rest x _ hr

/-! ## Bit packing -/

theorem and_one_shiftLeft_ne_zero (x k : Nat) : ((x &&& (1 <<< k)) != 0) = x.testBit k := by
  rw [Nat.one_shiftLeft]
  cases h : x.testBit k with
  | false =>
    have h0 : x &&& 2 ^ k = 0 := by
      apply Nat.eq_of_testBit_eq
      intro i
      simp only [Nat.testBit_and, Nat.testBit_two_pow, Nat.zero_testBit]
      by_cases hki : k = i
      · subst hki; simp [h]
      · simp [hki]
    simp [h0]
  | true =>
    have h1 : (x &&& 2 ^ k).testBit k = true := by
      simp [h, Nat.testBit_two_pow_self]
    have h0 : x &&& 2 ^ k ≠ 0 := by
      intro h0; rw [h0] at h1; simp at h1
    simpa using h0

theorem testBit_bit01 (b : Bool) (j : Nat) :
    (if b then 1 else 0 : Nat).testBit j = (b && decide (j = 0)) := by
  cases b with
  | false => simp
  | true =>
    cases j with
    | zero => simp
    | succ j =>
      have : Nat.testBit 1 (j + 1) = false := by
        cases h : Nat.testBit 1 (j + 1) with
        | false => rfl
        | true =>
          have := Nat.testBit_one_eq_true_iff_self_eq_zero.1 h
          omega
      simp [this]

theorem getD_set {α : Type} (l : List α) (i j : Nat) (v d : α) (hi : i < l.length) :
    (l.set i v).getD j d = if i = j then v else l.getD j d := by
  by_cases hij : i = j
  · subst hij
    rw [List.getD_eq_getElem?_getD, List.getElem?_set_self hi, if_pos rfl]; rfl
  · rw [List.getD_eq_getElem?_getD, List.getElem?_set_ne hij, if_neg hij,
      List.getD_eq_getElem?_getD]

theorem div_mod_eq (p q : Nat) (hd : q / 8 = p / 8) : (q % 8 = p % 8 ↔ q = p) := by
  omega

theorem bitsToBytesLoop_spec (bits : List Bool) :
    ∀ count p (ret : List Nat), p + count = bits.length →
      ret.length = (bits.length + 7) / 8 →
      (∀ q, q < 8 * ret.length →
        (ret.getD (q / 8) 0).testBit (q % 8) = (decide (q < p) && bits.getD q false)) →
      ∃ bytes, bitsToBytesLoop bits count p ret = some bytes ∧
        bytes.length = (bits.length + 7) / 8 ∧
        ∀ q, q < 8 * bytes.length →
          (bytes.getD (q / 8) 0).testBit (q % 8) = bits.getD q false := by
  intro count
  induction count with
  | zero =>
    intro p ret hp hlen hinv
    refine ⟨ret, rfl, hlen, ?_⟩
    intro q hq
    rw [hinv q hq]
    by_cases hqp : q < p
    · simp [hqp]
    · have : bits.getD q false = false := by
        rw [List.getD_eq_getElem?_getD, List.getElem?_eq_none (by omega)]; rfl
      rw [this]; simp
  | succ count ih =>
    intro p ret hp hlen hinv
    have hpn : p < bits.length := by omega
    have hpb : p / 8 < ret.length := by omega
    have hbyte : ret[p / 8]? = some (ret.getD (p / 8) 0) := by
      rw [List.getD_eq_getElem _ _ hpb, List.getElem?_eq_getElem hpb]
    have hbit : bits[p]? = some (bits.getD p false) := by
      rw [List.getD_eq_getElem _ _ hpn, List.getElem?_eq_getElem hpn]
    simp only [bitsToBytesLoop, hbyte, hbit]
    apply ih (p + 1) _ (by omega) (by simpa using hlen)
    intro q hq
    rw [List.length_set] at hq
    rw [getD_set _ _ _ _ _ hpb]
    by_cases hd : p / 8 = q / 8
    · rw [if_pos hd]
      have h8 : q % 8 < 8 := Nat.mod_lt _ (by decide)
      rw [show (256 : Nat) = 2 ^ 8 from rfl, Nat.testBit_mod_two_pow, Nat.testBit_or,
        Nat.testBit_shiftLeft, testBit_bit01, hd, hinv q hq]
      have hiff := div_mod_eq p q hd.symm
      by_cases hqp : q = p
      · subst hqp
        simp [h8]
      · have hne : ¬ q % 8 = p % 8 := fun h => hqp (hiff.1 h)
        have hsub : ¬ (q % 8 ≥ p % 8 ∧ q % 8 - p % 8 = 0) := by omega
        have hlt : (decide (q < p + 1)) = decide (q < p) := by
          apply decide_eq_decide.2; omega
        rw [hlt]
        by_cases h1 : q % 8 ≥ p % 8
        · have h2 : ¬ q % 8 - p % 8 = 0 := by omega
          simp [h8, h1, h2]
        · simp [h8, h1]
    · rw [if_neg hd, hinv q hq]
      have hqp : q ≠ p := by intro h; subst h; exact hd rfl
      have hlt : (decide (q < p + 1)) = decide (q < p) := by
        apply decide_eq_decide.2; omega
      rw [hlt]

theorem BitsToBytes_spec (bits : List Bool) :
    ∃ bytes, BitsToBytes bits = some bytes ∧ bytes.length = (bits.length + 7) / 8 ∧
      ∀ q, q < 8 * bytes.length →
        (bytes.getD (q / 8) 0).testBit (q % 8) = bits.getD q false := by
  apply bitsToBytesLoop_spec bits bits.length 0 _ (by omega) (by simp)
  intro q hq
  rw [List.length_replicate] at hq
  have : (List.replicate ((bits.length + 7) / 8) 0).getD (q / 8) 0 = 0 := by
    rw [List.getD_eq_getElem _ _ (by rw [List.length_replicate]; omega)]
    simp
  simp [this]

theorem bytesToBitsLoop_spec (bytes : List Nat) :
    ∀ count p (ret : List Bool), p + count = bytes.length * 8 →
      ret.length = bytes.length * 8 →
      (∀ q, q < p → ret.getD q false = (bytes.getD (q / 8) 0).testBit (q % 8)) →
      ∃ bs, bytesToBitsLoop bytes count p ret = some bs ∧
        bs.length = bytes.length * 8 ∧
        ∀ q, q < bytes.length * 8 →
          bs.getD q false = (bytes.getD (q / 8) 0).testBit (q % 8) := by
  intro count
  induction count with
  | zero =>
    intro p ret hp hlen hinv
    exact ⟨ret, rfl, hlen, fun q hq => hinv q (by omega)⟩
  | succ count ih =>
    intro p ret hp hlen hinv
    have hpb : p / 8 < bytes.length := by omega
    have hpr : p < ret.length := by omega
    have hbyte : bytes[p / 8]? = some (bytes.getD (p / 8) 0) := by
      rw [List.getD_eq_getElem _ _ hpb, List.getElem?_eq_getElem hpb]
    simp only [bytesToBitsLoop, hbyte]
    apply ih (p + 1) _ (by omega) (by simpa using hlen)
    intro q hq
    rw [getD_set _ _ _ _ _ hpr]
    by_cases hqp : p = q
    · subst hqp
      rw [if_pos rfl, and_one_shiftLeft_ne_zero]
    · rw [if_neg hqp]
      exact hinv q (by omega)

theorem BytesToBits_spec (bytes : List Nat) :
    ∃ bs, BytesToBits bytes = some bs ∧ bs.length = bytes.length * 8 ∧
      ∀ q, q < bytes.length * 8 →
        bs.getD q false = (bytes.getD (q / 8) 0).testBit (q % 8) :=
  bytesToBitsLoop_spec bytes (bytes.length * 8) 0 _ (by omega) (by simp)
    (fun q hq => absurd hq (Nat.not_lt_zero q))

theorem flipBit_spec (bytes : List Nat) (p : Nat) (hp : p < bytes.length * 8) :
    (flipBit bytes p).length = bytes.length ∧
    ∀ q, ((flipBit bytes p).getD (q / 8) 0).testBit (q % 8) =
      xor ((bytes.getD (q / 8) 0).testBit (q % 8)) (decide (q = p)) := by
  have hpb : p / 8 < bytes.length := by omega
  have hbyte : bytes[p / 8]? = some (bytes.getD (p / 8) 0) := by
    rw [List.getD_eq_getElem _ _ hpb, List.getElem?_eq_getElem hpb]
  simp only [flipBit, hbyte, List.length_set, true_and]
  intro q
  rw [getD_set _ _ _ _ _ hpb]
  by_cases hd : p / 8 = q / 8
  · rw [if_pos hd, Nat.testBit_xor, Nat.one_shiftLeft, Nat.testBit_two_pow, hd]
    have hiff := div_mod_eq p q hd.symm
    have : decide (p % 8 = q % 8) = decide (q = p) := by
      apply decide_eq_decide.2
      constructor
      · intro h; exact hiff.1 h.symm
      · intro h; exact (hiff.2 h).symm
    rw [this]
  · rw [if_neg hd]
    have : decide (q = p) = false := by
      apply decide_eq_false; intro h; subst h; exact hd rfl
    rw [this]; simp

/-- Packing a bit vector, flipping a padding bit of the byte array and
unpacking gives the original bits followed by some padding. -/
theorem pack_flip_unpack (bits : List Bool) (p : Nat) (hlo : bits.length ≤ p) :
    ∃ bytes, BitsToBytes bits = some bytes ∧ bytes.length = (bits.length + 7) / 8 ∧
      (p < 8 * bytes.length →
        ∃ post, BytesToBits (flipBit bytes p) = some (bits ++ post) ∧
          (bits ++ post).length = 8 * ((bits.length + 7) / 8)) := by
  obtain ⟨bytes, hb, hlen, hbits⟩ := BitsToBytes_spec bits
  refine ⟨bytes, hb, hlen, ?_⟩
  intro hhi
  obtain ⟨hfl, hfb⟩ := flipBit_spec bytes p (by omega)
  obtain ⟨bs, hbs, hbl, hbv⟩ := BytesToBits_spec (flipBit bytes p)
  have htake : bs.take bits.length = bits := by
    apply List.ext_getElem?
    intro q
    by_cases hq : q < bits.length
    · have hq2 : q < (flipBit bytes p).length * 8 := by omega
      have h1 := hbv q hq2
      rw [hfb q, hbits q (by omega)] at h1
      have hne : decide (q = p) = false := by
        apply decide_eq_false; omega
      rw [hne, Bool.xor_false] at h1
      rw [List.getElem?_take_of_lt hq]
      have hq3 : q < bs.length := by omega
      rw [List.getD_eq_getElem _ _ hq3, List.getD_eq_getElem _ _ hq] at h1
      rw [List.getElem?_eq_getElem hq3, List.getElem?_eq_getElem hq, h1]
    · rw [List.getElem?_eq_none (by rw [List.length_take]; omega),
        List.getElem?_eq_none (by omega)]
  refine ⟨bs.drop bits.length, ?_, ?_⟩
  · rw [hbs]
    congr 1
    conv_lhs => rw [← List.take_append_drop bits.length bs, htake]
  · have : bits ++ bs.drop bits.length = bs := by
      conv_rhs => rw [← List.take_append_drop bits.length bs, htake]
    rw [this, hbl, hfl, hlen]; omega

/-! ## ComputeMerkleRoot under a hasher that never returns the null digest -/

theorem demoHasher_SPHINX_256_ne_null (x : Nat) (xs : List Nat) :
    demoHasher.SPHINX_256 (x :: xs) ≠ demoHasher.null := by
  simp [demoHasher, demoDigest]

theorem set_zero_take {D : Type} (v : D) :
    ∀ padded : List D, 1 < padded.length →
      ∃ t, (padded.set 0 v).take (padded.length / 2) = v :: t
  | a :: b :: t, _ => by
    have h2 : (a :: b :: t).length / 2 = ((a :: b :: t).length / 2 - 1) + 1 := by
      simp only [List.length_cons]; omega
    rw [h2]
    exact ⟨_, rfl⟩
  | [_], h => by simp at h
  | [], h => by simp at h

theorem dupLastIfOdd_length_ge {D : Type} (xs : List D) :
    xs.length ≤ (dupLastIfOdd xs).length := by
  unfold dupLastIfOdd
  split
  · split
    · simp
    · exact le_refl _
  · exact le_refl _

theorem merkleRound_head {D : Type} (H : Hasher D) (xs : List D) (hx : 1 < xs.length) :
    ∃ padded t, padded ≠ [] ∧ merkleRound H xs = H.SPHINX_256 padded :: t := by
  have hlen := dupLastIfOdd_length_ge xs
  obtain ⟨t, ht⟩ := set_zero_take (H.SPHINX_256 (dupLastIfOdd xs)) (dupLastIfOdd xs)
    (by omega)
  refine ⟨dupLastIfOdd xs, t, ?_, ht⟩
  intro h0
  rw [h0, List.length_nil] at hlen
  omega

theorem merkleLoop_head_ne_null {D : Type} [DecidableEq D] (H : Hasher D) (mutated : Bool)
    (hS : ∀ x xs, H.SPHINX_256 (x :: xs) ≠ H.null) :
    ∀ fuel (xs : List D) (m : Bool), (∃ h t, xs = h :: t ∧ h ≠ H.null) →
      ∃ h t, (merkleLoop H mutated fuel xs m).1 = h :: t ∧ h ≠ H.null := by
  intro fuel
  induction fuel with
  | zero => intro xs m hx; simpa [merkleLoop] using hx
  | succ fuel ih =>
    intro xs m hx
    simp only [merkleLoop]
    split
    · rename_i hlen
      apply ih
      obtain ⟨padded, t, hne, hr⟩ := merkleRound_head H xs hlen
      refine ⟨_, t, hr, ?_⟩
      cases padded with
      | nil => exact absurd rfl hne
      | cons a as => exact hS a as
    · exact hx

theorem ComputeMerkleRoot_ne_null {D : Type} [DecidableEq D] (H : Hasher D) (mutated : Bool)
    (hS : ∀ x xs, H.SPHINX_256 (x :: xs) ≠ H.null) (xs : List D) (hx : 1 < xs.length) :
    (ComputeMerkleRoot H xs mutated).1 ≠ H.null := by
  unfold ComputeMerkleRoot
  have hfuel : xs.length = (xs.length - 1) + 1 := by omega
  obtain ⟨padded, t, hne, hr⟩ := merkleRound_head H xs hx
  have h1 : ∃ h t, merkleRound H xs = h :: t ∧ h ≠ H.null := by
    refine ⟨_, t, hr, ?_⟩
    cases padded with
    | nil => exact absurd rfl hne
    | cons a as => exact hS a as
  obtain ⟨h, t', he, hh⟩ := merkleLoop_head_ne_null H mutated hS (xs.length - 1)
    (merkleRound H xs) (if mutated then scanPairs xs false else false) h1
  have hloop : merkleLoop H mutated xs.length xs false =
      merkleLoop H mutated (xs.length - 1) (merkleRound H xs)
        (if mutated then scanPairs xs false else false) := by
    conv_lhs => rw [hfuel]
    simp only [merkleLoop]
    rw [if_pos hx]
  rw [hloop]
  simp only [he]
  exact hh

/-! ## Chain linkage: the whole chain -/

theorem verifyChain_spec (E : VerifyEnv) (chain : List SPHINXBlock) (hne : chain ≠ []) :
    ∃ b, verifyChain E chain = some b ∧
      (b = true ↔
        (∀ i (hi : i < chain.length), verifyBlock E chain[i] = true) ∧
        (∀ i (hi : i + 1 < chain.length), chain[i + 1].previousHash = chain[i].hash)) := by
  have hlen : chain.length ≠ 0 := fun h => hne (List.length_eq_zero.1 h)
  obtain ⟨b, hb, hspec⟩ := verifyChainLoop_spec E chain chain.length 0 (by omega)
  refine ⟨b, by simp only [verifyChain, hlen, if_false]; exact hb, ?_⟩
  rw [hspec]
  constructor
  · rintro ⟨h1, h2⟩
    exact ⟨fun i hi => h1 i hi (Nat.zero_le _), fun i hi => h2 i hi (Nat.zero_le _)⟩
  · rintro ⟨h1, h2⟩
    exact ⟨fun i hi _ => h1 i hi, fun i hi _ => h2 i hi⟩

/-! ## The loop of CheckTxInputs -/

theorem checkInputsLoop_ok (M : Int) (inputs : Nat × Nat → Option Coin) (sh : Int) :
    ∀ (vin : List CTxIn) (v0 v : Int),
      checkInputsLoop M inputs sh vin v0 = some (.ok v) →
      ∃ coins : List Coin,
        vin.map (fun txin => inputs txin.prevout) = coins.map some ∧
        v = v0 + (coins.map (fun c => c.nValue)).sum ∧
        (∀ c ∈ coins, MoneyRange M c.nValue = true) ∧
        (∀ c ∈ coins, ¬ (c.fCoinBase = true ∧
          (sh - c.nHeight) % 2 ^ 64 < (COINBASE_MATURITY : Int))) ∧
        (∀ k, 0 < k → k ≤ coins.length →
          MoneyRange M (v0 + ((coins.take k).map (fun c => c.nValue)).sum) = true) := by
  intro vin
  induction vin with
  | nil =>
    intro v0 v h
    simp only [checkInputsLoop, Option.some.injEq, Except.ok.injEq] at h
    refine ⟨[], rfl, by simp [h], by simp, by simp, ?_⟩
    intro k hk hk2
    simp at hk2; omega
  | cons txin rest ih =>
    intro v0 v h
    simp only [checkInputsLoop] at h
    cases hc : inputs txin.prevout with
    | none => rw [hc] at h; simp at h
    | some coin =>
      rw [hc] at h
      simp only at h
      split at h
      · simp at h
      · rename_i hprem
        split at h
        · simp at h
        · rename_i hrange
          simp only [Bool.or_eq_true, Bool.not_eq_true', not_or, Bool.not_eq_false] at hrange
          obtain ⟨coins, hmap, hv, hvals, hmat, hsums⟩ := ih _ _ h
          refine ⟨coin :: coins, by simp [hc, hmap], ?_, ?_, ?_, ?_⟩
          · rw [hv]; simp only [List.map_cons, List.sum_cons]; ring
          · intro c hcm
            rcases List.mem_cons.1 hcm with rfl | hcm
            · exact hrange.1
            · exact hvals c hcm
          · intro c hcm
            rcases List.mem_cons.1 hcm with rfl | hcm
            · exact hprem
            · exact hmat c hcm
          · intro k hk hk2
            cases k with
            | zero => omega
            | succ k =>
              simp only [List.take_succ_cons, List.map_cons, List.sum_cons]
              cases k with
              | zero => simpa using hrange.2
              | succ k =>
                have := hsums (k + 1) (by omega) (by simpa using hk2)
                rw [← add_assoc]; exact this

theorem checkInputsLoop_of_coins (M : Int) (inputs : Nat × Nat → Option Coin) (sh : Int) :
    ∀ (vin : List CTxIn) (coins : List Coin) (v0 : Int),
      vin.map (fun txin => inputs txin.prevout) = coins.map some →
      (∀ c ∈ coins, MoneyRange M c.nValue = true) →
      (∀ c ∈ coins, ¬ (c.fCoinBase = true ∧
        (sh - c.nHeight) % 2 ^ 64 < (COINBASE_MATURITY : Int))) →
      (∀ k, 0 < k → k ≤ coins.length →
        MoneyRange M (v0 + ((coins.take k).map (fun c => c.nValue)).sum) = true) →
      checkInputsLoop M inputs sh vin v0 =
        some (.ok (v0 + (coins.map (fun c => c.nValue)).sum)) := by
  intro vin
  induction vin with
  | nil =>
    intro coins v0 hmap _ _ _
    have : coins = [] := by
      cases coins with
      | nil => rfl
      | cons c cs => simp at hmap
    subst this
    simp [checkInputsLoop]
  | cons txin rest ih =>
    intro coins v0 hmap hvals hmat hsums
    cases coins with
    | nil => simp at hmap
    | cons coin coins =>
      simp only [List.map_cons, List.cons.injEq] at hmap
      have h1 := hsums 1 (by omega) (by simp)
      simp only [List.take_succ_cons, List.take_zero, List.map_cons, List.map_nil,
        List.sum_cons, List.sum_nil, add_zero] at h1
      have hm := hmat coin (List.mem_cons_self _ _)
      have hv := hvals coin (List.mem_cons_self _ _)
      simp only [checkInputsLoop, hmap.1, hm, if_false, hv, h1, Bool.not_true, Bool.or_self,
        Bool.false_eq_true]
      rw [ih coins _ hmap.2 (fun c hc => hvals c (List.mem_cons_of_mem _ hc))
        (fun c hc => hmat c (List.mem_cons_of_mem _ hc))]
      · simp only [List.map_cons, List.sum_cons, add_assoc]
      · intro k hk hk2
        have := hsums (k + 1) (by omega) (by simpa using hk2)
        simpa [List.take_succ_cons, add_assoc] using this

theorem HaveInputs_of_coins (inputs : Nat × Nat → Option Coin) (tx : Transaction)
    (coins : List Coin) (hmap : tx.vin.map (fun txin => inputs txin.prevout) = coins.map some) :
    HaveInputs inputs tx = true := by
  unfold HaveInputs
  rw [List.all_eq_true]
  intro txin hmem
  have : inputs txin.prevout ∈ tx.vin.map (fun txin => inputs txin.prevout) :=
    List.mem_map.2 ⟨txin, hmem, rfl⟩
  rw [hmap] at this
  obtain ⟨c, _, hc⟩ := List.mem_map.1 this
  rw [← hc]; rfl

/-! ## IsFinalTx -/

theorem allSequenceFinal_iff (K : TxConsts) :
    ∀ vin : List CTxIn,
      allSequenceFinal K vin = true ↔ ∀ txin ∈ vin, txin.nSequence = K.SEQUENCE_FINAL := by
  intro vin
  induction vin with
  | nil => simp [allSequenceFinal]
  | cons txin rest ih =>
    simp only [allSequenceFinal, List.mem_cons, forall_eq_or_imp]
    by_cases h : txin.nSequence = K.SEQUENCE_FINAL
    · simp [h, ih]
    · simp [h]

/-! ## CalculateSequenceLocks -/

theorem set_take_succ {α : Type} (l : List α) (i : Nat) (v : α) (hi : i < l.length) :
    (l.set i v).take (i + 1) = l.take i ++ [v] := by
  rw [List.set_eq_take_append_cons_drop, if_pos hi]
  have hlen : (l.take i).length = i := by rw [List.length_take]; omega
  rw [List.take_append_eq_append_take, hlen, List.take_of_length_le (by omega)]
  simp

theorem take_succ_getElem {α : Type} (l : List α) (i : Nat) (hi : i < l.length) :
    l.take (i + 1) = l.take i ++ [l[i]] := by
  rw [List.take_succ, List.getElem?_eq_getElem hi]; rfl

theorem sequenceLocksLoop_eq (K : TxConsts) (ancestorMTP : Int → Option Int)
    (vin : List CTxIn) :
    ∀ count i h t (ph : List Int), i + count = vin.length → ph.length = vin.length →
      sequenceLocksLoop K ancestorMTP vin count i h t ph =
        (seqFold K ancestorMTP ((vin.drop i).zip (ph.drop i)) h t).map
          (fun r => (r.1, r.2.1, ph.take i ++ r.2.2)) := by
  intro count
  induction count with
  | zero =>
    intro i h t ph hi hlen
    have e1 : vin.drop i = [] := List.drop_eq_nil_of_le (by omega)
    simp [sequenceLocksLoop, e1, seqFold, List.take_of_length_le (show ph.length ≤ i by omega)]
  | succ count ih =>
    intro i h t ph hi hlen
    have hiv : i < vin.length := by omega
    have hip : i < ph.length := by omega
    rw [List.drop_eq_getElem_cons hiv, List.drop_eq_getElem_cons hip, List.zip_cons_cons]
    simp only [sequenceLocksLoop, List.getElem?_eq_getElem hiv, List.getElem?_eq_getElem hip,
      seqFold]
    by_cases hd : vin[i].nSequence &&& K.SEQUENCE_LOCKTIME_DISABLE_FLAG ≠ 0
    · rw [if_pos hd, if_pos hd, ih (i + 1) h t _ (by omega) (by simpa using hlen),
        List.drop_set_of_lt _ _ (by omega), set_take_succ _ _ _ hip, Option.map_map]
      congr 1
      funext r
      simp
    · rw [if_neg hd, if_neg hd]
      by_cases ht : vin[i].nSequence &&& K.SEQUENCE_LOCKTIME_TYPE_FLAG ≠ 0
      · rw [if_pos ht, if_pos ht]
        cases hc : coinTime ancestorMTP ph[i] with
        | none => rfl
        | some nCoinTime =>
          simp only
          rw [ih (i + 1) _ _ ph (by omega) hlen, take_succ_getElem _ _ hip, Option.map_map]
          congr 1
          funext r
          simp only [Function.comp, List.append_assoc, List.singleton_append]
      · rw [if_neg ht, if_neg ht]
        rw [ih (i + 1) _ _ ph (by omega) hlen, take_succ_getElem _ _ hip, Option.map_map]
        congr 1
        funext r
        simp only [Function.comp, List.append_assoc, List.singleton_append]

theorem seqFold_spec (K : TxConsts) (ancestorMTP : Int → Option Int) :
    ∀ (l : List (CTxIn × Int)) (h t : Int),
      (∀ e ∈ l, e.1.nSequence &&& K.SEQUENCE_LOCKTIME_DISABLE_FLAG = 0 →
        e.1.nSequence &&& K.SEQUENCE_LOCKTIME_TYPE_FLAG ≠ 0 →
        coinTime ancestorMTP e.2 ≠ none) →
      ∃ ph', seqFold K ancestorMTP l h t =
        some ((heightCandidatesOf K l).foldl minOrFirst h,
          (timeCandidatesOf K ancestorMTP l).foldl minOrFirst t, ph') := by
  intro l
  induction l with
  | nil => intro h t _; exact ⟨[], rfl⟩
  | cons e rest ih =>
    intro h t hanc
    obtain ⟨txin, p⟩ := e
    have hrest : ∀ e ∈ rest, e.1.nSequence &&& K.SEQUENCE_LOCKTIME_DISABLE_FLAG = 0 →
        e.1.nSequence &&& K.SEQUENCE_LOCKTIME_TYPE_FLAG ≠ 0 →
        coinTime ancestorMTP e.2 ≠ none :=
      fun e he => hanc e (List.mem_cons_of_mem _ he)
    simp only [seqFold, heightCandidatesOf, timeCandidatesOf, List.filterMap_cons]
    by_cases hd : txin.nSequence &&& K.SEQUENCE_LOCKTIME_DISABLE_FLAG ≠ 0
    · obtain ⟨ph', hph⟩ := ih h t hrest
      simp only [if_pos hd]
      rw [hph]
      exact ⟨0 :: ph', rfl⟩
    · simp only [if_neg hd]
      by_cases ht : txin.nSequence &&& K.SEQUENCE_LOCKTIME_TYPE_FLAG ≠ 0
      · simp only [if_pos ht]
        have hex := hanc (txin, p) (List.mem_cons_self _ _) (not_not.1 hd) ht
        cases hc : coinTime ancestorMTP p with
        | none => exact absurd hc hex
        | some nCoinTime =>
          simp only [Option.map_some', List.foldl_cons]
          obtain ⟨ph', hph⟩ := ih (minOrFirst h (heightCandidate K txin p))
            (minOrFirst t (nCoinTime + timeOffset K txin - 1)) hrest
          rw [hph]
          exact ⟨p :: ph', rfl⟩
      · simp only [if_neg ht, List.foldl_cons]
        obtain ⟨ph', hph⟩ := ih (minOrFirst h (heightCandidate K txin p)) t hrest
        rw [hph]
        exact ⟨p :: ph', rfl⟩

theorem foldl_minOrFirst (cs : List Int) :
    ∀ x : Int, (∀ c ∈ cs, c ≠ -1) → x ≠ -1 →
      (cs.foldl minOrFirst x = x ∨ cs.foldl minOrFirst x ∈ cs) ∧
      cs.foldl minOrFirst x ≤ x ∧ (∀ c ∈ cs, cs.foldl minOrFirst x ≤ c) := by
  induction cs with
  | nil => intro x _ _; simp
  | cons c cs ih =>
    intro x hcs hx
    have hc : c ≠ -1 := hcs c (List.mem_cons_self _ _)
    have hstep : minOrFirst x c = min x c := by simp [minOrFirst, hx]
    have hmin : min x c ≠ -1 := by
      rcases min_choice x c with h | h <;> rw [h] <;> assumption
    obtain ⟨h1, h2, h3⟩ := ih (min x c) (fun d hd => hcs d (List.mem_cons_of_mem _ hd)) hmin
    simp only [List.foldl_cons, hstep]
    refine ⟨?_, ?_, ?_⟩
    · rcases h1 with h1 | h1
      · rcases min_choice x c with h | h
        · left; rw [h1, h]
        · right; rw [h1, h]; exact List.mem_cons_self _ _
      · right; exact List.mem_cons_of_mem _ h1
    · exact le_trans h2 (min_le_left _ _)
    · intro d hd
      rcases List.mem_cons.1 hd with rfl | hd
      · exact le_trans h2 (min_le_right _ _)
      · exact h3 d hd

theorem foldl_minOrFirst_start (cs : List Int) (hcs : ∀ c ∈ cs, c ≠ -1) :
    (cs = [] → cs.foldl minOrFirst (-1) = -1) ∧
    (cs ≠ [] → cs.foldl minOrFirst (-1) ∈ cs ∧ ∀ c ∈ cs, cs.foldl minOrFirst (-1) ≤ c) := by
  constructor
  · intro h; subst h; rfl
  · intro hne
    cases cs with
    | nil => exact absurd rfl hne
    | cons c cs =>
      have hc : c ≠ -1 := hcs c (List.mem_cons_self _ _)
      have hstep : minOrFirst (-1) c = c := by simp [minOrFirst]
      obtain ⟨h1, h2, h3⟩ := foldl_minOrFirst cs c
        (fun d hd => hcs d (List.mem_cons_of_mem _ hd)) hc
      simp only [List.foldl_cons, hstep]
      refine ⟨?_, ?_⟩
      · rcases h1 with h1 | h1
        · rw [h1]; exact List.mem_cons_self _ _
        · exact List.mem_cons_of_mem _ h1
      · intro d hd
        rcases List.mem_cons.1 hd with rfl | hd
        · exact h2
        · exact h3 d hd

theorem CalculateSequenceLocks_spec (K : TxConsts) (ancestorMTP : Int → Option Int)
    (tx : Transaction) (prevHeights : List Int)
    (hlen : prevHeights.length = tx.vin.length)
    (hanc : ∀ e ∈ tx.vin.zip prevHeights,
      e.1.nSequence &&& K.SEQUENCE_LOCKTIME_DISABLE_FLAG = 0 →
      e.1.nSequence &&& K.SEQUENCE_LOCKTIME_TYPE_FLAG ≠ 0 →
      coinTime ancestorMTP e.2 ≠ none) :
    ∃ ph', CalculateSequenceLocks K ancestorMTP tx prevHeights =
      some ((heightCandidatesOf K (tx.vin.zip prevHeights)).foldl minOrFirst (-1),
        (timeCandidatesOf K ancestorMTP (tx.vin.zip prevHeights)).foldl minOrFirst (-1),
        ph') := by
  obtain ⟨ph', hph⟩ := seqFold_spec K ancestorMTP (tx.vin.zip prevHeights) (-1) (-1) hanc
  unfold CalculateSequenceLocks
  rw [if_neg (by simp [hlen]), sequenceLocksLoop_eq K ancestorMTP tx.vin _ 0 _ _ _ (by omega) hlen]
  simp only [List.drop_zero, hph, Option.map_some', List.take_zero, List.nil_append]
  exact ⟨ph', rfl⟩

theorem foldl_minOrFirst_eq_min (cs : List Int) :
    ∀ x : Int, (∀ c ∈ cs, c ≠ -1) → x ≠ -1 → cs.foldl minOrFirst x = cs.foldl min x := by
  induction cs with
  | nil => intro x _ _; rfl
  | cons c cs ih =>
    intro x hcs hx
    have hc : c ≠ -1 := hcs c (List.mem_cons_self _ _)
    have hstep : minOrFirst x c = min x c := by simp [minOrFirst, hx]
    have hmin : min x c ≠ -1 := by
      rcases min_choice x c with h | h <;> rw [h] <;> assumption
    simp only [List.foldl_cons, hstep]
    exact ih (min x c) (fun d hd => hcs d (List.mem_cons_of_mem _ hd)) hmin

theorem foldl_minOrFirst_eq_least (cs : List Int) (hcs : ∀ c ∈ cs, c ≠ -1) :
    cs.foldl minOrFirst (-1) = leastOrMinusOne cs := by
  cases cs with
  | nil => rfl
  | cons c cs =>
    have hc : c ≠ -1 := hcs c (List.mem_cons_self _ _)
    have hstep : minOrFirst (-1) c = c := by simp [minOrFirst]
    simp only [List.foldl_cons, hstep, leastOrMinusOne]
    exact foldl_minOrFirst_eq_min cs c (fun d hd => hcs d (List.mem_cons_of_mem _ hd)) hc

theorem toInt32_of_lt (x : Nat) (h : x < 2 ^ 31) : toInt32 x = (x : Int) := by
  have h2 : x % 2 ^ 32 = x := Nat.mod_eq_of_lt (by omega)
  unfold toInt32
  rw [h2, if_pos h]

theorem wrapInt32_of_range (x : Int) (hlo : -2147483648 ≤ x) (hhi : x < 2147483648) :
    wrapInt32 x = x := by
  unfold wrapInt32
  omega

theorem heightCandidate_eq (K : TxConsts) (hmask : K.SEQUENCE_LOCKTIME_MASK < 2 ^ 31)
    (txin : CTxIn) (p : Int)
    (hlo : -2147483648 ≤ p + ((txin.nSequence &&& K.SEQUENCE_LOCKTIME_MASK : Nat) : Int) - 1)
    (hhi : p + ((txin.nSequence &&& K.SEQUENCE_LOCKTIME_MASK : Nat) : Int) < 2147483648) :
    heightCandidate K txin p =
      p + ((txin.nSequence &&& K.SEQUENCE_LOCKTIME_MASK : Nat) : Int) - 1 := by
  have hle : txin.nSequence &&& K.SEQUENCE_LOCKTIME_MASK < 2 ^ 31 :=
    lt_of_le_of_lt Nat.and_le_right hmask
  unfold heightCandidate
  rw [toInt32_of_lt _ hle, wrapInt32_of_range _ (by omega) hhi,
    wrapInt32_of_range _ hlo (by omega)]

theorem heightCandidatesOf_eq (K : TxConsts) (hmask : K.SEQUENCE_LOCKTIME_MASK < 2 ^ 31)
    (l : List (CTxIn × Int))
    (hfit : ∀ e ∈ l, e.1.nSequence &&& K.SEQUENCE_LOCKTIME_DISABLE_FLAG = 0 →
      -2147483648 ≤ e.2 + ((e.1.nSequence &&& K.SEQUENCE_LOCKTIME_MASK : Nat) : Int) - 1 ∧
      e.2 + ((e.1.nSequence &&& K.SEQUENCE_LOCKTIME_MASK : Nat) : Int) < 2147483648) :
    heightCandidatesOf K l = heightConstraints K l := by
  unfold heightCandidatesOf heightConstraints
  apply List.filterMap_congr
  intro e he
  by_cases hd : e.1.nSequence &&& K.SEQUENCE_LOCKTIME_DISABLE_FLAG = 0
  · obtain ⟨hlo, hhi⟩ := hfit e he hd
    rw [if_neg (not_not.2 hd), if_neg (not_not.2 hd), heightCandidate_eq K hmask e.1 e.2 hlo hhi]
  · rw [if_pos hd, if_pos hd]

theorem heightCandidate_at_INT_MAX :
    heightCandidate demoConsts { prevout := (1, 0), nSequence := 5 } 2147483647 = -2147483645 := by
  decide

theorem CalculateSequenceLocks_eq_seqFold (K : TxConsts) (ancestorMTP : Int → Option Int)
    (tx : Transaction) (prevHeights : List Int)
    (hlen : prevHeights.length = tx.vin.length) :
    CalculateSequenceLocks K ancestorMTP tx prevHeights =
      seqFold K ancestorMTP (tx.vin.zip prevHeights) (-1) (-1) := by
  unfold CalculateSequenceLocks
  rw [if_neg (by simp [hlen]),
    sequenceLocksLoop_eq K ancestorMTP tx.vin _ 0 _ _ _ (by omega) hlen]
  simp only [List.drop_zero, List.take_zero, List.nil_append]
  cases seqFold K ancestorMTP (tx.vin.zip prevHeights) (-1) (-1) with
  | none => rfl
  | some r => rfl

theorem seqFold_prevHeights (K : TxConsts) (ancestorMTP : Int → Option Int) :
    ∀ (l : List (CTxIn × Int)) (h t : Int) (r : Int × Int × List Int),
      seqFold K ancestorMTP l h t = some r →
      r.2.2 = l.map (fun e =>
        if e.1.nSequence &&& K.SEQUENCE_LOCKTIME_DISABLE_FLAG ≠ 0 then 0 else e.2) := by
  intro l
  induction l with
  | nil =>
    intro h t r hr
    simp only [seqFold, Option.some.injEq] at hr
    subst hr; rfl
  | cons e rest ih =>
    intro h t r hr
    obtain ⟨txin, p⟩ := e
    simp only [seqFold] at hr
    by_cases hd : txin.nSequence &&& K.SEQUENCE_LOCKTIME_DISABLE_FLAG ≠ 0
    · simp only [if_pos hd] at hr
      cases hrec : seqFold K ancestorMTP rest h t with
      | none => rw [hrec] at hr; simp at hr
      | some r' =>
        rw [hrec] at hr
        simp only [Option.map_some', Option.some.injEq] at hr
        subst hr
        simp only [List.map_cons, if_pos hd, ih h t r' hrec]
    · simp only [if_neg hd] at hr
      by_cases ht : txin.nSequence &&& K.SEQUENCE_LOCKTIME_TYPE_FLAG ≠ 0
      · simp only [if_pos ht] at hr
        cases hc : coinTime ancestorMTP p with
        | none => rw [hc] at hr; simp at hr
        | some nCoinTime =>
          rw [hc] at hr
          simp only at hr
          cases hrec : seqFold K ancestorMTP rest (minOrFirst h (heightCandidate K txin p))
              (minOrFirst t (nCoinTime + timeOffset K txin - 1)) with
          | none => rw [hrec] at hr; simp at hr
          | some r' =>
            rw [hrec] at hr
            simp only [Option.map_some', Option.some.injEq] at hr
            subst hr
            simp only [List.map_cons, if_neg hd, ih _ _ r' hrec]
      · simp only [if_neg ht] at hr
        cases hrec : seqFold K ancestorMTP rest (minOrFirst h (heightCandidate K txin p)) t with
        | none => rw [hrec] at hr; simp at hr
        | some r' =>
          rw [hrec] at hr
          simp only [Option.map_some', Option.some.injEq] at hr
          subst hr
          simp only [List.map_cons, if_neg hd, ih _ _ r' hrec]

theorem seqFold_enabled (K : TxConsts) (ancestorMTP : Int → Option Int) :
    ∀ (l : List (CTxIn × Int)) (h t : Int),
      (seqFold K ancestorMTP (enabledInputs K l) h t).map (fun r => (r.1, r.2.1)) =
        (seqFold K ancestorMTP l h t).map (fun r => (r.1, r.2.1)) := by
  intro l
  induction l with
  | nil => intro h t; rfl
  | cons e rest ih =>
    intro h t
    obtain ⟨txin, p⟩ := e
    by_cases hd : txin.nSequence &&& K.SEQUENCE_LOCKTIME_DISABLE_FLAG ≠ 0
    · have hf : enabledInputs K ((txin, p) :: rest) = enabledInputs K rest := by
        unfold enabledInputs
        rw [List.filter_cons_of_neg]
        simpa using hd
      rw [hf, ih h t]
      simp only [seqFold, if_pos hd, Option.map_map]
      rfl
    · have hf : enabledInputs K ((txin, p) :: rest) = (txin, p) :: enabledInputs K rest := by
        unfold enabledInputs
        rw [List.filter_cons_of_pos]
        simpa using hd
      rw [hf]
      simp only [seqFold, if_neg hd]
      by_cases ht : txin.nSequence &&& K.SEQUENCE_LOCKTIME_TYPE_FLAG ≠ 0
      · simp only [if_pos ht]
        cases hc : coinTime ancestorMTP p with
        | none => rfl
        | some nCoinTime =>
          simp only [Option.map_map]
          exact ih _ _
      · simp only [if_neg ht, Option.map_map]
        exact ih _ _

theorem zip_map_fst_snd {α β : Type} (l : List (α × β)) :
    (l.map Prod.fst).zip (l.map Prod.snd) = l := by
  induction l with
  | nil => rfl
  | cons e rest ih => simp [ih]

theorem heightCandidatesOf_all_disabled (K : TxConsts) (l : List (CTxIn × Int))
    (h : ∀ e ∈ l, e.1.nSequence &&& K.SEQUENCE_LOCKTIME_DISABLE_FLAG ≠ 0) :
    heightCandidatesOf K l = [] := by
  unfold heightCandidatesOf
  rw [List.filterMap_eq_nil_iff]
  intro e he
  rw [if_pos (h e he)]

theorem timeCandidatesOf_all_disabled (K : TxConsts) (ancestorMTP : Int → Option Int)
    (l : List (CTxIn × Int))
    (h : ∀ e ∈ l, e.1.nSequence &&& K.SEQUENCE_LOCKTIME_DISABLE_FLAG ≠ 0) :
    timeCandidatesOf K ancestorMTP l = [] := by
  unfold timeCandidatesOf
  rw [List.filterMap_eq_nil_iff]
  intro e he
  rw [if_pos (h e he)]

/-! ## Bit packing: bytes as sums of their bits -/

theorem bitsToBytesLoop_lt (bits : List Bool) :
    ∀ count p (ret bytes : List Nat), (∀ b ∈ ret, b < 256) →
      bitsToBytesLoop bits count p ret = some bytes → ∀ b ∈ bytes, b < 256 := by
  intro count
  induction count with
  | zero =>
    intro p ret bytes hret h
    simp only [bitsToBytesLoop, Option.some.injEq] at h
    subst h; exact hret
  | succ count ih =>
    intro p ret bytes hret h
    simp only [bitsToBytesLoop] at h
    split at h
    · rename_i b byte _ _
      refine ih (p + 1) _ bytes ?_ h
      intro x hx
      rcases List.mem_or_eq_of_mem_set hx with hx | hx
      · exact hret x hx
      · rw [hx]; exact Nat.mod_lt _ (by decide)
    · simp at h

theorem eq_sum_bits : ∀ (n x : Nat), x < 2 ^ n →
    x = ((List.range n).map (fun k => if x.testBit k then 2 ^ k else 0)).sum := by
  intro n
  induction n with
  | zero => intro x hx; simp at hx; simp [hx]
  | succ n ih =>
    intro x hx
    have h2 : x / 2 < 2 ^ n := by
      rw [Nat.div_lt_iff_lt_mul (by decide)]
      rw [Nat.pow_succ] at hx
      exact hx
    have hrec := ih (x / 2) h2
    rw [List.range_succ_eq_map, List.map_cons, List.sum_cons, List.map_map]
    have hmap : (List.map ((fun k => if x.testBit k = true then 2 ^ k else 0) ∘ Nat.succ)
        (List.range n)).sum =
        2 * ((List.range n).map (fun k => if (x / 2).testBit k then 2 ^ k else 0)).sum := by
      rw [← List.sum_map_mul_left]
      congr 1
      apply List.map_congr_left
      intro k _
      simp only [Function.comp, Nat.succ_eq_add_one, Nat.testBit_succ]
      by_cases hb : (x / 2).testBit k = true
      · rw [if_pos hb, if_pos hb, Nat.pow_succ, Nat.mul_comm]
      · rw [if_neg hb, if_neg hb]; rfl
    rw [hmap, ← hrec, Nat.testBit_zero]
    by_cases hodd : x % 2 = 1
    · simp only [hodd, decide_True, if_true, pow_zero]; omega
    · simp only [hodd, decide_False, Bool.false_eq_true, if_false]; omega

theorem byte_eq_sum_bits (x : Nat) (hx : x < 256) :
    x = ((List.range 8).map (fun k => if x.testBit k then 2 ^ k else 0)).sum :=
  eq_sum_bits 8 x hx

/-! ## Block roots and CMerkleBlock (Consensus/Merkle.cpp, MerkleBlock.cpp) -/

theorem fillLeaves_eq {Tx D : Type} (f : Tx → D) (vtx : List Tx) :
    ∀ count s (leaves : List D), s + count = vtx.length → leaves.length = vtx.length →
      fillLeaves f vtx count s leaves = some (leaves.take s ++ (vtx.drop s).map f) := by
  intro count
  induction count with
  | zero =>
    intro s leaves hs hlen
    rw [List.drop_eq_nil_of_le (by omega), List.take_of_length_le (by omega)]
    simp [fillLeaves]
  | succ count ih =>
    intro s leaves hs hlen
    have hsv : s < vtx.length := by omega
    have hsl : s < leaves.length := by omega
    simp only [fillLeaves, List.getElem?_eq_getElem hsv, if_pos hsl]
    rw [ih (s + 1) _ (by omega) (by simpa using hlen), set_take_succ _ _ _ hsl,
      List.drop_eq_getElem_cons hsv]
    simp only [List.map_cons, List.append_assoc, List.singleton_append]

theorem BlockMerkleRoot_eq {Hd Tx D : Type} [DecidableEq D] (H : Hasher D) (GetHash : Tx → D)
    (block : CBlock Hd Tx) (mutated : Bool) :
    BlockMerkleRoot H GetHash block mutated =
      some (ComputeMerkleRoot H (block.vtx.map GetHash) mutated) := by
  unfold BlockMerkleRoot
  rw [fillLeaves_eq GetHash block.vtx _ 0 _ (by omega) (by simp)]
  simp

theorem BlockWitnessMerkleRoot_eq {Hd Tx D : Type} [DecidableEq D] (H : Hasher D)
    (GetWitnessHash : Tx → D) (header : Hd) (tx0 : Tx) (rest : List Tx) (mutated : Bool) :
    BlockWitnessMerkleRoot H GetWitnessHash { header := header, vtx := tx0 :: rest } mutated =
      some (ComputeMerkleRoot H (H.null :: rest.map GetWitnessHash) mutated) := by
  unfold BlockWitnessMerkleRoot
  rw [if_pos (by simp)]
  rw [fillLeaves_eq GetWitnessHash (tx0 :: rest) _ 1 _ (by simp [Nat.add_comm]) (by simp)]
  simp [List.replicate_succ]

theorem inTxidsAt_zero {Tx D : Type} [DecidableEq D] (GetHash : Tx → D)
    (txids : Option (List D)) (tx : Tx) (rest : List Tx) :
    inTxidsAt GetHash txids (tx :: rest) 0 = txidsCount txids (GetHash tx) := by
  simp [inTxidsAt]

theorem inTxidsAt_succ {Tx D : Type} [DecidableEq D] (GetHash : Tx → D)
    (txids : Option (List D)) (tx : Tx) (rest : List Tx) (k : Nat) :
    inTxidsAt GetHash txids (tx :: rest) (k + 1) = inTxidsAt GetHash txids rest k := by
  simp [inTxidsAt]

theorem filterRelevantAt_zero {Tx F D : Type} [DecidableEq D] (GetHash : Tx → D)
    (IsRelevantAndUpdate : F → Tx → Bool × F) (txids : Option (List D))
    (f : F) (tx : Tx) (rest : List Tx) :
    filterRelevantAt GetHash IsRelevantAndUpdate txids (some f) (tx :: rest) 0 =
      (IsRelevantAndUpdate f tx).1 := by
  simp [filterRelevantAt, filterAfter]

theorem filterRelevantAt_none {Tx F D : Type} [DecidableEq D] (GetHash : Tx → D)
    (IsRelevantAndUpdate : F → Tx → Bool × F) (txids : Option (List D))
    (vtx : List Tx) (i : Nat) :
    filterRelevantAt GetHash IsRelevantAndUpdate txids none vtx i = false := by
  simp [filterRelevantAt]

theorem filterRelevantAt_succ {Tx F D : Type} [DecidableEq D] (GetHash : Tx → D)
    (IsRelevantAndUpdate : F → Tx → Bool × F) (txids : Option (List D))
    (f : F) (tx : Tx) (rest : List Tx) (k : Nat) :
    filterRelevantAt GetHash IsRelevantAndUpdate txids (some f) (tx :: rest) (k + 1) =
      filterRelevantAt GetHash IsRelevantAndUpdate txids
        (some (if txidsCount txids (GetHash tx) then f else (IsRelevantAndUpdate f tx).2))
        rest k := by
  simp only [filterRelevantAt, filterAfter, List.getElem?_cons_succ, List.take_succ_cons,
    List.foldl_cons]
  cases rest[k]? <;> rfl

/-- The mask, the side list and the filter that the loop of the constructor
adds to a state, as functions of the transactions it goes through. -/
theorem matchLoop_spec {Tx F D : Type} [DecidableEq D] (null : D) (GetHash : Tx → D)
    (IsRelevantAndUpdate : F → Tx → Bool × F) (txids : Option (List D)) :
    ∀ (txs : List Tx) (i : Nat) (s : MatchState F D),
      (matchLoop GetHash IsRelevantAndUpdate txids txs i s).vHashes =
        s.vHashes ++ txs.map GetHash ∧
      (matchLoop GetHash IsRelevantAndUpdate txids txs i s).vMatch =
        s.vMatch ++ (List.range txs.length).map (fun k =>
          inTxidsAt GetHash txids txs k ||
            filterRelevantAt GetHash IsRelevantAndUpdate txids s.filter txs k) ∧
      (matchLoop GetHash IsRelevantAndUpdate txids txs i s).vMatchedTxn =
        s.vMatchedTxn ++ ((List.range txs.length).filter (fun k =>
          !inTxidsAt GetHash txids txs k &&
            filterRelevantAt GetHash IsRelevantAndUpdate txids s.filter txs k)).map
          (fun k => (i + k, (txs.map GetHash).getD k null)) ∧
      (matchLoop GetHash IsRelevantAndUpdate txids txs i s).filter =
        s.filter.map (fun f => filterAfter GetHash IsRelevantAndUpdate txids f txs) := by
  intro txs
  induction txs with
  | nil =>
    intro i s
    refine ⟨by simp [matchLoop], by simp [matchLoop], by simp [matchLoop], ?_⟩
    cases hf : s.filter <;> simp [matchLoop, filterAfter, hf]
  | cons tx rest ih =>
    intro i s
    have hrange : List.range (rest.length + 1) = 0 :: (List.range rest.length).map Nat.succ :=
      List.range_succ_eq_map rest.length
    have hidx : ∀ k : Nat, i + (k + 1) = i + 1 + k := by intro k; omega
    by_cases hset : txidsCount txids (GetHash tx) = true
    · have hstep : matchLoop GetHash IsRelevantAndUpdate txids (tx :: rest) i s =
          matchLoop GetHash IsRelevantAndUpdate txids rest (i + 1)
            { s with vMatch := s.vMatch ++ [true], vHashes := s.vHashes ++ [GetHash tx] } := by
        simp only [matchLoop, if_pos hset]
      obtain ⟨h1, h2, h3, h4⟩ := ih (i + 1)
        { s with vMatch := s.vMatch ++ [true], vHashes := s.vHashes ++ [GetHash tx] }
      rw [hstep, h1, h2, h3, h4]
      simp only [List.length_cons, hrange, List.map_cons, List.filter_cons, List.map_map,
        List.filter_map, Function.comp, Nat.succ_eq_add_one, inTxidsAt_zero, inTxidsAt_succ,
        hset, Bool.true_or, Bool.not_true, Bool.false_and, Bool.false_eq_true, if_false,
        if_true]
      refine ⟨by simp, ?_, ?_, ?_⟩
      · cases hf : s.filter with
        | none => simp [inTxidsAt_zero, inTxidsAt_succ, filterRelevantAt_zero, filterRelevantAt_succ, filterRelevantAt_none, filterAfter, Function.comp_def, Nat.add_assoc, Nat.add_comm 1, hset]
        | some f => simp [inTxidsAt_zero, inTxidsAt_succ, filterRelevantAt_zero, filterRelevantAt_succ, filterRelevantAt_none, filterAfter, Function.comp_def, Nat.add_assoc, Nat.add_comm 1, hset]
      · cases hf : s.filter with
        | none => simp [inTxidsAt_zero, inTxidsAt_succ, filterRelevantAt_zero, filterRelevantAt_succ, filterRelevantAt_none, filterAfter, Function.comp_def, Nat.add_assoc, Nat.add_comm 1, hset]
        | some f => simp [inTxidsAt_zero, inTxidsAt_succ, filterRelevantAt_zero, filterRelevantAt_succ, filterRelevantAt_none, filterAfter, Function.comp_def, Nat.add_assoc, Nat.add_comm 1, hset]
      · cases hf : s.filter with
        | none => simp
        | some f => simp [filterAfter, hset]
    · have hset2 : txidsCount txids (GetHash tx) = false := by
        simpa using hset
      cases hf : s.filter with
      | none =>
        have hstep : matchLoop GetHash IsRelevantAndUpdate txids (tx :: rest) i s =
            matchLoop GetHash IsRelevantAndUpdate txids rest (i + 1)
              { s with vMatch := s.vMatch ++ [false],
                       vHashes := s.vHashes ++ [GetHash tx] } := by
          simp only [matchLoop, if_neg hset, hf]
        obtain ⟨h1, h2, h3, h4⟩ := ih (i + 1)
          { s with vMatch := s.vMatch ++ [false], vHashes := s.vHashes ++ [GetHash tx] }
        rw [hstep, h1, h2, h3, h4]
        simp only [hf, List.length_cons, hrange, List.map_cons, List.filter_cons, List.map_map,
          List.filter_map, Function.comp, Nat.succ_eq_add_one, inTxidsAt_zero, inTxidsAt_succ,
          hset2, filterRelevantAt_none, Bool.or_false, Bool.and_false, Bool.false_eq_true,
          if_false]
        refine ⟨by simp, by simp [inTxidsAt_zero, inTxidsAt_succ, filterRelevantAt_zero, filterRelevantAt_succ, filterRelevantAt_none, filterAfter, Function.comp_def, Nat.add_assoc, Nat.add_comm 1, hset2], by simp [inTxidsAt_zero, inTxidsAt_succ, filterRelevantAt_zero, filterRelevantAt_succ, filterRelevantAt_none, filterAfter, Function.comp_def, Nat.add_assoc, Nat.add_comm 1, hset2], by simp⟩
      | some f =>
        by_cases hrel : (IsRelevantAndUpdate f tx).1 = true
        · have hstep : matchLoop GetHash IsRelevantAndUpdate txids (tx :: rest) i s =
              matchLoop GetHash IsRelevantAndUpdate txids rest (i + 1)
                { filter := some (IsRelevantAndUpdate f tx).2,
                  vMatch := s.vMatch ++ [true],
                  vHashes := s.vHashes ++ [GetHash tx],
                  vMatchedTxn := s.vMatchedTxn ++ [(i, GetHash tx)] } := by
            simp only [matchLoop, if_neg hset, hf, if_pos hrel]
          obtain ⟨h1, h2, h3, h4⟩ := ih (i + 1)
            { filter := some (IsRelevantAndUpdate f tx).2,
              vMatch := s.vMatch ++ [true],
              vHashes := s.vHashes ++ [GetHash tx],
              vMatchedTxn := s.vMatchedTxn ++ [(i, GetHash tx)] }
          rw [hstep, h1, h2, h3, h4]
          simp only [List.length_cons, hrange, List.map_cons, List.filter_cons,
            List.map_map, List.filter_map, Function.comp, Nat.succ_eq_add_one, inTxidsAt_zero,
            inTxidsAt_succ, hset2, filterRelevantAt_zero, filterRelevantAt_succ, hrel,
            Bool.false_or, Bool.not_false, Bool.true_and, if_true, Bool.false_eq_true, if_false]
          refine ⟨by simp, by simp [inTxidsAt_zero, inTxidsAt_succ, filterRelevantAt_zero, filterRelevantAt_succ, filterRelevantAt_none, filterAfter, Function.comp_def, Nat.add_assoc, Nat.add_comm 1, hset2, hrel], by simp [inTxidsAt_zero, inTxidsAt_succ, filterRelevantAt_zero, filterRelevantAt_succ, filterRelevantAt_none, filterAfter, Function.comp_def, Nat.add_assoc, Nat.add_comm 1, hset2, hrel], by simp [filterAfter, hset2]⟩
        · have hrel2 : (IsRelevantAndUpdate f tx).1 = false := by simpa using hrel
          have hstep : matchLoop GetHash IsRelevantAndUpdate txids (tx :: rest) i s =
              matchLoop GetHash IsRelevantAndUpdate txids rest (i + 1)
                { filter := some (IsRelevantAndUpdate f tx).2,
                  vMatch := s.vMatch ++ [false],
                  vHashes := s.vHashes ++ [GetHash tx],
                  vMatchedTxn := s.vMatchedTxn } := by
            simp only [matchLoop, if_neg hset, hf, if_neg hrel]
          obtain ⟨h1, h2, h3, h4⟩ := ih (i + 1)
            { filter := some (IsRelevantAndUpdate f tx).2,
              vMatch := s.vMatch ++ [false],
              vHashes := s.vHashes ++ [GetHash tx],
              vMatchedTxn := s.vMatchedTxn }
          rw [hstep, h1, h2, h3, h4]
          simp only [List.length_cons, hrange, List.map_cons, List.filter_cons,
            List.map_map, List.filter_map, Function.comp, Nat.succ_eq_add_one, inTxidsAt_zero,
            inTxidsAt_succ, hset2, filterRelevantAt_zero, filterRelevantAt_succ, hrel2,
            Bool.false_or, Bool.not_false, Bool.true_and, Bool.false_eq_true, if_false]
          refine ⟨by simp, by simp [inTxidsAt_zero, inTxidsAt_succ, filterRelevantAt_zero, filterRelevantAt_succ, filterRelevantAt_none, filterAfter, Function.comp_def, Nat.add_assoc, Nat.add_comm 1, hset2, hrel], by simp [inTxidsAt_zero, inTxidsAt_succ, filterRelevantAt_zero, filterRelevantAt_succ, filterRelevantAt_none, filterAfter, Function.comp_def, Nat.add_assoc, Nat.add_comm 1, hset2, hrel], by simp [filterAfter, hset2]⟩

theorem matchResult_spec {Hd Tx F D : Type} [DecidableEq D] (null : D) (GetHash : Tx → D)
    (IsRelevantAndUpdate : F → Tx → Bool × F) (block : CBlock Hd Tx)
    (filter : Option F) (txids : Option (List D)) :
    (matchResult GetHash IsRelevantAndUpdate block filter txids).vHashes =
      block.vtx.map GetHash ∧
    (matchResult GetHash IsRelevantAndUpdate block filter txids).vMatch =
      (List.range block.vtx.length).map (fun k =>
        inTxidsAt GetHash txids block.vtx k ||
          filterRelevantAt GetHash IsRelevantAndUpdate txids filter block.vtx k) ∧
    (matchResult GetHash IsRelevantAndUpdate block filter txids).vMatchedTxn =
      filterMatchedTxn null GetHash IsRelevantAndUpdate txids filter block.vtx := by
  obtain ⟨h1, h2, h3, _⟩ := matchLoop_spec null GetHash IsRelevantAndUpdate txids block.vtx 0
    { filter := filter, vMatch := [], vHashes := [], vMatchedTxn := [] }
  unfold matchResult filterMatchedTxn
  rw [h1, h2, h3]
  simp

theorem CMerkleBlock_build_eq {Hd Tx F D : Type} [DecidableEq D] (H : Hasher D)
    (GetHash : Tx → D) (IsRelevantAndUpdate : F → Tx → Bool × F) (block : CBlock Hd Tx)
    (filter : Option F) (txids : Option (List D)) (hne : block.vtx ≠ []) :
    ∃ txn,
      CPartialMerkleTree.build H (block.vtx.map GetHash)
        ((List.range block.vtx.length).map (fun k =>
          inTxidsAt GetHash txids block.vtx k ||
            filterRelevantAt GetHash IsRelevantAndUpdate txids filter block.vtx k)) = some txn ∧
      CMerkleBlock.build H GetHash IsRelevantAndUpdate block filter txids =
        some ({ header := block.header, txn := txn,
                vMatchedTxn :=
                  filterMatchedTxn H.null GetHash IsRelevantAndUpdate txids filter block.vtx },
              (matchResult GetHash IsRelevantAndUpdate block filter txids).filter) := by
  obtain ⟨h1, h2, h3⟩ :=
    matchResult_spec H.null GetHash IsRelevantAndUpdate block filter txids
  have hb := build_eq H (block.vtx.map GetHash)
    ((List.range block.vtx.length).map (fun k =>
      inTxidsAt GetHash txids block.vtx k ||
        filterRelevantAt GetHash IsRelevantAndUpdate txids filter block.vtx k))
    (by simpa using hne) (by simp)
  refine ⟨_, hb, ?_⟩
  unfold CMerkleBlock.build
  rw [h1, h2, h3, hb]

/-! ## Signature-operation cost (Consensus/Verify.cpp) -/

theorem foldl_mod_sum {α : Type} (c : α → Nat) (M : Nat) :
    ∀ (l : List α) (n0 : Nat), n0 < M →
      l.foldl (fun n x => (n + c x) % M) n0 = (n0 + (l.map c).sum) % M := by
  intro l
  induction l with
  | nil => intro n0 h; simp [Nat.mod_eq_of_lt h]
  | cons x rest ih =>
    intro n0 h
    have hM : 0 < M := by omega
    rw [List.foldl_cons, ih _ (Nat.mod_lt _ hM), List.map_cons, List.sum_cons,
      Nat.mod_add_mod, Nat.add_assoc]

theorem GetLegacySigOpCount_eq {Script Witness : Type} (S : ScriptOps Script Witness)
    (tx : ScriptTransaction Script Witness) :
    GetLegacySigOpCount S tx = legacyCount S tx % 2 ^ 32 := by
  unfold GetLegacySigOpCount legacyCount
  rw [foldl_mod_sum (fun txin : ScriptTxIn Script Witness => S.GetSigOpCount txin.scriptSig false)
      (2 ^ 32) tx.vin 0 (by decide),
    foldl_mod_sum (fun scriptPubKey : Script => S.GetSigOpCount scriptPubKey false)
      (2 ^ 32) tx.vout _ (Nat.mod_lt _ (by decide)),
    Nat.mod_add_mod, Nat.zero_add]

theorem p2shLoop_eq {Script Witness : Type} (S : ScriptOps Script Witness)
    (inputs : Nat × Nat → Option Script) :
    ∀ (vin : List (ScriptTxIn Script Witness)) (coins : List Script) (n0 : Nat),
      vin.map (fun txin => inputs txin.prevout) = coins.map some → n0 < 2 ^ 32 →
      p2shLoop S inputs vin n0 = some ((n0 + p2shCount S (vin.zip coins)) % 2 ^ 32) := by
  intro vin
  induction vin with
  | nil =>
    intro coins n0 _ h
    simp only [p2shLoop, p2shCount, List.zip_nil_left, List.map_nil, List.sum_nil,
      Nat.add_zero, Nat.mod_eq_of_lt h]
  | cons txin rest ih =>
    intro coins n0 hmap h
    cases coins with
    | nil => simp at hmap
    | cons coin coins =>
      simp only [List.map_cons, List.cons.injEq] at hmap
      obtain ⟨hc, hrest⟩ := hmap
      simp only [p2shLoop, hc, p2shCount, List.zip_cons_cons, List.map_cons, List.sum_cons]
      by_cases hp : S.IsPayToScriptHash coin = true
      · rw [if_pos hp, if_pos hp, ih coins _ hrest (Nat.mod_lt _ (by decide)), p2shCount,
          Nat.mod_add_mod, Nat.add_assoc]
      · rw [if_neg hp, if_neg hp, ih coins _ hrest h, p2shCount, Nat.zero_add]

theorem toInt64_of_range (x : Int) (h0 : 0 ≤ x) (h1 : x < 2 ^ 63) : toInt64 x = x := by
  unfold toInt64
  rw [Int.emod_eq_of_lt (by omega) (by omega)]
  omega

theorem witnessLoop_eq {Script Witness : Type} (S : ScriptOps Script Witness)
    (inputs : Nat × Nat → Option Script) (flags : Nat) :
    ∀ (vin : List (ScriptTxIn Script Witness)) (coins : List Script) (n0 : Int),
      vin.map (fun txin => inputs txin.prevout) = coins.map some → 0 ≤ n0 →
      n0 + (witnessCount S flags (vin.zip coins) : Nat) < 2 ^ 63 →
      witnessLoop S inputs flags vin n0 =
        some (n0 + (witnessCount S flags (vin.zip coins) : Nat)) := by
  intro vin
  induction vin with
  | nil =>
    intro coins n0 _ _ _
    simp [witnessLoop, witnessCount]
  | cons txin rest ih =>
    intro coins n0 hmap h0 hlt
    cases coins with
    | nil => simp at hmap
    | cons coin coins =>
      simp only [List.map_cons, List.cons.injEq] at hmap
      obtain ⟨hc, hrest⟩ := hmap
      simp only [witnessCount, List.zip_cons_cons, List.map_cons, List.sum_cons,
        Nat.cast_add] at hlt ⊢
      have hw : (0 : Int) ≤ ((List.map (fun e : ScriptTxIn Script Witness × Script =>
          S.CountWitnessSigOps e.1.scriptSig e.2 e.1.scriptWitness flags)
          (rest.zip coins)).sum : Nat) := Int.ofNat_nonneg _
      have hx : (0 : Int) ≤ (S.CountWitnessSigOps txin.scriptSig coin txin.scriptWitness flags
          : Nat) := Int.ofNat_nonneg _
      simp only [witnessLoop, hc]
      rw [toInt64_of_range _ (by omega) (by omega),
        ih coins _ hrest (by omega) (by simp only [witnessCount]; omega), witnessCount]
      congr 1
      omega

/-! ## Fuel and rounds of ComputeMerkleRoot; reasons of the input loop -/

theorem merkleLoop_fuel {D : Type} [DecidableEq D] (H : Hasher D) (mutated : Bool) :
    ∀ (fuel1 fuel2 : Nat) (xs : List D) (m : Bool),
      xs.length ≤ fuel1 + 1 → xs.length ≤ fuel2 + 1 →
      merkleLoop H mutated fuel1 xs m = merkleLoop H mutated fuel2 xs m := by
  intro fuel1
  induction fuel1 with
  | zero =>
    intro fuel2 xs m h1 _
    cases fuel2 with
    | zero => rfl
    | succ fuel2 =>
      simp only [merkleLoop]
      rw [if_neg (by omega)]
  | succ fuel1 ih =>
    intro fuel2 xs m h1 h2
    cases fuel2 with
    | zero =>
      simp only [merkleLoop]
      rw [if_neg (by omega)]
    | succ fuel2 =>
      simp only [merkleLoop]
      by_cases hlen : xs.length > 1
      · rw [if_pos hlen, if_pos hlen]
        apply ih
        · rw [merkleRound_length]; omega
        · rw [merkleRound_length]; omega
      · rw [if_neg hlen, if_neg hlen]

theorem merkleLoop_fst {D : Type} [DecidableEq D] (H : Hasher D) (mut1 mut2 : Bool) :
    ∀ (fuel : Nat) (xs : List D) (m1 m2 : Bool),
      (merkleLoop H mut1 fuel xs m1).1 = (merkleLoop H mut2 fuel xs m2).1 := by
  intro fuel
  induction fuel with
  | zero => intro xs m1 m2; rfl
  | succ fuel ih =>
    intro xs m1 m2
    simp only [merkleLoop]
    by_cases hlen : xs.length > 1
    · rw [if_pos hlen, if_pos hlen]
      exact ih _ _ _
    · rw [if_neg hlen, if_neg hlen]

theorem merkleRound_append_last {D : Type} (H : Hasher D) (L : List D) (x : D)
    (hlast : L.getLast? = some x) (hodd : L.length % 2 = 1) :
    merkleRound H (L ++ [x]) = merkleRound H L := by
  have he : (L ++ [x]).length % 2 = 0 := by
    rw [List.length_append, List.length_singleton]; omega
  unfold merkleRound
  simp only [hodd, if_true, hlast]
  rw [if_neg (by omega)]

theorem checkInputsLoop_error (M : Int) (inputs : Nat × Nat → Option Coin) (sh : Int) :
    ∀ (vin : List CTxIn) (v0 : Int) (reason : String),
      checkInputsLoop M inputs sh vin v0 = some (.error reason) →
      reason = "bad-txns-premature-spend-of-coinbase" ∨
        reason = "bad-txns-inputvalues-outofrange" := by
  intro vin
  induction vin with
  | nil => intro v0 reason h; simp [checkInputsLoop] at h
  | cons txin rest ih =>
    intro v0 reason h
    simp only [checkInputsLoop] at h
    split at h
    · simp at h
    · split at h
      · simp only [Option.some.injEq, Except.error.injEq] at h
        exact Or.inl h.symm
      · split at h
        · simp only [Option.some.injEq, Except.error.injEq] at h
          exact Or.inr h.symm
        · exact ih _ _ h

/-! ## The flag fBad and the outputs of TraverseAndExtract -/

theorem TraverseAndExtract_tree_fBad {D : Type} [DecidableEq D] (H : Hasher D)
    (T : CPartialMerkleTree D) (b : Bool) :
    ∀ (h pos : Nat) (s : ExtractState D),
      TraverseAndExtract H { T with fBad := b } h pos s = TraverseAndExtract H T h pos s := by
  intro h
  induction h with
  | zero => intro pos s; simp only [TraverseAndExtract]
  | succ h ih => intro pos s; simp only [TraverseAndExtract, ih]

theorem TraverseAndExtract_setBad {D : Type} [DecidableEq D] (H : Hasher D)
    (T : CPartialMerkleTree D) :
    ∀ (h pos : Nat) (s : ExtractState D),
      TraverseAndExtract H T h pos (setBad s) =
        (TraverseAndExtract H T h pos s).map (fun r => (r.1, setBad r.2)) := by
  intro h
  induction h with
  | zero =>
    intro pos s
    simp only [TraverseAndExtract, setBad]
    split
    · rfl
    · split
      · rfl
      · split
        · rfl
        · split
          · rfl
          · split <;> rfl
  | succ h ih =>
    intro pos s
    have hL := ih (pos * 2) { s with nBitsUsed := s.nBitsUsed + 1 }
    simp only [setBad] at hL
    simp only [TraverseAndExtract, setBad]
    split
    · rfl
    · split
      · rfl
      · split
        · split
          · rfl
          · split <;> rfl
        · rw [hL]
          cases hl : TraverseAndExtract H T h (pos * 2)
              { s with nBitsUsed := s.nBitsUsed + 1 } with
          | none => rfl
          | some r1 =>
            obtain ⟨left, s1⟩ := r1
            simp only [Option.map_some']
            split
            · have hR := ih (pos * 2 + 1) s1
              simp only [setBad] at hR
              rw [hR]
              cases hr : TraverseAndExtract H T h (pos * 2 + 1) s1 with
              | none => rfl
              | some r2 =>
                obtain ⟨right, s2⟩ := r2
                simp only [Option.map_some']
                split <;> rfl
            · rfl

theorem setBad_of_fBad {D : Type} (s : ExtractState D) (h : s.fBad = true) : setBad s = s := by
  cases s
  simp only [setBad] at h ⊢
  simp [h]

/-- Running the traversal again, on the tree and from the start state with the
flag `fBad` as the first run left it, gives the result of the first run. -/
theorem TraverseAndExtract_repeat {D : Type} [DecidableEq D] (H : Hasher D)
    (T : CPartialMerkleTree D) (h pos : Nat) (s0 s : ExtractState D) (x : D)
    (hrun : TraverseAndExtract H T h pos s0 = some (x, s)) :
    TraverseAndExtract H { T with fBad := s.fBad } h pos { s0 with fBad := s.fBad } =
      some (x, s) := by
  rw [TraverseAndExtract_tree_fBad]
  cases hb : s.fBad with
  | false =>
    have h0 : s0.fBad = false := by
      cases h0 : s0.fBad with
      | false => rfl
      | true =>
        have := TraverseAndExtract_fBad_mono H T h pos s0 x s hrun h0
        rw [hb] at this
        exact absurd this (by decide)
    have e : ({ s0 with fBad := false } : ExtractState D) = s0 := by
      cases s0
      simp only at h0
      simp [h0]
    rw [e, hrun]
  | true =>
    have e : ({ s0 with fBad := true } : ExtractState D) = setBad s0 := rfl
    rw [e, TraverseAndExtract_setBad, hrun, Option.map_some', setBad_of_fBad s hb]

/-- When a call made in the course of a traversal returns with `fBad` set, the
traversal returns with `fBad` set. -/
theorem SubCall_fBad {D : Type} [DecidableEq D] (H : Hasher D) (T : CPartialMerkleTree D)
    (c0 c : Nat × Nat × ExtractState D) (hsub : SubCall H T c0 c) :
    ∀ (d : D) (s1 : ExtractState D),
      TraverseAndExtract H T c.1 c.2.1 c.2.2 = some (d, s1) → s1.fBad = true →
      ∀ (d0 : D) (s0 : ExtractState D),
        TraverseAndExtract H T c0.1 c0.2.1 c0.2.2 = some (d0, s0) → s0.fBad = true := by
  induction hsub with
  | refl c =>
    intro d s1 h1 hbad d0 s0 h0
    rw [h1] at h0
    simp only [Option.some.injEq, Prod.mk.injEq] at h0
    rw [← h0.2]; exact hbad
  | left height pos s c1 hbit _ ih =>
    intro d s1 h1 hbad d0 s0 h0
    have hlt : s.nBitsUsed < T.vBits.length := by
      by_contra hc
      rw [List.getElem?_eq_none (by omega)] at hbit
      exact absurd hbit (by simp)
    simp only [TraverseAndExtract, if_neg (not_le.2 hlt), hbit, Bool.not_true,
      Bool.false_eq_true, if_false] at h0
    cases hl : TraverseAndExtract H T height (pos * 2)
        { s with nBitsUsed := s.nBitsUsed + 1 } with
    | none => rw [hl] at h0; simp at h0
    | some r1 =>
      obtain ⟨left, sl⟩ := r1
      have hlb : sl.fBad = true := ih d s1 h1 hbad left sl hl
      rw [hl] at h0
      simp only at h0
      split at h0
      · cases hr : TraverseAndExtract H T height (pos * 2 + 1) sl with
        | none => rw [hr] at h0; simp at h0
        | some r2 =>
          obtain ⟨right, sr⟩ := r2
          have hrb := TraverseAndExtract_fBad_mono H T height (pos * 2 + 1) sl right sr hr hlb
          rw [hr] at h0
          simp only at h0
          split at h0
          · simp only [Option.some.injEq, Prod.mk.injEq] at h0
            rw [← h0.2]
          · simp only [Option.some.injEq, Prod.mk.injEq] at h0
            rw [← h0.2]; exact hrb
      · simp only [Option.some.injEq, Prod.mk.injEq] at h0
        rw [← h0.2]; exact hlb
  | right height pos s left sl c1 hbit hl hw _ ih =>
    intro d s1 h1 hbad d0 s0 h0
    have hlt : s.nBitsUsed < T.vBits.length := by
      by_contra hc
      rw [List.getElem?_eq_none (by omega)] at hbit
      exact absurd hbit (by simp)
    simp only [TraverseAndExtract, if_neg (not_le.2 hlt), hbit, Bool.not_true,
      Bool.false_eq_true, if_false, hl, if_pos hw] at h0
    cases hr : TraverseAndExtract H T height (pos * 2 + 1) sl with
    | none => rw [hr] at h0; simp at h0
    | some r2 =>
      obtain ⟨right, sr⟩ := r2
      have hrb : sr.fBad = true := ih d s1 h1 hbad right sr hr
      rw [hr] at h0
      simp only at h0
      split at h0
      · simp only [Option.some.injEq, Prod.mk.injEq] at h0
        rw [← h0.2]
      · simp only [Option.some.injEq, Prod.mk.injEq] at h0
        rw [← h0.2]; exact hrb

/-- What a call of `TraverseAndExtract` at a node inside the tree appends to the
two output vectors: equally many hashes and indices, at most as many as it
consumes hashes, the indices strictly increasing and among the leaf positions
below the node. -/
theorem TraverseAndExtract_outputs {D : Type} [DecidableEq D] (H : Hasher D)
    (T : CPartialMerkleTree D) :
    ∀ (h pos : Nat) (s : ExtractState D) (d : D) (s1 : ExtractState D),
      TraverseAndExtract H T h pos s = some (d, s1) → pos * 2 ^ h < T.nTransactions →
      ∃ (idx : List Nat) (hs : List D),
        s1.vnIndex = s.vnIndex ++ idx ∧ s1.vMatch = s.vMatch ++ hs ∧
        hs.length = idx.length ∧
        s.nHashUsed + idx.length ≤ s1.nHashUsed ∧
        (s.nHashUsed ≤ T.vHash.length → s1.nHashUsed ≤ T.vHash.length) ∧
        idx.Pairwise (fun a b => a < b) ∧
        ∀ i ∈ idx, pos * 2 ^ h ≤ i ∧ i < (pos + 1) * 2 ^ h ∧ i < T.nTransactions := by
  intro h
  induction h with
  | zero =>
    intro pos s d s1 hrun hpos
    simp only [TraverseAndExtract] at hrun
    split at hrun
    · simp only [Option.some.injEq, Prod.mk.injEq] at hrun
      obtain ⟨_, rfl⟩ := hrun
      exact ⟨[], [], by simp, by simp, rfl, by simp, fun h => h, List.Pairwise.nil, by simp⟩
    · split at hrun
      · simp at hrun
      · split at hrun
        · simp only [Option.some.injEq, Prod.mk.injEq] at hrun
          obtain ⟨_, rfl⟩ := hrun
          exact ⟨[], [], by simp, by simp, rfl, by simp, fun h => h, List.Pairwise.nil, by simp⟩
        · rename_i hhash
          split at hrun
          · simp at hrun
          · split at hrun
            · simp only [Option.some.injEq, Prod.mk.injEq] at hrun
              obtain ⟨_, rfl⟩ := hrun
              refine ⟨[pos], [_], rfl, rfl, rfl, by simp, ?_, List.pairwise_singleton _ _, ?_⟩
              · intro _; simp only; omega
              · intro i hi
                simp only [List.mem_singleton] at hi
                subst hi
                simp only [pow_zero, Nat.mul_one] at hpos ⊢
                omega
            · simp only [Option.some.injEq, Prod.mk.injEq] at hrun
              obtain ⟨_, rfl⟩ := hrun
              refine ⟨[], [], by simp, by simp, rfl, by simp, ?_, List.Pairwise.nil, by simp⟩
              intro _; simp only; omega
  | succ h ih =>
    intro pos s d s1 hrun hpos
    simp only [TraverseAndExtract] at hrun
    split at hrun
    · simp only [Option.some.injEq, Prod.mk.injEq] at hrun
      obtain ⟨_, rfl⟩ := hrun
      exact ⟨[], [], by simp, by simp, rfl, by simp, fun h => h, List.Pairwise.nil, by simp⟩
    · split at hrun
      · simp at hrun
      · split at hrun
        · split at hrun
          · simp only [Option.some.injEq, Prod.mk.injEq] at hrun
            obtain ⟨_, rfl⟩ := hrun
            exact ⟨[], [], by simp, by simp, rfl, by simp, fun h => h, List.Pairwise.nil,
              by simp⟩
          · split at hrun
            · simp at hrun
            · simp only [Option.some.injEq, Prod.mk.injEq] at hrun
              obtain ⟨_, rfl⟩ := hrun
              refine ⟨[], [], by simp, by simp, rfl, by simp, ?_, List.Pairwise.nil, by simp⟩
              intro _; simp only; omega
        · have hpow : 2 ^ (h + 1) = 2 * 2 ^ h := by rw [pow_succ]; ring
          have hposl : pos * 2 * 2 ^ h < T.nTransactions := by
            rw [hpow] at hpos
            calc pos * 2 * 2 ^ h = pos * (2 * 2 ^ h) := by ring
              _ < T.nTransactions := hpos
          cases hl : TraverseAndExtract H T h (pos * 2)
              { s with nBitsUsed := s.nBitsUsed + 1 } with
          | none => rw [hl] at hrun; simp at hrun
          | some r1 =>
            obtain ⟨left, sl⟩ := r1
            obtain ⟨idx1, hs1, hi1, hm1, hlen1, hused1, hcap1, hsort1, hrange1⟩ :=
              ih (pos * 2) _ left sl hl hposl
            simp only at hi1 hm1 hused1 hcap1
            rw [hl] at hrun
            simp only at hrun
            split at hrun
            · rename_i hw
              have hposr : (pos * 2 + 1) * 2 ^ h < T.nTransactions :=
                (lt_CalcTreeWidth T.nTransactions h (pos * 2 + 1)).1 hw
              cases hr : TraverseAndExtract H T h (pos * 2 + 1) sl with
              | none => rw [hr] at hrun; simp at hrun
              | some r2 =>
                obtain ⟨right, sr⟩ := r2
                obtain ⟨idx2, hs2, hi2, hm2, hlen2, hused2, hcap2, hsort2, hrange2⟩ :=
                  ih (pos * 2 + 1) sl right sr hr hposr
                rw [hr] at hrun
                simp only at hrun
                have hall : ∃ (idx : List Nat) (hs : List D),
                    sr.vnIndex = s.vnIndex ++ idx ∧ sr.vMatch = s.vMatch ++ hs ∧
                    hs.length = idx.length ∧
                    s.nHashUsed + idx.length ≤ sr.nHashUsed ∧
                    (s.nHashUsed ≤ T.vHash.length → sr.nHashUsed ≤ T.vHash.length) ∧
                    idx.Pairwise (fun a b => a < b) ∧
                    ∀ i ∈ idx, pos * 2 ^ (h + 1) ≤ i ∧ i < (pos + 1) * 2 ^ (h + 1) ∧
                      i < T.nTransactions := by
                  refine ⟨idx1 ++ idx2, hs1 ++ hs2, ?_, ?_, ?_, ?_, ?_, ?_, ?_⟩
                  · rw [hi2, hi1, List.append_assoc]
                  · rw [hm2, hm1, List.append_assoc]
                  · simp only [List.length_append, hlen1, hlen2]
                  · simp only [List.length_append]; omega
                  · intro hc; exact hcap2 (hcap1 hc)
                  · rw [List.pairwise_append]
                    refine ⟨hsort1, hsort2, ?_⟩
                    intro a ha b hb
                    have h1 := (hrange1 a ha).2.1
                    have h2 := (hrange2 b hb).1
                    omega
                  · intro i hi
                    rcases List.mem_append.1 hi with hi | hi
                    · obtain ⟨ha, hb, hc⟩ := hrange1 i hi
                      refine ⟨?_, ?_, hc⟩
                      · rw [hpow]
                        calc pos * (2 * 2 ^ h) = pos * 2 * 2 ^ h := by ring
                          _ ≤ i := ha
                      · rw [hpow]
                        calc i < (pos * 2 + 1) * 2 ^ h := hb
                          _ ≤ (pos + 1) * (2 * 2 ^ h) := by nlinarith [Nat.two_pow_pos h]
                    · obtain ⟨ha, hb, hc⟩ := hrange2 i hi
                      refine ⟨?_, ?_, hc⟩
                      · rw [hpow]
                        calc pos * (2 * 2 ^ h) ≤ (pos * 2 + 1) * 2 ^ h := by
                              nlinarith [Nat.two_pow_pos h]
                          _ ≤ i := ha
                      · rw [hpow]
                        calc i < (pos * 2 + 1 + 1) * 2 ^ h := hb
                          _ = (pos + 1) * (2 * 2 ^ h) := by ring
                split at hrun
                · simp only [Option.some.injEq, Prod.mk.injEq] at hrun
                  obtain ⟨_, rfl⟩ := hrun
                  exact hall
                · simp only [Option.some.injEq, Prod.mk.injEq] at hrun
                  obtain ⟨_, rfl⟩ := hrun
                  exact hall
            · simp only [Option.some.injEq, Prod.mk.injEq] at hrun
              obtain ⟨_, rfl⟩ := hrun
              refine ⟨idx1, hs1, hi1, hm1, hlen1, hused1, hcap1, hsort1, ?_⟩
              intro i hi
              obtain ⟨ha, hb, hc⟩ := hrange1 i hi
              refine ⟨?_, ?_, hc⟩
              · rw [hpow]
                calc pos * (2 * 2 ^ h) = pos * 2 * 2 ^ h := by ring
                  _ ≤ i := ha
              · rw [hpow]
                calc i < (pos * 2 + 1) * 2 ^ h := hb
                  _ ≤ (pos + 1) * (2 * 2 ^ h) := by nlinarith [Nat.two_pow_pos h]

/-- When the pointer `mutated` is given, `ComputeMerkleRoot` stores `true`
through it if and only if, at some round `r` of its loop, the vector it holds
at the start of that round has identical elements at positions `2k` and
`2k + 1` for some `k` with both positions inside the vector. The scan of a
round ignores a trailing element without a partner: appending one element to a
vector of even size does not change what the scan finds. -/
theorem ComputeMerkleRoot_mutated_iff {D : Type} [DecidableEq D] (H : Hasher D)
    (hashes : List D) :
    ((ComputeMerkleRoot H hashes true).2 = some true ↔
      ∃ r k, k * 2 + 1 < ((merkleRound H)^[r] hashes).length ∧
        ((merkleRound H)^[r] hashes)[k * 2]? = ((merkleRound H)^[r] hashes)[k * 2 + 1]?) ∧
    (∀ (xs : List D) (x : D) (m : Bool), xs.length % 2 = 0 →
      scanPairs (xs ++ [x]) m = scanPairs xs m) := by
  refine ⟨?_, scanPairs_trailing⟩
  have h := merkleLoop_mutation H hashes.length hashes false (by omega)
  simp only [Bool.false_eq_true, false_or] at h
  simp only [ComputeMerkleRoot, if_true, Option.some.injEq]
  exact h

/-! ## The claims -/

/-- C1, as stated, fails. With the hasher `demoHasher` and the weight limit
4000000 (at most 16666 transactions): the constructor fails on the empty leaf
list (the assertion of `CalcHash`); for the leaves `[7, 7]` with mask
`[true, false]` the tree is built, `ExtractMatches` finds the two children of
the root equal, sets `fBad` and returns the null digest `0`, while
`ComputeMerkleRoot [7, 7]` is `3257`; and for 16667 leaves the tree is built,
`ExtractMatches` stops at the check of the transaction count and returns the
null digest, while `ComputeMerkleRoot` of the leaves is not null. -/
theorem C1_counterexample :
    CPartialMerkleTree.build demoHasher ([] : List Nat) [] = none ∧
    (CPartialMerkleTree.build demoHasher [7, 7] [true, false] =
        some { nTransactions := 2, vBits := [true, true, false], vHash := [7, 7],
               fBad := false } ∧
      (ExtractMatches demoHasher 4000000
        { nTransactions := 2, vBits := [true, true, false], vHash := [7, 7], fBad := false }
        [] []).map (fun r => r.root) = some 0 ∧
      (ComputeMerkleRoot demoHasher [7, 7] false).1 = 3257) ∧
    (∃ T, CPartialMerkleTree.build demoHasher (List.replicate 16667 1)
        (List.replicate 16667 false) = some T ∧
      (ExtractMatches demoHasher 4000000 T [] []).map (fun r => r.root) =
        some demoHasher.null ∧
      (ComputeMerkleRoot demoHasher (List.replicate 16667 1) false).1 ≠ demoHasher.null) := by
  refine ⟨by decide, by decide, builtTree demoHasher (List.replicate 16667 1)
    (List.replicate 16667 false), build_eq _ _ _
      (List.ne_nil_of_length_pos (by rw [List.length_replicate]; decide))
      (by rw [List.length_replicate, List.length_replicate]), ?_, ?_⟩
  · rw [ExtractMatches_precheck]
    · rfl
    · right; left
      simp only [builtTree, List.length_replicate]
      decide
  · apply ComputeMerkleRoot_ne_null demoHasher false demoHasher_SPHINX_256_ne_null
    rw [List.length_replicate]
    decide

/-- C1, amended. For every non-empty leaf list `L` with at most
`MAX_BLOCK_WEIGHT / MIN_TRANSACTION_WEIGHT` entries and every mask `M` of the
same length, the constructor succeeds and `ExtractMatches` on the tree returns
either the pairwise-reduction root of `L` or the null digest; it returns the
pairwise-reduction root when no node with a matched leaf below it has a real
right child whose digest equals the left child's. -/
theorem C1_extract_root_of_built_tree {D : Type} [DecidableEq D] (H : Hasher D)
    (MAX_BLOCK_WEIGHT : Nat) (L : List D) (M : List Bool)
    (hL : L ≠ []) (hM : M.length = L.length)
    (hW : L.length ≤ MAX_BLOCK_WEIGHT / MIN_TRANSACTION_WEIGHT) :
    ∃ T, CPartialMerkleTree.build H L M = some T ∧
      ∀ vMatch vnIndex, ∃ r, ExtractMatches H MAX_BLOCK_WEIGHT T vMatch vnIndex = some r ∧
        (r.root = pairwiseRoot H.null H.Hash L ∨ r.root = H.null) ∧
        ((∀ h pos, pos * 2 + 1 < CalcTreeWidth L.length h →
            (∃ i, pos * 2 ^ (h + 1) ≤ i ∧ i < (pos + 1) * 2 ^ (h + 1) ∧ M[i]? = some true) →
            CalcHash H L.length h (pos * 2) L ≠ CalcHash H L.length h (pos * 2 + 1) L) →
          r.root = pairwiseRoot H.null H.Hash L) := by
  refine ⟨builtTree H L M, build_eq H L M hL hM, ?_⟩
  intro vMatch vnIndex
  refine ⟨_, ExtractMatches_builtTree H MAX_BLOCK_WEIGHT L M hL hW vMatch vnIndex, ?_, ?_⟩
  · simp only [pairwiseRoot_eq_nodeHash H L hL]
    split
    · exact Or.inr rfl
    · exact Or.inl rfl
  · intro hne
    simp only [twinBelow_false H L M hL hne, pairwiseRoot_eq_nodeHash H L hL]
    rfl

/-- C1, amended, at the leaves `[1, 2, 3]` with mask `[false, false, true]`. -/
theorem C1_extract_root_of_built_tree_witness :
    ([1, 2, 3] : List Nat) ≠ [] ∧ [false, false, true].length = [1, 2, 3].length ∧
    [1, 2, 3].length ≤ 4000000 / MIN_TRANSACTION_WEIGHT ∧
    ∃ T, CPartialMerkleTree.build demoHasher [1, 2, 3] [false, false, true] = some T ∧
      ∀ vMatch vnIndex, ∃ r, ExtractMatches demoHasher 4000000 T vMatch vnIndex = some r ∧
        (r.root = pairwiseRoot demoHasher.null demoHasher.Hash [1, 2, 3] ∨
          r.root = demoHasher.null) ∧
        ((∀ h pos, pos * 2 + 1 < CalcTreeWidth [1, 2, 3].length h →
            (∃ i, pos * 2 ^ (h + 1) ≤ i ∧ i < (pos + 1) * 2 ^ (h + 1) ∧
              [false, false, true][i]? = some true) →
            CalcHash demoHasher [1, 2, 3].length h (pos * 2) [1, 2, 3] ≠
              CalcHash demoHasher [1, 2, 3].length h (pos * 2 + 1) [1, 2, 3]) →
          r.root = pairwiseRoot demoHasher.null demoHasher.Hash [1, 2, 3]) :=
  ⟨by decide, by decide, by decide,
    C1_extract_root_of_built_tree demoHasher 4000000 [1, 2, 3] [false, false, true]
      (by decide) (by decide) (by decide)⟩

/-- C2, as stated, fails. With the hasher `demoHasher` and the weight limit
4000000 (at most 16666 transactions): the constructor fails on the empty leaf
list; and for 16667 leaves, all matched, the tree is built but `ExtractMatches`
stops at the check of the transaction count and outputs no match at all. -/
theorem C2_counterexample :
    CPartialMerkleTree.build demoHasher ([] : List Nat) [] = none ∧
    ∃ T, CPartialMerkleTree.build demoHasher (List.replicate 16667 1)
        (List.replicate 16667 true) = some T ∧
      (ExtractMatches demoHasher 4000000 T [] []).map (fun r => (r.vMatch, r.vnIndex)) =
        some ([], []) := by
  refine ⟨by decide, builtTree demoHasher (List.replicate 16667 1) (List.replicate 16667 true),
    build_eq _ _ _
      (List.ne_nil_of_length_pos (by rw [List.length_replicate]; decide))
      (by rw [List.length_replicate, List.length_replicate]), ?_⟩
  rw [ExtractMatches_precheck]
  · rfl
  · right; left
    simp only [builtTree, List.length_replicate]
    decide

/-- C2, amended. For every non-empty leaf list `L` with at most
`MAX_BLOCK_WEIGHT / MIN_TRANSACTION_WEIGHT` entries and every mask `M` of the
same length, the constructor succeeds and `ExtractMatches`, called with an
empty index list, outputs exactly the pairs `(i, L[i])` with `M[i]` true: the
indices are those `i` in increasing order and the matched hashes are the `L[i]`
in the same order. -/
theorem C2_extract_matches_of_built_tree {D : Type} [DecidableEq D] (H : Hasher D)
    (MAX_BLOCK_WEIGHT : Nat) (L : List D) (M : List Bool)
    (hL : L ≠ []) (hM : M.length = L.length)
    (hW : L.length ≤ MAX_BLOCK_WEIGHT / MIN_TRANSACTION_WEIGHT) :
    ∃ T, CPartialMerkleTree.build H L M = some T ∧
      ∀ vMatch, ∃ r, ExtractMatches H MAX_BLOCK_WEIGHT T vMatch [] = some r ∧
        r.vnIndex = (List.range L.length).filter (fun i => M.getD i false) ∧
        r.vMatch = ((List.range L.length).filter (fun i => M.getD i false)).map
          (fun i => L.getD i H.null) := by
  refine ⟨builtTree H L M, build_eq H L M hL hM, ?_⟩
  intro vMatch
  refine ⟨_, ExtractMatches_builtTree H MAX_BLOCK_WEIGHT L M hL hW vMatch [], ?_, rfl⟩
  simp

/-- C2, amended, at the leaves `[1, 2, 3]` with mask `[false, true, true]`. -/
theorem C2_extract_matches_of_built_tree_witness :
    ([1, 2, 3] : List Nat) ≠ [] ∧ [false, true, true].length = [1, 2, 3].length ∧
    [1, 2, 3].length ≤ 4000000 / MIN_TRANSACTION_WEIGHT ∧
    ∃ T, CPartialMerkleTree.build demoHasher [1, 2, 3] [false, true, true] = some T ∧
      ∀ vMatch, ∃ r, ExtractMatches demoHasher 4000000 T vMatch [] = some r ∧
        r.vnIndex = (List.range [1, 2, 3].length).filter
          (fun i => [false, true, true].getD i false) ∧
        r.vMatch = ((List.range [1, 2, 3].length).filter
          (fun i => [false, true, true].getD i false)).map
            (fun i => [1, 2, 3].getD i demoHasher.null) :=
  ⟨by decide, by decide, by decide,
    C2_extract_matches_of_built_tree demoHasher 4000000 [1, 2, 3] [false, true, true]
      (by decide) (by decide) (by decide)⟩

/-- C3, as stated, fails. Under `demoHasher` and the weight limit 4000000, the
tree built from the single leaf `[7]` with mask `[true]` has `vBits = [true]`,
serialized as the byte `1`. Flipping bit 1 of that byte (a padding bit) gives
the byte `3`, and `ExtractMatches` on the tree with the unpacked bits returns
the root `7`, not the null digest `0`, with the match intact. Flipping bit 0
(the bit of the leaf) gives the byte `0`, and `ExtractMatches` again returns
the root `7`, now without any match. -/
theorem C3_counterexample :
    CPartialMerkleTree.build demoHasher [7] [true] =
      some { nTransactions := 1, vBits := [true], vHash := [7], fBad := false } ∧
    BitsToBytes [true] = some [1] ∧
    BytesToBits (flipBit [1] 1) =
      some [true, true, false, false, false, false, false, false] ∧
    ExtractMatches demoHasher 4000000
        { nTransactions := 1, vBits := [true, true, false, false, false, false, false, false],
          vHash := [7], fBad := false } [] [] =
      some { root := 7, vMatch := [7], vnIndex := [0],
             tree := { nTransactions := 1,
                       vBits := [true, true, false, false, false, false, false, false],
                       vHash := [7], fBad := false } } ∧
    BytesToBits (flipBit [1] 0) =
      some [false, false, false, false, false, false, false, false] ∧
    ExtractMatches demoHasher 4000000
        { nTransactions := 1, vBits := [false, false, false, false, false, false, false, false],
          vHash := [7], fBad := false } [] [] =
      some { root := 7, vMatch := [], vnIndex := [],
             tree := { nTransactions := 1,
                       vBits := [false, false, false, false, false, false, false, false],
                       vHash := [7], fBad := false } } ∧
    (7 : Nat) ≠ demoHasher.null := by
  decide

/-- C3, amended. For every tree `T` built from a non-empty leaf list and a mask
of the same length, and every padding position `p` of the byte array
`BitsToBytes(T.vBits)` (a position at or beyond the number of stored bits), the
tree with `T`'s `nTransactions` and `vHash` whose `vBits` are `BytesToBits` of
that byte array with bit `p` flipped makes `ExtractMatches` return the same
root, the same matches and the same indices as `T` itself: the flip is not
detected. -/
theorem C3_padding_flip_not_detected {D : Type} [DecidableEq D] (H : Hasher D)
    (MAX_BLOCK_WEIGHT : Nat) (L : List D) (M : List Bool)
    (hL : L ≠ []) (hM : M.length = L.length) (p : Nat) :
    ∃ T bytes, CPartialMerkleTree.build H L M = some T ∧ BitsToBytes T.vBits = some bytes ∧
      (T.vBits.length ≤ p → p < 8 * bytes.length →
        ∃ bits', BytesToBits (flipBit bytes p) = some bits' ∧
          ∀ vMatch vnIndex, ∃ r r',
            ExtractMatches H MAX_BLOCK_WEIGHT T vMatch vnIndex = some r ∧
            ExtractMatches H MAX_BLOCK_WEIGHT { T with vBits := bits' } vMatch vnIndex =
              some r' ∧
            r'.root = r.root ∧ r'.vMatch = r.vMatch ∧ r'.vnIndex = r.vnIndex) := by
  obtain ⟨bytes, hb, _, _⟩ := BitsToBytes_spec (builtTree H L M).vBits
  refine ⟨builtTree H L M, bytes, build_eq H L M hL hM, hb, ?_⟩
  intro hlo hhi
  obtain ⟨bytes', hb', hlen', hflip⟩ := pack_flip_unpack (builtTree H L M).vBits p hlo
  have hbb : bytes' = bytes := by
    rw [hb] at hb'; exact (Option.some.inj hb').symm
  subst hbb
  obtain ⟨post, hpost, hplen⟩ := hflip hhi
  refine ⟨_, hpost, ?_⟩
  intro vMatch vnIndex
  by_cases hW : L.length ≤ MAX_BLOCK_WEIGHT / MIN_TRANSACTION_WEIGHT
  · refine ⟨_, _, ExtractMatches_builtTree H MAX_BLOCK_WEIGHT L M hL hW vMatch vnIndex,
      ExtractMatches_padded H MAX_BLOCK_WEIGHT L M hL hW post
        { builtTree H L M with vBits := (builtTree H L M).vBits ++ post } rfl rfl rfl
        (by
          show ((builtTree H L M).vBits.length + 7) / 8 =
            (((builtTree H L M).vBits ++ post).length + 7) / 8
          rw [hplen]; omega)
        vMatch vnIndex, ?_, rfl, rfl⟩
    simp [builtTree]
  · have hbig : ∀ T' : CPartialMerkleTree D, T'.nTransactions = L.length →
        T'.nTransactions = 0 ∨ T'.nTransactions > MAX_BLOCK_WEIGHT / MIN_TRANSACTION_WEIGHT ∨
          T'.vHash.length > T'.nTransactions ∨ T'.vBits.length < T'.vHash.length := by
      intro T' hT'
      right; left; omega
    exact ⟨_, _, ExtractMatches_precheck H MAX_BLOCK_WEIGHT _ vMatch vnIndex (hbig _ rfl),
      ExtractMatches_precheck H MAX_BLOCK_WEIGHT _ vMatch vnIndex (hbig _ rfl), rfl, rfl, rfl⟩

/-- C3, amended, at the single leaf `[7]` with mask `[true]` and the padding
position 1. -/
theorem C3_padding_flip_not_detected_witness :
    ([7] : List Nat) ≠ [] ∧ [true].length = [7].length ∧
    ∃ T bytes, CPartialMerkleTree.build demoHasher [7] [true] = some T ∧
      BitsToBytes T.vBits = some bytes ∧
      (T.vBits.length ≤ 1 → 1 < 8 * bytes.length →
        ∃ bits', BytesToBits (flipBit bytes 1) = some bits' ∧
          ∀ vMatch vnIndex, ∃ r r',
            ExtractMatches demoHasher 4000000 T vMatch vnIndex = some r ∧
            ExtractMatches demoHasher 4000000 { T with vBits := bits' } vMatch vnIndex =
              some r' ∧
            r'.root = r.root ∧ r'.vMatch = r.vMatch ∧ r'.vnIndex = r.vnIndex) :=
  ⟨by decide, by decide,
    C3_padding_flip_not_detected demoHasher 4000000 [7] [true] (by decide) (by decide) 1⟩

/-- C4. For every non-empty leaf list `L` and mask `M` of the same length, the
constructor succeeds, and the tree it returns, with the last entry of `vHash`
removed, makes `ExtractMatches` return the null digest, whatever the weight
limit and the output vectors passed in. -/
theorem C4_truncated_hashes_rejected {D : Type} [DecidableEq D] (H : Hasher D)
    (MAX_BLOCK_WEIGHT : Nat) (L : List D) (M : List Bool)
    (hL : L ≠ []) (hM : M.length = L.length) :
    ∃ T, CPartialMerkleTree.build H L M = some T ∧
      ∀ vMatch vnIndex, ∃ r,
        ExtractMatches H MAX_BLOCK_WEIGHT { T with vHash := T.vHash.dropLast } vMatch vnIndex =
          some r ∧ r.root = H.null := by
  refine ⟨builtTree H L M, build_eq H L M hL hM, ?_⟩
  intro vMatch vnIndex
  have hlen : 0 < L.length := List.length_pos.2 hL
  have hpos := builtTree_hash_pos H L M (treeHeight L.length) 0
  obtain ⟨x, s, ht, hf⟩ := TraverseAndExtract_truncated H L M (treeHeight L.length) 0
    { builtTree H L M with vHash := (builtTree H L M).vHash.dropLast }
    (extractStart { builtTree H L M with vHash := (builtTree H L M).vHash.dropLast } vnIndex)
    [] [] []
    ((builtHashes H L.length L M (treeHeight L.length) 0).length - 1)
    rfl (by simpa using hlen) (by simp [builtTree])
    (by simp [builtTree, List.dropLast_eq_take]) (by omega) rfl rfl
  exact ExtractMatches_of_fBad H MAX_BLOCK_WEIGHT _ vMatch vnIndex x s ht hf

/-- C4 at the leaves `[1, 2, 3]` with mask `[false, true, true]`. -/
theorem C4_truncated_hashes_rejected_witness :
    ([1, 2, 3] : List Nat) ≠ [] ∧ [false, true, true].length = [1, 2, 3].length ∧
    ∃ T, CPartialMerkleTree.build demoHasher [1, 2, 3] [false, true, true] = some T ∧
      ∀ vMatch vnIndex, ∃ r,
        ExtractMatches demoHasher 4000000 { T with vHash := T.vHash.dropLast } vMatch vnIndex =
          some r ∧ r.root = demoHasher.null :=
  ⟨by decide, by decide,
    C4_truncated_hashes_rejected demoHasher 4000000 [1, 2, 3] [false, true, true]
      (by decide) (by decide)⟩

/-- C5, the code at a failing input. Under `demoHasher`, for the four leaves
`[1, 2, 3, 4]`, `ComputeMerkleRoot` of `Consensus/Merkle.cpp` returns
`SPHINX_256 [SPHINX_256 [1, 2, 3, 4], 2]`: the digest of the whole vector went
into `hashes[0]` and `hashes[1]` kept the leaf `2`. The pairwise reduction of
the specification, which `SPHINXMerkle::ComputeMerkleRoot` of
`Benchmark/Merkle_root.cpp` computes, gives
`SPHINX_256 [SPHINX_256 [1, 2], SPHINX_256 [3, 4]]`, a different digest. -/
theorem C5_ComputeMerkleRoot_not_pairwise :
    (ComputeMerkleRoot demoHasher [1, 2, 3, 4] false).1 =
      demoHasher.SPHINX_256 [demoHasher.SPHINX_256 [1, 2, 3, 4], 2] ∧
    pairwiseRoot demoHasher.null (fun l r => demoHasher.SPHINX_256 [l, r]) [1, 2, 3, 4] =
      demoHasher.SPHINX_256 [demoHasher.SPHINX_256 [1, 2], demoHasher.SPHINX_256 [3, 4]] ∧
    SPHINXMerkle.ComputeMerkleRoot demoHasher [1, 2, 3, 4] =
      some (pairwiseRoot demoHasher.null (fun l r => demoHasher.SPHINX_256 [l, r])
        [1, 2, 3, 4]) ∧
    (ComputeMerkleRoot demoHasher [1, 2, 3, 4] false).1 ≠
      pairwiseRoot demoHasher.null (fun l r => demoHasher.SPHINX_256 [l, r]) [1, 2, 3, 4] := by
  decide

/-- C6, the code at a failing input. For the leaves `[1, 2, 1, 2]` under
`demoHasher` the pairwise reduction holds `[51, 51]` after its first round: the
subtree over `(1, 2)` is duplicated, positions 0 and 1 are identical, and the
flag of the specification is true. `ComputeMerkleRoot` stores false: its
second round scans the vector `[SPHINX_256 [1, 2, 1, 2], 2]` that its first
round left (see C5), which has no identical pair. -/
theorem C6_duplicated_subtree_not_flagged :
    (ComputeMerkleRoot demoHasher [1, 2, 1, 2] true).2 = some false ∧
    levelAt (fun l r => demoHasher.SPHINX_256 [l, r]) [1, 2, 1, 2] 1 = [51, 51] ∧
    pairwiseMutated (fun l r => demoHasher.SPHINX_256 [l, r]) 4 [1, 2, 1, 2] = true ∧
    merkleRound demoHasher [1, 2, 1, 2] = [demoHasher.SPHINX_256 [1, 2, 1, 2], 2] := by
  decide

/-- C7. `ExtractMatches` returns the null digest whenever one of its four
pre-checks fails: `nTransactions` is 0, or exceeds
`MAX_BLOCK_WEIGHT / MIN_TRANSACTION_WEIGHT`, or `vHash` has more entries than
`nTransactions`, or `vBits` has fewer entries than `vHash`. -/
theorem C7_prechecks_return_null {D : Type} [DecidableEq D] (H : Hasher D)
    (MAX_BLOCK_WEIGHT : Nat) (T : CPartialMerkleTree D) (vMatch : List D)
    (vnIndex : List Nat)
    (h : T.nTransactions = 0 ∨ T.nTransactions > MAX_BLOCK_WEIGHT / MIN_TRANSACTION_WEIGHT ∨
      T.vHash.length > T.nTransactions ∨ T.vBits.length < T.vHash.length) :
    ∃ r, ExtractMatches H MAX_BLOCK_WEIGHT T vMatch vnIndex = some r ∧ r.root = H.null :=
  ⟨_, ExtractMatches_precheck H MAX_BLOCK_WEIGHT T vMatch vnIndex h, rfl⟩

/-- C7 at a tree that claims 16667 transactions for the weight limit 4000000
(at most 16666) and is otherwise well formed. -/
theorem C7_prechecks_return_null_witness :
    ((16667 : Nat) = 0 ∨ 16667 > 4000000 / MIN_TRANSACTION_WEIGHT ∨
      [5].length > 16667 ∨ [false].length < [5].length) ∧
    ∃ r, ExtractMatches demoHasher 4000000
        { nTransactions := 16667, vBits := [false], vHash := [5], fBad := false } [] [] =
      some r ∧ r.root = demoHasher.null :=
  ⟨by decide,
    C7_prechecks_return_null demoHasher 4000000
      { nTransactions := 16667, vBits := [false], vHash := [5], fBad := false } [] []
      (by decide)⟩

/-- C8. Whenever `ExtractMatches` returns a non-null digest, the traversal it
ran consumed every stored digest, and the number of bits it consumed, rounded
up to whole bytes, is the number of stored bits rounded up to whole bytes. -/
theorem C8_nonnull_consumed_all {D : Type} [DecidableEq D] (H : Hasher D)
    (MAX_BLOCK_WEIGHT : Nat) (T : CPartialMerkleTree D) (vMatch : List D)
    (vnIndex : List Nat) (r : ExtractResult D)
    (hr : ExtractMatches H MAX_BLOCK_WEIGHT T vMatch vnIndex = some r)
    (hroot : r.root ≠ H.null) :
    ∃ x s, TraverseAndExtract H T (treeHeight T.nTransactions) 0 (extractStart T vnIndex) =
        some (x, s) ∧
      s.nHashUsed = T.vHash.length ∧
      (s.nBitsUsed + 7) / 8 = (T.vBits.length + 7) / 8 := by
  unfold ExtractMatches at hr
  split at hr
  · simp only [Option.some.injEq] at hr; subst hr; exact absurd rfl hroot
  · split at hr
    · simp only [Option.some.injEq] at hr; subst hr; exact absurd rfl hroot
    · split at hr
      · simp only [Option.some.injEq] at hr; subst hr; exact absurd rfl hroot
      · split at hr
        · simp only [Option.some.injEq] at hr; subst hr; exact absurd rfl hroot
        · split at hr
          · simp at hr
          · rename_i x s ht
            split at hr
            · simp only [Option.some.injEq] at hr; subst hr; exact absurd rfl hroot
            · split at hr
              · simp only [Option.some.injEq] at hr; subst hr; exact absurd rfl hroot
              · split at hr
                · simp only [Option.some.injEq] at hr; subst hr; exact absurd rfl hroot
                · rename_i hbits hhash
                  exact ⟨x, s, ht, not_not.1 hhash, not_not.1 hbits⟩

/-- C8 at the tree built from the leaves `[1, 2, 3]` and the mask
`[false, false, true]`, whose extraction returns the root `906190661`. -/
theorem C8_nonnull_consumed_all_witness :
    ExtractMatches demoHasher 4000000 demoTree [] [] =
      some { root := 906190661, vMatch := [3], vnIndex := [2], tree := demoTree } ∧
    (906190661 : Nat) ≠ demoHasher.null ∧
    ∃ x s, TraverseAndExtract demoHasher demoTree (treeHeight demoTree.nTransactions) 0
        (extractStart demoTree []) = some (x, s) ∧
      s.nHashUsed = demoTree.vHash.length ∧
      (s.nBitsUsed + 7) / 8 = (demoTree.vBits.length + 7) / 8 :=
  ⟨by decide, by decide,
    C8_nonnull_consumed_all demoHasher 4000000 demoTree [] []
      { root := 906190661, vMatch := [3], vnIndex := [2], tree := demoTree }
      (by decide) (by decide)⟩

/-- C9. For every tree state, weight limit and output vectors,
`ExtractMatches` returns (no read of `vBits` or `vHash` falls outside the
vector, which would make the model return `none`), the height loop has left
through its own condition, and if the traversal took one of the two
"overflowed" branches (it needed a bit or a digest beyond the end of its
vector) the returned digest is null. -/
theorem C9_extract_total_and_overflow_null {D : Type} [DecidableEq D] (H : Hasher D)
    (MAX_BLOCK_WEIGHT : Nat) (T : CPartialMerkleTree D) (vMatch : List D)
    (vnIndex : List Nat) :
    CalcTreeWidth T.nTransactions (treeHeight T.nTransactions) ≤ 1 ∧
    ∃ r, ExtractMatches H MAX_BLOCK_WEIGHT T vMatch vnIndex = some r ∧
      ∀ x s, TraverseAndExtract H T (treeHeight T.nTransactions) 0 (extractStart T vnIndex) =
          some (x, s) → s.overflowed = true → r.root = H.null := by
  refine ⟨treeHeight_width _, ?_⟩
  obtain ⟨⟨x, s⟩, ht⟩ := TraverseAndExtract_total H T (treeHeight T.nTransactions) 0
    (extractStart T vnIndex)
  have hinv := TraverseAndExtract_overflow_bad H T _ _ _ _ _ ht
    (by intro h; simp [extractStart] at h)
  unfold ExtractMatches
  split
  · exact ⟨_, rfl, fun _ _ _ _ => rfl⟩
  · split
    · exact ⟨_, rfl, fun _ _ _ _ => rfl⟩
    · split
      · exact ⟨_, rfl, fun _ _ _ _ => rfl⟩
      · split
        · exact ⟨_, rfl, fun _ _ _ _ => rfl⟩
        · rw [ht]
          simp only
          split
          · exact ⟨_, rfl, fun _ _ _ _ => rfl⟩
          · rename_i hb
            split
            · exact ⟨_, rfl, fun _ _ _ _ => rfl⟩
            · split
              · exact ⟨_, rfl, fun _ _ _ _ => rfl⟩
              · refine ⟨_, rfl, ?_⟩
                intro x' s' he ho
                simp only [Option.some.injEq, Prod.mk.injEq] at he
                rw [← he.2] at ho
                exact absurd (hinv ho) hb

/-- C10. For every non-empty chain, `verifyChain` returns, and it returns true
if and only if `verifyBlock` accepts every block of the chain and, for every
index `i > 0`, the previous-hash of block `i` equals the hash of block `i - 1`. -/
theorem C10_verifyChain_iff (E : VerifyEnv) (chain : List SPHINXBlock) (hne : chain ≠ []) :
    ∃ b, verifyChain E chain = some b ∧
      (b = true ↔
        (∀ i (hi : i < chain.length), verifyBlock E chain[i] = true) ∧
        (∀ i (hi : i + 1 < chain.length), chain[i + 1].previousHash = chain[i].hash)) := by
  have hlen : chain.length ≠ 0 := fun h => hne (List.length_eq_zero.1 h)
  obtain ⟨b, hb, hspec⟩ := verifyChainLoop_spec E chain chain.length 0 (by omega)
  refine ⟨b, by simp only [verifyChain, hlen, if_false]; exact hb, ?_⟩
  rw [hspec]
  constructor
  · rintro ⟨h1, h2⟩
    exact ⟨fun i hi => h1 i hi (Nat.zero_le _), fun i hi => h2 i hi (Nat.zero_le _)⟩
  · rintro ⟨h1, h2⟩
    exact ⟨fun i hi _ => h1 i hi, fun i hi _ => h2 i hi⟩

/-- C10 at a chain of two correctly linked blocks. -/
theorem C10_verifyChain_iff_witness :
    demoChain ≠ [] ∧
    ∃ b, verifyChain demoEnv demoChain = some b ∧
      (b = true ↔
        (∀ i (hi : i < demoChain.length), verifyBlock demoEnv demoChain[i] = true) ∧
        (∀ i (hi : i + 1 < demoChain.length),
          demoChain[i + 1].previousHash = demoChain[i].hash)) :=
  ⟨by decide, C10_verifyChain_iff demoEnv demoChain (by decide)⟩

/-- C11. For every chain and every index `k` with `1 <= k < N`: if the blocks
`0..k-1` each pass `verifyBlock` and are correctly linked, and the
previous-hash of block `k` differs from the hash of block `k - 1`, then
`verifyChain` returns false on the whole chain and true on the prefix made of
the blocks `0..k-1`. -/
theorem C11_reject_from_broken_link (E : VerifyEnv) (chain : List SPHINXBlock) (k : Nat)
    (hk1 : 1 ≤ k) (hk : k < chain.length)
    (hpass : ∀ i (hi : i < chain.length), i < k → verifyBlock E chain[i] = true)
    (hlink : ∀ i (hi : i + 1 < chain.length), i + 1 < k →
      chain[i + 1].previousHash = chain[i].hash)
    (hbad : chain[k].previousHash ≠ chain[k - 1].hash) :
    verifyChain E chain = some false ∧ verifyChain E (chain.take k) = some true := by
  constructor
  · have hne : chain ≠ [] := by
      intro h; rw [h] at hk; simp at hk
    obtain ⟨b, hb, hspec⟩ := verifyChain_spec E chain hne
    cases b with
    | false => exact hb
    | true =>
      exfalso
      have h2 := (hspec.1 rfl).2 (k - 1) (by omega)
      apply hbad
      have e : k - 1 + 1 = k := by omega
      simp only [e] at h2
      exact h2
  · have hlen : (chain.take k).length = k := by
      rw [List.length_take]; omega
    have hne : chain.take k ≠ [] := by
      intro h; rw [h] at hlen; simp at hlen; omega
    obtain ⟨b, hb, hspec⟩ := verifyChain_spec E (chain.take k) hne
    have hb2 : b = true := by
      rw [hspec]
      constructor
      · intro i hi
        rw [List.getElem_take]
        exact hpass i (by omega) (by omega)
      · intro i hi
        rw [List.getElem_take, List.getElem_take]
        exact hlink i (by omega) (by omega)
    rw [hb, hb2]

/-- C11 at a chain of three blocks whose link breaks at block 2. -/
theorem C11_reject_from_broken_link_witness :
    1 ≤ 2 ∧ 2 < demoBrokenChain.length ∧
    (∀ i (hi : i < demoBrokenChain.length), i < 2 →
      verifyBlock demoEnv demoBrokenChain[i] = true) ∧
    (∀ i (hi : i + 1 < demoBrokenChain.length), i + 1 < 2 →
      demoBrokenChain[i + 1].previousHash = demoBrokenChain[i].hash) ∧
    verifyChain demoEnv demoBrokenChain = some false ∧
    verifyChain demoEnv (demoBrokenChain.take 2) = some true :=
  have hpass : ∀ i (hi : i < demoBrokenChain.length), i < 2 →
      verifyBlock demoEnv demoBrokenChain[i] = true := by
    intro i hi h2
    match i, hi, h2 with
    | 0, _, _ => rfl
    | 1, _, _ => rfl
  have hlink : ∀ i (hi : i + 1 < demoBrokenChain.length), i + 1 < 2 →
      demoBrokenChain[i + 1].previousHash = demoBrokenChain[i].hash := by
    intro i hi h2
    match i, hi, h2 with
    | 0, _, _ => rfl
  ⟨by decide, by decide, hpass, hlink,
    C11_reject_from_broken_link demoEnv demoBrokenChain 2 (by decide) (by decide)
      hpass hlink (by decide)⟩

/-- C12. `verifyBlock` returns false whenever the header hash recomputed from
the block's previous-hash, Merkle root, timestamp and nonce differs from the
stored header hash, whatever the outcome `p` of the protocol interaction; when
the two hashes are equal it returns `p`. -/
theorem C12_verifyBlock_cases (headerHashOf : String → String → Nat → Nat → String) (p : Bool)
    (block : SPHINXBlock) :
    (headerHashOf block.previousHash block.merkleRoot block.timestamp block.nonce ≠ block.headerHash →
      verifyBlock { calculateBlockHeaderHash := headerHashOf, verify_sphinx_protocol := p } block =
        false) ∧
    (headerHashOf block.previousHash block.merkleRoot block.timestamp block.nonce = block.headerHash →
      verifyBlock { calculateBlockHeaderHash := headerHashOf, verify_sphinx_protocol := p } block =
        p) := by
  constructor
  · intro h; simp [verifyBlock, h]
  · intro h; simp [verifyBlock, h]

/-- C14. Whenever `CheckTxInputs` succeeds, every input references a coin of
the view, the fee it writes is the sum of the values of these coins minus the
transaction's output total, the fee is in the valid-amount range, and so are
the value of every referenced coin and every running sum of the values. -/
theorem C14_success_fee (MAX_MONEY : Int) (tx : Transaction)
    (inputs : Nat × Nat → Option Coin) (nSpendHeight txfee : Int)
    (h : CheckTxInputs MAX_MONEY tx inputs nSpendHeight = some (.success txfee)) :
    ∃ coins : List Coin,
      tx.vin.map (fun txin => inputs txin.prevout) = coins.map some ∧
      txfee = (coins.map (fun c => c.nValue)).sum - tx.valueOut ∧
      MoneyRange MAX_MONEY txfee = true ∧
      (∀ c ∈ coins, MoneyRange MAX_MONEY c.nValue = true) ∧
      (∀ k, 0 < k → k ≤ coins.length →
        MoneyRange MAX_MONEY ((coins.take k).map (fun c => c.nValue)).sum = true) := by
  unfold CheckTxInputs at h
  split at h
  · simp at h
  · split at h
    · simp at h
    · simp at h
    · rename_i nValueIn hloop
      split at h
      · simp at h
      · split at h
        · simp at h
        · rename_i hfee
          simp only [Option.some.injEq, TxCheck.success.injEq] at h
          obtain ⟨coins, hmap, hv, hvals, _, hsums⟩ :=
            checkInputsLoop_ok MAX_MONEY inputs nSpendHeight tx.vin 0 nValueIn hloop
          simp only [zero_add] at hv hsums
          refine ⟨coins, hmap, by rw [← h, hv], ?_, hvals, hsums⟩
          rw [← h]
          simpa using hfee

/-- C14 at the example of the spec: inputs worth 5 and 3 with an output total
of 7 succeed with fee 1. -/
theorem C14_success_fee_witness :
    CheckTxInputs 1000 demoTxFee demoView 150 = some (.success 1) ∧
    ∃ coins : List Coin,
      demoTxFee.vin.map (fun txin => demoView txin.prevout) = coins.map some ∧
      (1 : Int) = (coins.map (fun c => c.nValue)).sum - demoTxFee.valueOut ∧
      MoneyRange 1000 1 = true ∧
      (∀ c ∈ coins, MoneyRange 1000 c.nValue = true) ∧
      (∀ k, 0 < k → k ≤ coins.length →
        MoneyRange 1000 ((coins.take k).map (fun c => c.nValue)).sum = true) :=
  ⟨by decide, C14_success_fee 1000 demoTxFee demoView 150 1 (by decide)⟩

/-- C15, the code at a failing input and at the example of the spec. With
spend height 150, the coinbase coin created at height 200 has depth `-50`,
below `COINBASE_MATURITY`; the depth is compared as a 64-bit unsigned number,
`2^64 - 50`, so the check does not fire and `CheckTxInputs` succeeds (fee 41).
The coinbase coin created at height 100 has depth 50 and is rejected as a
premature spend. -/
theorem C15_premature_spend_negative_depth :
    CheckTxInputs 1000 demoTxLateCoinbase demoView 150 = some (.success 41) ∧
    CheckTxInputs 1000 demoTxCoinbase demoView 150 =
      some (.invalid "bad-txns-premature-spend-of-coinbase") := by
  decide

/-- C16. When every input references a coin of the view, no referenced
coinbase coin is spent at a depth below `COINBASE_MATURITY`, and the values of
the coins and their running sums are all in the valid-amount range, then
`CheckTxInputs` returns, and it fails with the reason `bad-txns-in-belowout` if
and only if the total input value is less than the output total. -/
theorem C16_in_belowout_iff (MAX_MONEY : Int) (tx : Transaction)
    (inputs : Nat × Nat → Option Coin) (nSpendHeight : Int) (coins : List Coin)
    (hmap : tx.vin.map (fun txin => inputs txin.prevout) = coins.map some)
    (hmat : ∀ c ∈ coins, c.fCoinBase = true →
      (COINBASE_MATURITY : Int) ≤ nSpendHeight - c.nHeight ∧ nSpendHeight - c.nHeight < 2 ^ 64)
    (hvals : ∀ c ∈ coins, MoneyRange MAX_MONEY c.nValue = true)
    (hsums : ∀ k, 0 < k → k ≤ coins.length →
      MoneyRange MAX_MONEY ((coins.take k).map (fun c => c.nValue)).sum = true) :
    ∃ r, CheckTxInputs MAX_MONEY tx inputs nSpendHeight = some r ∧
      (r = .invalid "bad-txns-in-belowout" ↔
        (coins.map (fun c => c.nValue)).sum < tx.valueOut) := by
  have hhave := HaveInputs_of_coins inputs tx coins hmap
  have hmat2 : ∀ c ∈ coins, ¬ (c.fCoinBase = true ∧
      (nSpendHeight - c.nHeight) % 2 ^ 64 < (COINBASE_MATURITY : Int)) := by
    intro c hc ⟨hcb, hlt⟩
    obtain ⟨h1, h2⟩ := hmat c hc hcb
    have h0 : (0 : Int) ≤ nSpendHeight - c.nHeight := by
      have : (0 : Int) ≤ (COINBASE_MATURITY : Int) := Int.ofNat_nonneg _
      omega
    rw [Int.emod_eq_of_lt h0 h2] at hlt
    omega
  have hloop := checkInputsLoop_of_coins MAX_MONEY inputs nSpendHeight tx.vin coins 0 hmap
    hvals hmat2 (by simpa using hsums)
  simp only [zero_add] at hloop
  unfold CheckTxInputs
  rw [hhave, hloop]
  simp only [Bool.not_true, Bool.false_eq_true, if_false]
  by_cases hlt : (coins.map (fun c => c.nValue)).sum < tx.valueOut
  · exact ⟨_, by rw [if_pos hlt], by simp [hlt]⟩
  · rw [if_neg hlt]
    split
    · refine ⟨_, rfl, ?_⟩
      constructor
      · intro h
        simp only [TxCheck.invalid.injEq] at h
        exact absurd h (by decide)
      · intro h; exact absurd h hlt
    · refine ⟨_, rfl, ?_⟩
      constructor
      · intro h; simp at h
      · intro h; exact absurd h hlt

/-- C16 at the example of the spec: inputs worth 5 and 3 with an output total
of 9 fail with `bad-txns-in-belowout`. -/
theorem C16_in_belowout_iff_witness :
    CheckTxInputs 1000 demoTxBelow demoView 150 = some (.invalid "bad-txns-in-belowout") ∧
    ∃ r, CheckTxInputs 1000 demoTxBelow demoView 150 = some r ∧
      (r = .invalid "bad-txns-in-belowout" ↔
        (([{ nValue := 5, fCoinBase := false, nHeight := 10 },
           { nValue := 3, fCoinBase := false, nHeight := 10 }] : List Coin).map
          (fun c => c.nValue)).sum < demoTxBelow.valueOut) :=
  ⟨by decide,
    C16_in_belowout_iff 1000 demoTxBelow demoView 150
      [{ nValue := 5, fCoinBase := false, nHeight := 10 },
       { nValue := 3, fCoinBase := false, nHeight := 10 }]
      (by decide) (by decide) (by decide)
      (by
        intro k h1 h2
        match k, h1, h2 with
        | 1, _, _ => decide
        | 2, _, _ => decide
        | k + 3, _, h => simp at h)⟩

/-- C17. `IsFinalTx(tx, blockHeight, blockTime)` returns true if and only if
`nLockTime` is 0, or `nLockTime` is below the relevant clock (`blockHeight`
when `nLockTime < LOCKTIME_THRESHOLD`, `blockTime` otherwise), or the sequence
number of every input is `SEQUENCE_FINAL`. -/
theorem C17_IsFinalTx_iff (K : TxConsts) (tx : Transaction) (nBlockHeight nBlockTime : Int) :
    IsFinalTx K tx nBlockHeight nBlockTime = true ↔
      tx.nLockTime = 0 ∨
      (tx.nLockTime : Int) <
        (if (tx.nLockTime : Int) < (K.LOCKTIME_THRESHOLD : Int) then nBlockHeight
         else nBlockTime) ∨
      ∀ txin ∈ tx.vin, txin.nSequence = K.SEQUENCE_FINAL := by
  unfold IsFinalTx
  by_cases h0 : tx.nLockTime = 0
  · simp [h0]
  · rw [if_neg h0]
    by_cases h1 : (tx.nLockTime : Int) <
        (if (tx.nLockTime : Int) < (K.LOCKTIME_THRESHOLD : Int) then nBlockHeight
         else nBlockTime)
    · rw [if_pos h1]
      exact ⟨fun _ => Or.inr (Or.inl h1), fun _ => rfl⟩
    · rw [if_neg h1, allSequenceFinal_iff]
      constructor
      · intro h; exact Or.inr (Or.inr h)
      · rintro (h | h | h)
        · exact absurd h h0
        · exact absurd h h1
        · exact h

/-- C18, as stated, fails. With the constants of `demoConsts`, the transaction
with lock time 500000 and a non-final input is not final at block height
500000: the lock time is compared with `<`, and `500000 < 500000` is false. -/
theorem C18_counterexample :
    IsFinalTx demoConsts demoTxLocked 500000 0 = false := by
  decide

/-- C18, amended. For every transaction with a height-style lock time
(`0 < nLockTime < LOCKTIME_THRESHOLD`) and at least one input whose sequence
number is not `SEQUENCE_FINAL`, `IsFinalTx` returns false when
`blockHeight <= nLockTime` and true when `blockHeight > nLockTime`. -/
theorem C18_height_lock (K : TxConsts) (tx : Transaction) (nBlockHeight nBlockTime : Int)
    (hpos : 0 < tx.nLockTime) (hlt : tx.nLockTime < K.LOCKTIME_THRESHOLD)
    (hseq : ∃ txin ∈ tx.vin, txin.nSequence ≠ K.SEQUENCE_FINAL) :
    (nBlockHeight ≤ (tx.nLockTime : Int) → IsFinalTx K tx nBlockHeight nBlockTime = false) ∧
    ((tx.nLockTime : Int) < nBlockHeight → IsFinalTx K tx nBlockHeight nBlockTime = true) := by
  have h0 : ¬ tx.nLockTime = 0 := by omega
  have hthr : (tx.nLockTime : Int) < (K.LOCKTIME_THRESHOLD : Int) := by exact_mod_cast hlt
  have hnot : ¬ allSequenceFinal K tx.vin = true := by
    rw [allSequenceFinal_iff]
    intro hall
    obtain ⟨txin, hm, hne⟩ := hseq
    exact hne (hall txin hm)
  unfold IsFinalTx
  rw [if_neg h0, if_pos hthr]
  constructor
  · intro hle
    rw [if_neg (by omega)]
    simpa using hnot
  · intro hgt
    rw [if_pos hgt]

/-- C18, amended, at lock time 500000: not final at the heights 499999 and
500000, final at the height 500001. -/
theorem C18_height_lock_witness :
    0 < demoTxLocked.nLockTime ∧ demoTxLocked.nLockTime < demoConsts.LOCKTIME_THRESHOLD ∧
    (∃ txin ∈ demoTxLocked.vin, txin.nSequence ≠ demoConsts.SEQUENCE_FINAL) ∧
    IsFinalTx demoConsts demoTxLocked 499999 0 = false ∧
    IsFinalTx demoConsts demoTxLocked 500000 0 = false ∧
    IsFinalTx demoConsts demoTxLocked 500001 0 = true :=
  have hseq : ∃ txin ∈ demoTxLocked.vin, txin.nSequence ≠ demoConsts.SEQUENCE_FINAL :=
    ⟨{ prevout := (1, 0), nSequence := 0 }, by decide, by decide⟩
  ⟨by decide, by decide, hseq,
    (C18_height_lock demoConsts demoTxLocked 499999 0 (by decide) (by decide) hseq).1
      (by decide),
    (C18_height_lock demoConsts demoTxLocked 500000 0 (by decide) (by decide) hseq).1
      (by decide),
    (C18_height_lock demoConsts demoTxLocked 500001 0 (by decide) (by decide) hseq).2
      (by decide)⟩

/-- C19, counterexample. One input, time-typed (type flag set, disable bit clear)
with masked field 5, created at height 10: the claim lists no height constraint
and so states a minHeight of -1, the code returns 10 + 5 - 1 = 14. -/
theorem C19_counterexample :
    claimedHeightConstraints demoConsts (demoTxTimeLock.vin.zip [10]) = [] ∧
    leastOrMinusOne (claimedHeightConstraints demoConsts (demoTxTimeLock.vin.zip [10])) = -1 ∧
    (CalculateSequenceLocks demoConsts demoMTP demoTxTimeLock [10]).map (fun r => r.1)
      = some 14 := by
  decide

/-- C19, amended. When `prevHeights` has one entry per input, the ancestors the
time-typed inputs need exist, the `int` expression
`prevHeights[i] + (sequence & SEQUENCE_LOCKTIME_MASK) - 1` of every input whose
disable bit is clear has its exact value (the entry, the sum and the difference
are in `[-2^31, 2^31)`), and no height constraint is itself -1 (the value the loop
uses for "no constraint yet"), `CalculateSequenceLocks` returns, and its
minHeight is the minimum of
`prevHeights[i] + (sequence & SEQUENCE_LOCKTIME_MASK) - 1` over all inputs whose
disable bit is clear, time-typed inputs included, and -1 when there is no such
input. -/
theorem C19_minHeight (K : TxConsts) (ancestorMTP : Int → Option Int)
    (tx : Transaction) (prevHeights : List Int)
    (hmask : K.SEQUENCE_LOCKTIME_MASK < 2 ^ 31)
    (hlen : prevHeights.length = tx.vin.length)
    (hanc : ∀ e ∈ tx.vin.zip prevHeights,
      e.1.nSequence &&& K.SEQUENCE_LOCKTIME_DISABLE_FLAG = 0 →
      e.1.nSequence &&& K.SEQUENCE_LOCKTIME_TYPE_FLAG ≠ 0 →
      coinTime ancestorMTP e.2 ≠ none)
    (hfit : ∀ e ∈ tx.vin.zip prevHeights,
      e.1.nSequence &&& K.SEQUENCE_LOCKTIME_DISABLE_FLAG = 0 →
      -2147483648 ≤ e.2 ∧
      -2147483648 ≤ e.2 + ((e.1.nSequence &&& K.SEQUENCE_LOCKTIME_MASK : Nat) : Int) - 1 ∧
      e.2 + ((e.1.nSequence &&& K.SEQUENCE_LOCKTIME_MASK : Nat) : Int) < 2147483648)
    (hne : ∀ c ∈ heightConstraints K (tx.vin.zip prevHeights), c ≠ -1) :
    ∃ r, CalculateSequenceLocks K ancestorMTP tx prevHeights = some r ∧
      r.1 = leastOrMinusOne (heightConstraints K (tx.vin.zip prevHeights)) ∧
      (heightConstraints K (tx.vin.zip prevHeights) = [] → r.1 = -1) ∧
      (heightConstraints K (tx.vin.zip prevHeights) ≠ [] →
        r.1 ∈ heightConstraints K (tx.vin.zip prevHeights) ∧
        ∀ c ∈ heightConstraints K (tx.vin.zip prevHeights), r.1 ≤ c) := by
  obtain ⟨ph', hph⟩ := CalculateSequenceLocks_spec K ancestorMTP tx prevHeights hlen hanc
  rw [heightCandidatesOf_eq K hmask _ (fun e he hd => (hfit e he hd).2)] at hph
  obtain ⟨h1, h2⟩ := foldl_minOrFirst_start _ hne
  exact ⟨_, hph, foldl_minOrFirst_eq_least _ hne, h1, h2⟩

/-- C19 at an example: four inputs created at heights 3, 10, 4 and 2, the
second time-typed and the third disabled; the height constraints are 2, 14 and
8 and the minHeight is 2. -/
theorem C19_minHeight_witness :
    heightConstraints demoConsts (demoTxSeq.vin.zip [3, 10, 4, 2]) = [2, 14, 8] ∧
    ∃ r, CalculateSequenceLocks demoConsts demoMTP demoTxSeq [3, 10, 4, 2] = some r ∧
      r.1 = leastOrMinusOne (heightConstraints demoConsts (demoTxSeq.vin.zip [3, 10, 4, 2])) ∧
      (heightConstraints demoConsts (demoTxSeq.vin.zip [3, 10, 4, 2]) = [] → r.1 = -1) ∧
      (heightConstraints demoConsts (demoTxSeq.vin.zip [3, 10, 4, 2]) ≠ [] →
        r.1 ∈ heightConstraints demoConsts (demoTxSeq.vin.zip [3, 10, 4, 2]) ∧
        ∀ c ∈ heightConstraints demoConsts (demoTxSeq.vin.zip [3, 10, 4, 2]), r.1 ≤ c) :=
  ⟨by decide,
    C19_minHeight demoConsts demoMTP demoTxSeq [3, 10, 4, 2]
      (by decide) (by decide) (by decide) (by decide) (by decide)⟩

/-- C21. When `prevHeights` has one entry per input and the ancestors the
time-typed inputs need exist, `CalculateSequenceLocks` returns, and: the
entries of `prevHeights` after the call are 0 at the inputs whose sequence
number has the disable bit set and unchanged at all others; the returned
(minHeight, minTime) is the one of the transaction from which the disabled
inputs and their entries of `prevHeights` have been removed; and when every
input is disabled the result is (-1, -1). -/
theorem C21_disabled_inputs (K : TxConsts) (ancestorMTP : Int → Option Int)
    (tx : Transaction) (prevHeights : List Int)
    (hlen : prevHeights.length = tx.vin.length)
    (hanc : ∀ e ∈ tx.vin.zip prevHeights,
      e.1.nSequence &&& K.SEQUENCE_LOCKTIME_DISABLE_FLAG = 0 →
      e.1.nSequence &&& K.SEQUENCE_LOCKTIME_TYPE_FLAG ≠ 0 →
      coinTime ancestorMTP e.2 ≠ none) :
    ∃ r, CalculateSequenceLocks K ancestorMTP tx prevHeights = some r ∧
      r.2.2 = List.zipWith (fun txin p =>
        if txin.nSequence &&& K.SEQUENCE_LOCKTIME_DISABLE_FLAG ≠ 0 then 0 else p)
        tx.vin prevHeights ∧
      (CalculateSequenceLocks K ancestorMTP
          { tx with vin := (enabledInputs K (tx.vin.zip prevHeights)).map Prod.fst }
          ((enabledInputs K (tx.vin.zip prevHeights)).map Prod.snd)).map
        (fun r1 => (r1.1, r1.2.1)) = some (r.1, r.2.1) ∧
      ((∀ txin ∈ tx.vin, txin.nSequence &&& K.SEQUENCE_LOCKTIME_DISABLE_FLAG ≠ 0) →
        r.1 = -1 ∧ r.2.1 = -1) := by
  obtain ⟨ph1, hph⟩ := CalculateSequenceLocks_spec K ancestorMTP tx prevHeights hlen hanc
  have hfold := CalculateSequenceLocks_eq_seqFold K ancestorMTP tx prevHeights hlen
  refine ⟨_, hph, ?_, ?_, ?_⟩
  · rw [hfold] at hph
    rw [seqFold_prevHeights K ancestorMTP _ _ _ _ hph, List.zip_eq_zipWith, List.map_zipWith]
  · rw [CalculateSequenceLocks_eq_seqFold K ancestorMTP _ _ (by simp)]
    simp only [zip_map_fst_snd]
    rw [seqFold_enabled, ← hfold, hph]
    rfl
  · intro hall
    have hall2 : ∀ e ∈ tx.vin.zip prevHeights,
        e.1.nSequence &&& K.SEQUENCE_LOCKTIME_DISABLE_FLAG ≠ 0 := by
      intro e he
      exact hall e.1 (List.of_mem_zip he).1
    simp only [heightCandidatesOf_all_disabled K _ hall2,
      timeCandidatesOf_all_disabled K ancestorMTP _ hall2, List.foldl_nil, and_self]

/-- C21 at an example: of four inputs created at heights 3, 10, 4 and 2 the
third is disabled; its entry is reset to 0 and the result (2, 3568) is that of
the other three inputs. -/
theorem C21_disabled_inputs_witness :
    CalculateSequenceLocks demoConsts demoMTP demoTxSeq [3, 10, 4, 2] =
      some (2, 3568, [3, 10, 0, 2]) ∧
    ∃ r, CalculateSequenceLocks demoConsts demoMTP demoTxSeq [3, 10, 4, 2] = some r ∧
      r.2.2 = List.zipWith (fun txin p =>
        if txin.nSequence &&& demoConsts.SEQUENCE_LOCKTIME_DISABLE_FLAG ≠ 0 then 0 else p)
        demoTxSeq.vin [3, 10, 4, 2] ∧
      (CalculateSequenceLocks demoConsts demoMTP
          { demoTxSeq with
            vin := (enabledInputs demoConsts (demoTxSeq.vin.zip [3, 10, 4, 2])).map Prod.fst }
          ((enabledInputs demoConsts (demoTxSeq.vin.zip [3, 10, 4, 2])).map Prod.snd)).map
        (fun r1 => (r1.1, r1.2.1)) = some (r.1, r.2.1) ∧
      ((∀ txin ∈ demoTxSeq.vin,
          txin.nSequence &&& demoConsts.SEQUENCE_LOCKTIME_DISABLE_FLAG ≠ 0) →
        r.1 = -1 ∧ r.2.1 = -1) :=
  ⟨by decide,
    C21_disabled_inputs demoConsts demoMTP demoTxSeq [3, 10, 4, 2] (by decide) (by decide)⟩

/-- C22. For a chain position that has a parent, `EvaluateSequenceLocks`
returns, and it returns false if and only if `minHeight >= nHeight` or
`minTime` is at least the median time past of the parent. -/
theorem C22_EvaluateSequenceLocks_iff (block : CBlockIndex) (nBlockTime : Int)
    (lockPair : Int × Int) (hprev : block.pprevMedianTimePast = some nBlockTime) :
    ∃ b, EvaluateSequenceLocks block lockPair = some b ∧
      (b = false ↔ lockPair.1 ≥ block.nHeight ∨ lockPair.2 ≥ nBlockTime) := by
  unfold EvaluateSequenceLocks
  rw [hprev]
  by_cases h : lockPair.1 ≥ block.nHeight ∨ lockPair.2 ≥ nBlockTime
  · exact ⟨false, by simp only [if_pos h], by simp [h]⟩
  · exact ⟨true, by simp only [if_neg h], by simp [h]⟩

/-- C22 at an example: at height 20 with parent median time past 5000, the
lock pair (19, 4999) is satisfied, (20, 0) and (0, 5000) are not. -/
theorem C22_EvaluateSequenceLocks_iff_witness :
    EvaluateSequenceLocks { nHeight := 20, pprevMedianTimePast := some 5000 } (19, 4999)
      = some true ∧
    EvaluateSequenceLocks { nHeight := 20, pprevMedianTimePast := some 5000 } (20, 0)
      = some false ∧
    EvaluateSequenceLocks { nHeight := 20, pprevMedianTimePast := some 5000 } (0, 5000)
      = some false ∧
    ∃ b, EvaluateSequenceLocks { nHeight := 20, pprevMedianTimePast := some 5000 } (20, 0)
        = some b ∧
      (b = false ↔ (20 : Int) ≥ 20 ∨ (0 : Int) ≥ 5000) :=
  ⟨by decide, by decide, by decide,
    C22_EvaluateSequenceLocks_iff { nHeight := 20, pprevMedianTimePast := some 5000 } 5000
      (20, 0) rfl⟩

/-- C23, counterexample. A coinbase transaction whose legacy sig-op count is
`2^30`: four times the count is `2^32`, the code returns 0, because the
product is formed in 32-bit unsigned arithmetic. -/
theorem C23_counterexample :
    GetLegacySigOpCount demoScriptOps demoTxManySigOps = 2 ^ 30 ∧
    GetTransactionSigOpCost demoScriptOps demoTxManySigOps demoScriptView 1 = some 0 := by
  decide

/-- C23, amended. While the legacy count is below `2^30`,
`GetTransactionSigOpCost` of a coinbase transaction is four times the legacy
count, whatever the coin view and the flags. For any other transaction whose
inputs all reference coins of the view, with a P2SH count below `2^30` and a
witness count below `2^62`, it is four times the legacy count, plus four times
the P2SH count if and only if the P2SH flag is set, plus the sum over the
inputs of the witness sig-op counts. -/
theorem C23_sig_op_cost {Script Witness : Type} (S : ScriptOps Script Witness)
    (tx : ScriptTransaction Script Witness) (inputs : Nat × Nat → Option Script)
    (flags : Nat) (hleg : legacyCount S tx < 2 ^ 30) :
    (tx.IsCoinBase = true →
      GetTransactionSigOpCost S tx inputs flags =
        some ((WITNESS_SCALE_FACTOR : Int) * (legacyCount S tx : Nat)) ∧
      ∀ (inputs1 : Nat × Nat → Option Script) (flags1 : Nat),
        GetTransactionSigOpCost S tx inputs1 flags1 =
          GetTransactionSigOpCost S tx inputs flags) ∧
    (tx.IsCoinBase = false →
      ∀ coins : List Script,
        tx.vin.map (fun txin => inputs txin.prevout) = coins.map some →
        p2shCount S (tx.vin.zip coins) < 2 ^ 30 →
        witnessCount S flags (tx.vin.zip coins) < 2 ^ 62 →
        GetTransactionSigOpCost S tx inputs flags =
          some ((WITNESS_SCALE_FACTOR : Int) * (legacyCount S tx : Nat) +
            (if flags &&& S.SCRIPT_VERIFY_P2SH ≠ 0 then
              (WITNESS_SCALE_FACTOR : Int) * (p2shCount S (tx.vin.zip coins) : Nat)
             else 0) +
            (witnessCount S flags (tx.vin.zip coins) : Nat))) := by
  have hL : (GetLegacySigOpCount S tx * WITNESS_SCALE_FACTOR) % 2 ^ 32 =
      WITNESS_SCALE_FACTOR * legacyCount S tx := by
    have h4 : WITNESS_SCALE_FACTOR = 4 := rfl
    rw [GetLegacySigOpCount_eq, h4, Nat.mod_eq_of_lt (by omega), Nat.mod_eq_of_lt (by omega),
      Nat.mul_comm]
  have h4 : WITNESS_SCALE_FACTOR = 4 := rfl
  constructor
  · intro hcb
    constructor
    · simp only [GetTransactionSigOpCost, hcb, if_true, hL, Nat.cast_mul]
    · intro inputs1 flags1
      simp only [GetTransactionSigOpCost, hcb, if_true]
  · intro hcb coins hmap hp hw
    have hwn : (0 : Int) ≤ (witnessCount S flags (tx.vin.zip coins) : Nat) :=
      Int.ofNat_nonneg _
    have hwlt : ((witnessCount S flags (tx.vin.zip coins) : Nat) : Int) < 2 ^ 62 := by
      exact_mod_cast hw
    have hleg2 : ((legacyCount S tx : Nat) : Int) < 2 ^ 30 := by exact_mod_cast hleg
    have hlegn : (0 : Int) ≤ (legacyCount S tx : Nat) := Int.ofNat_nonneg _
    simp only [GetTransactionSigOpCost, hcb, Bool.false_eq_true, if_false, hL, Nat.cast_mul]
    by_cases hf : flags &&& S.SCRIPT_VERIFY_P2SH ≠ 0
    · have hP : GetP2SHSigOpCount S tx inputs = some (p2shCount S (tx.vin.zip coins)) := by
        unfold GetP2SHSigOpCount
        rw [hcb, if_neg (by simp), p2shLoop_eq S inputs tx.vin coins 0 hmap (by decide),
          Nat.zero_add, Nat.mod_eq_of_lt (by omega)]
      have hP2 : (p2shCount S (tx.vin.zip coins) * WITNESS_SCALE_FACTOR) % 2 ^ 32 =
          WITNESS_SCALE_FACTOR * p2shCount S (tx.vin.zip coins) := by
        rw [h4, Nat.mod_eq_of_lt (by omega), Nat.mul_comm]
      have hp2 : ((p2shCount S (tx.vin.zip coins) : Nat) : Int) < 2 ^ 30 := by exact_mod_cast hp
      have hpn : (0 : Int) ≤ (p2shCount S (tx.vin.zip coins) : Nat) := Int.ofNat_nonneg _
      rw [if_pos hf, if_pos hf, hP]
      simp only [hP2, Nat.cast_mul]
      rw [witnessLoop_eq S inputs flags tx.vin coins _ hmap
        (by rw [h4]; push_cast; omega) (by rw [h4]; push_cast; omega)]
    · rw [if_neg hf, if_neg hf]
      rw [witnessLoop_eq S inputs flags tx.vin coins _ hmap
        (by rw [h4]; push_cast; omega) (by rw [h4]; push_cast; omega)]
      simp

/-- C23 at examples: a coinbase transaction with 3 legacy signature operations
costs 12 under any view and flags; a transaction with 6 legacy, 2 P2SH and 5
witness signature operations costs 37 with the P2SH flag and 29 without. -/
theorem C23_sig_op_cost_witness :
    GetTransactionSigOpCost demoScriptOps demoTxCoinbaseSigOps demoScriptView 1 = some 12 ∧
    GetTransactionSigOpCost demoScriptOps demoTxCoinbaseSigOps demoScriptView 1 =
      some ((WITNESS_SCALE_FACTOR : Int) *
        (legacyCount demoScriptOps demoTxCoinbaseSigOps : Nat)) ∧
    GetTransactionSigOpCost demoScriptOps demoTxSigOps demoScriptView 1 = some 37 ∧
    GetTransactionSigOpCost demoScriptOps demoTxSigOps demoScriptView 0 = some 29 ∧
    GetTransactionSigOpCost demoScriptOps demoTxSigOps demoScriptView 1 =
      some ((WITNESS_SCALE_FACTOR : Int) * (legacyCount demoScriptOps demoTxSigOps : Nat) +
        (if 1 &&& demoScriptOps.SCRIPT_VERIFY_P2SH ≠ 0 then
          (WITNESS_SCALE_FACTOR : Int) *
            (p2shCount demoScriptOps (demoTxSigOps.vin.zip [7, 4]) : Nat)
         else 0) +
        (witnessCount demoScriptOps 1 (demoTxSigOps.vin.zip [7, 4]) : Nat)) :=
  ⟨by decide,
    ((C23_sig_op_cost demoScriptOps demoTxCoinbaseSigOps demoScriptView 1 (by decide)).1
      rfl).1,
    by decide, by decide,
    (C23_sig_op_cost demoScriptOps demoTxSigOps demoScriptView 1 (by decide)).2 rfl [7, 4]
      (by decide) (by decide) (by decide)⟩

/-- C24. For every boolean sequence `bits` of length `N`, `BitsToBytes` and
then `BytesToBits` return, and the result has length `8 * ceil(N / 8)`, its
first `N` entries are `bits`, and all its remaining entries are false. -/
theorem C24_pack_unpack (bits : List Bool) :
    ∃ bytes bs, BitsToBytes bits = some bytes ∧ BytesToBits bytes = some bs ∧
      bytes.length = (bits.length + 7) / 8 ∧
      bs.length = 8 * ((bits.length + 7) / 8) ∧
      bs.take bits.length = bits ∧
      (∀ q, bits.length ≤ q → q < bs.length → bs[q]? = some false) ∧
      bs = bits ++ List.replicate (8 * ((bits.length + 7) / 8) - bits.length) false := by
  obtain ⟨bytes, hb, hlen, hbits⟩ := BitsToBytes_spec bits
  obtain ⟨bs, hbs, hlen2, hget⟩ := BytesToBits_spec bytes
  have heq : bs = bits ++ List.replicate (8 * ((bits.length + 7) / 8) - bits.length) false := by
    apply List.ext_getElem?
    intro q
    by_cases hq : q < bs.length
    · have h1 := hget q (by omega)
      rw [hbits q (by omega)] at h1
      rw [List.getD_eq_getElem?_getD, List.getElem?_eq_getElem hq] at h1
      simp only [Option.getD_some] at h1
      rw [List.getElem?_eq_getElem hq, h1]
      by_cases hqn : q < bits.length
      · rw [List.getElem?_append_left hqn, List.getD_eq_getElem _ _ hqn,
          List.getElem?_eq_getElem hqn]
      · rw [List.getElem?_append_right (by omega), List.getD_eq_default _ _ (by omega),
          List.getElem?_replicate, if_pos (by omega)]
    · rw [List.getElem?_eq_none (by omega), List.getElem?_eq_none]
      simp only [List.length_append, List.length_replicate]
      omega
  refine ⟨bytes, bs, hb, hbs, hlen, by omega, ?_, ?_, heq⟩
  · rw [heq, List.take_left']
    rfl
  · intro q hq1 hq2
    rw [heq, List.getElem?_append_right hq1, List.getElem?_replicate, if_pos]
    rw [heq] at hq2
    simp only [List.length_append, List.length_replicate] at hq2
    omega

/-- C25. For every boolean sequence `bits` of length `N`, `BitsToBytes` returns
`ceil(N / 8)` bytes; byte `j` is the sum over `k` in `0..7` of `2^k` for those
`k` with `8j + k < N` and `bits[8j + k]` true; and bit `p` of the sequence is
bit `p mod 8` of byte `p / 8`. -/
theorem C25_BitsToBytes_layout (bits : List Bool) :
    ∃ bytes, BitsToBytes bits = some bytes ∧
      bytes.length = (bits.length + 7) / 8 ∧
      (∀ j, j < bytes.length →
        bytes[j]? = some (((List.range 8).map (fun k =>
          match bits[8 * j + k]? with
          | some true => 2 ^ k
          | _ => 0)).sum)) ∧
      (∀ p, p < bits.length → (bytes.getD (p / 8) 0).testBit (p % 8) = bits.getD p false) := by
  obtain ⟨bytes, hb, hlen, hbits⟩ := BitsToBytes_spec bits
  have hlt : ∀ b ∈ bytes, b < 256 := by
    refine bitsToBytesLoop_lt bits bits.length 0 _ bytes ?_ hb
    intro b hb
    rw [List.eq_of_mem_replicate hb]
    decide
  refine ⟨bytes, hb, hlen, ?_, ?_⟩
  · intro j hj
    rw [List.getElem?_eq_getElem hj]
    congr 1
    have hx : bytes[j] < 256 := hlt _ (List.getElem_mem hj)
    have hsum := byte_eq_sum_bits bytes[j] hx
    rw [hsum]
    congr 1
    apply List.map_congr_left
    intro k hk
    have hk8 : k < 8 := List.mem_range.1 hk
    have h1 := hbits (8 * j + k) (by omega)
    have hd : (8 * j + k) / 8 = j := by omega
    have hm : (8 * j + k) % 8 = k := by omega
    rw [hd, hm, List.getD_eq_getElem _ _ hj] at h1
    rw [h1, List.getD_eq_getElem?_getD]
    cases hq : bits[8 * j + k]? with
    | none => rfl
    | some b => cases b <;> rfl
  · intro p hp
    exact hbits p (by omega)

/-- C26. For a block with at least one transaction, the `CMerkleBlock`
constructor returns; there is a mask with one entry per transaction such that
entry `i` is true if and only if the id of transaction `i` is in the explicit
id set (when one is given) or the filter (when one is given), asked after the
transactions before `i`, reports transaction `i` relevant; the partial tree of
the object is the tree built from the list of all transaction ids and that
mask; and the header of the object is the header of the block. -/
theorem C26_merkle_block_mask {Hd Tx F D : Type} [DecidableEq D] (H : Hasher D)
    (GetHash : Tx → D) (IsRelevantAndUpdate : F → Tx → Bool × F) (block : CBlock Hd Tx)
    (filter : Option F) (txids : Option (List D)) (hne : block.vtx ≠ []) :
    ∃ (mask : List Bool) (M : CMerkleBlock Hd D) (filter1 : Option F),
      CMerkleBlock.build H GetHash IsRelevantAndUpdate block filter txids = some (M, filter1) ∧
      mask.length = block.vtx.length ∧
      (∀ i (hi : i < block.vtx.length),
        (mask[i]? = some true ↔
          (∃ ids, txids = some ids ∧ GetHash block.vtx[i] ∈ ids) ∨
          (∃ f, filter = some f ∧
            (IsRelevantAndUpdate
              (filterAfter GetHash IsRelevantAndUpdate txids f (block.vtx.take i))
              block.vtx[i]).1 = true))) ∧
      CPartialMerkleTree.build H (block.vtx.map GetHash) mask = some M.txn ∧
      M.header = block.header := by
  obtain ⟨txn, hb, hM⟩ :=
    CMerkleBlock_build_eq H GetHash IsRelevantAndUpdate block filter txids hne
  refine ⟨_, _, _, hM, by simp, ?_, hb, rfl⟩
  intro i hi
  rw [List.getElem?_map, List.getElem?_range hi]
  simp only [Option.map_some', Option.some.injEq, Bool.or_eq_true, inTxidsAt, filterRelevantAt,
    List.getElem?_eq_getElem hi]
  constructor
  · rintro (h | h)
    · left
      cases txids with
      | none => simp [txidsCount] at h
      | some ids => exact ⟨ids, rfl, by simpa [txidsCount] using h⟩
    · right
      cases filter with
      | none => simp at h
      | some f => exact ⟨f, rfl, h⟩
  · rintro (⟨ids, hids, hmem⟩ | ⟨f, hf, hrel⟩)
    · left
      subst hids
      simpa [txidsCount] using hmem
    · right
      subst hf
      exact hrel

/-- C26 at an example: two transactions with the ids 7 and 8, the id set {7}
and a filter that reports even transactions relevant; both are marked. -/
theorem C26_merkle_block_mask_witness :
    demoBlock.vtx ≠ [] ∧
    (matchResult id demoIsRelevantAndUpdate demoBlock (some []) (some [7])).vMatch
      = [true, true] ∧
    ∃ (mask : List Bool) (M : CMerkleBlock Nat Nat) (filter1 : Option (List Nat)),
      CMerkleBlock.build demoHasher id demoIsRelevantAndUpdate demoBlock (some []) (some [7])
        = some (M, filter1) ∧
      mask.length = demoBlock.vtx.length ∧
      (∀ i (hi : i < demoBlock.vtx.length),
        (mask[i]? = some true ↔
          (∃ ids, some [7] = some ids ∧ id demoBlock.vtx[i] ∈ ids) ∨
          (∃ f, some ([] : List Nat) = some f ∧
            (demoIsRelevantAndUpdate
              (filterAfter id demoIsRelevantAndUpdate (some [7]) f (demoBlock.vtx.take i))
              demoBlock.vtx[i]).1 = true))) ∧
      CPartialMerkleTree.build demoHasher (demoBlock.vtx.map id) mask = some M.txn ∧
      M.header = demoBlock.header :=
  ⟨by decide, by decide,
    C26_merkle_block_mask demoHasher id demoIsRelevantAndUpdate demoBlock (some []) (some [7])
      (by decide)⟩

/-- C27, counterexample. Two transactions with the ids 7 and 8, the id set {7}
and a filter that reports even transactions relevant: both are marked matched,
but the side list holds only the pair of transaction 1, matched by the
filter, not the pair (0, 7) of the transaction matched by the id set. -/
theorem C27_counterexample :
    (matchResult id demoIsRelevantAndUpdate demoBlock (some []) (some [7])).vMatch
      = [true, true] ∧
    claimedMatchedTxn 0 id demoIsRelevantAndUpdate (some [7]) (some []) demoBlock.vtx
      = [(0, 7), (1, 8)] ∧
    (CMerkleBlock.build demoHasher id demoIsRelevantAndUpdate demoBlock (some [])
      (some [7])).map (fun r => r.1.vMatchedTxn) = some [(1, 8)] ∧
    (CMerkleBlock.build demoHasher id demoIsRelevantAndUpdate demoBlock
      (none : Option (List Nat)) (some [7])).map (fun r => r.1.vMatchedTxn) = some [] := by
  decide

/-- C27, amended. For a block with at least one transaction, the side list
`vMatchedTxn` of the object built is the list of the pairs
`(i, id of transaction i)`, in increasing `i`, of the transactions whose id is
not in the explicit id set and which the filter reports relevant. When no id
set is given it is the list of the pairs of all transactions marked matched;
when no filter is given it is empty. -/
theorem C27_side_list {Hd Tx F D : Type} [DecidableEq D] (H : Hasher D)
    (GetHash : Tx → D) (IsRelevantAndUpdate : F → Tx → Bool × F) (block : CBlock Hd Tx)
    (filter : Option F) (txids : Option (List D)) (hne : block.vtx ≠ []) :
    ∃ (M : CMerkleBlock Hd D) (filter1 : Option F),
      CMerkleBlock.build H GetHash IsRelevantAndUpdate block filter txids = some (M, filter1) ∧
      M.vMatchedTxn =
        ((List.range block.vtx.length).filter (fun i =>
          !inTxidsAt GetHash txids block.vtx i &&
            filterRelevantAt GetHash IsRelevantAndUpdate txids filter block.vtx i)).map
          (fun i => (i, (block.vtx.map GetHash).getD i H.null)) ∧
      (txids = none → M.vMatchedTxn =
        claimedMatchedTxn H.null GetHash IsRelevantAndUpdate txids filter block.vtx) ∧
      (filter = none → M.vMatchedTxn = []) := by
  obtain ⟨txn, _, hM⟩ :=
    CMerkleBlock_build_eq H GetHash IsRelevantAndUpdate block filter txids hne
  refine ⟨_, _, hM, rfl, ?_, ?_⟩
  · intro hnone
    subst hnone
    have hin : ∀ i, inTxidsAt GetHash (none : Option (List D)) block.vtx i = false := by
      intro i
      unfold inTxidsAt
      cases block.vtx[i]? <;> rfl
    simp only [filterMatchedTxn, claimedMatchedTxn, hin, Bool.not_false, Bool.true_and,
      Bool.false_or]
  · intro hnone
    subst hnone
    simp only [filterMatchedTxn, filterRelevantAt_none, Bool.and_false, List.filter_false,
      List.map_nil]

/-- C27 at an example: two transactions with the ids 7 and 8, the id set {7}
and a filter that reports even transactions relevant; the side list is
`[(1, 8)]`. -/
theorem C27_side_list_witness :
    demoBlock.vtx ≠ [] ∧
    ∃ (M : CMerkleBlock Nat Nat) (filter1 : Option (List Nat)),
      CMerkleBlock.build demoHasher id demoIsRelevantAndUpdate demoBlock (some []) (some [7])
        = some (M, filter1) ∧
      M.vMatchedTxn =
        ((List.range demoBlock.vtx.length).filter (fun i =>
          !inTxidsAt id (some [7]) demoBlock.vtx i &&
            filterRelevantAt id demoIsRelevantAndUpdate (some [7]) (some []) demoBlock.vtx i)).map
          (fun i => (i, (demoBlock.vtx.map id).getD i demoHasher.null)) ∧
      (some [7] = none → M.vMatchedTxn =
        claimedMatchedTxn demoHasher.null id demoIsRelevantAndUpdate (some [7]) (some [])
          demoBlock.vtx) ∧
      (some ([] : List Nat) = none → M.vMatchedTxn = []) :=
  ⟨by decide,
    C27_side_list demoHasher id demoIsRelevantAndUpdate demoBlock (some []) (some [7])
      (by decide)⟩

/-- C28. For every block with at least one transaction, `BlockWitnessMerkleRoot`
returns what `ComputeMerkleRoot` returns, root and mutated flag, on the list
whose first element is the null digest and whose further elements are the
witness hashes of the transactions after the first; the result is the same
whatever the first transaction is; and `BlockMerkleRoot` returns what
`ComputeMerkleRoot` returns on the list of the transaction hashes. -/
theorem C28_block_roots {Hd Tx D : Type} [DecidableEq D] (H : Hasher D)
    (GetHash GetWitnessHash : Tx → D) (header : Hd) (tx0 : Tx) (rest : List Tx)
    (mutated : Bool) :
    BlockWitnessMerkleRoot H GetWitnessHash { header := header, vtx := tx0 :: rest } mutated =
      some (ComputeMerkleRoot H (H.null :: rest.map GetWitnessHash) mutated) ∧
    (∀ tx1 : Tx,
      BlockWitnessMerkleRoot H GetWitnessHash { header := header, vtx := tx1 :: rest } mutated =
        BlockWitnessMerkleRoot H GetWitnessHash { header := header, vtx := tx0 :: rest }
          mutated) ∧
    BlockMerkleRoot H GetHash { header := header, vtx := tx0 :: rest } mutated =
      some (ComputeMerkleRoot H ((tx0 :: rest).map GetHash) mutated) := by
  refine ⟨BlockWitnessMerkleRoot_eq H GetWitnessHash header tx0 rest mutated, ?_,
    BlockMerkleRoot_eq H GetHash _ mutated⟩
  intro tx1
  rw [BlockWitnessMerkleRoot_eq, BlockWitnessMerkleRoot_eq]

/-- C29. `ComputeMerkleRoot` of the empty list returns the null digest, and of
a one-element list that element; in both cases the flag it stores through a
non-null `mutated` pointer is false. -/
theorem C29_ComputeMerkleRoot_small {D : Type} [DecidableEq D] (H : Hasher D) (x : D) :
    ComputeMerkleRoot H [] true = (H.null, some false) ∧
    ComputeMerkleRoot H [] false = (H.null, none) ∧
    ComputeMerkleRoot H [x] true = (x, some false) ∧
    ComputeMerkleRoot H [x] false = (x, none) := by
  refine ⟨?_, ?_, ?_, ?_⟩ <;> simp [ComputeMerkleRoot, merkleLoop]

/-- C30, the code at a failing input. The tree `demoTree` has one matched leaf,
the digest 3 at position 2. Called with an index list that already holds the
entry 5, `ExtractMatches` returns the matched hashes `[3]` and the index list
`[5, 2]`: the matched-hash list is cleared, the index list is not. -/
theorem C30_index_list_not_cleared :
    (ExtractMatches demoHasher 4000000 demoTree [9] [5]).map
      (fun r => (r.vMatch, r.vnIndex)) = some ([3], [5, 2]) := by
  decide

/-- C31, the code at the example of the claim. `MAX_SUPPLY` is not
`5 * 10^25`: the product `50000000ULL * SPX` is reduced modulo `2^64` to
7954489891797073920, a little less than 8 SPX, so `SPXRange` rejects the
amount of 8 SPX and accepts 7 SPX. -/
theorem C31_MAX_SUPPLY_wraps :
    MAX_SUPPLY = 7954489891797073920 ∧
    (MAX_SUPPLY : Int) ≠ 50000000 * SPX ∧
    SPXRange (8 * SPX) = false ∧
    SPXRange (7 * SPX) = true := by
  decide

/-- C32, the code at the example of the claim. For the one-byte input `0x01`
the Base58 encoding is `"2"`, and `EncodeBase58` returns the empty string: the
output starts at `b58.begin() + (size - zeroes)`, where `size` is the length of
`b58` and there are no leading zero bytes. With two leading zero bytes only
the last two digits are written: for `00 00 ff ff` the encoding is `"11LUv"`
and `EncodeBase58` returns `"11Uv"`. -/
theorem C32_EncodeBase58_drops_digits :
    EncodeBase58 [1] = some [] ∧
    base58Encoding [1] = ['2'] ∧
    EncodeBase58 [0, 0, 255, 255] = some ['1', '1', 'U', 'v'] ∧
    base58Encoding [0, 0, 255, 255] = ['1', '1', 'L', 'U', 'v'] := by
  decide

/-- C33. Take a call of `TraverseAndExtract` made in the course of the
traversal of `ExtractMatches`, at a node above height 0 whose bit is true, and
let `left` be the hash its left child returns. If the right child is inside the
tree width and returns a hash equal to `left`, `ExtractMatches` returns the null
digest. If the right child is outside the tree width, the call returns
`Hash(left, left)` in the state the left child returned, so it sets no flag
itself. -/
theorem C33_equal_children_rejected {D : Type} [DecidableEq D] (H : Hasher D)
    (MAX_BLOCK_WEIGHT : Nat) (T : CPartialMerkleTree D) (vMatch : List D)
    (vnIndex : List Nat) (height pos : Nat) (s : ExtractState D) (left : D)
    (s1 : ExtractState D)
    (hcall : SubCall H T (treeHeight T.nTransactions, 0, extractStart T vnIndex)
      (height + 1, pos, s))
    (hbit : T.vBits[s.nBitsUsed]? = some true)
    (hleft : TraverseAndExtract H T height (pos * 2) { s with nBitsUsed := s.nBitsUsed + 1 } =
      some (left, s1)) :
    (∀ (right : D) (s2 : ExtractState D),
      pos * 2 + 1 < CalcTreeWidth T.nTransactions height →
      TraverseAndExtract H T height (pos * 2 + 1) s1 = some (right, s2) →
      right = left →
      ∃ r, ExtractMatches H MAX_BLOCK_WEIGHT T vMatch vnIndex = some r ∧ r.root = H.null) ∧
    (¬ pos * 2 + 1 < CalcTreeWidth T.nTransactions height →
      TraverseAndExtract H T (height + 1) pos s = some (H.Hash left left, s1)) := by
  have hlt : s.nBitsUsed < T.vBits.length := by
    by_contra hc
    rw [List.getElem?_eq_none (by omega)] at hbit
    exact absurd hbit (by simp)
  constructor
  · intro right s2 hw hright heq
    have hnode : TraverseAndExtract H T (height + 1) pos s =
        some (H.Hash left right, { s2 with fBad := true }) := by
      simp only [TraverseAndExtract, if_neg (not_le.2 hlt), hbit, Bool.not_true,
        Bool.false_eq_true, if_false, hleft, if_pos hw, hright, if_pos heq]
    obtain ⟨⟨x, s0⟩, hrun⟩ := TraverseAndExtract_total H T (treeHeight T.nTransactions) 0
      (extractStart T vnIndex)
    have hbad : s0.fBad = true :=
      SubCall_fBad H T _ _ hcall _ _ hnode rfl x s0 hrun
    exact ExtractMatches_of_fBad H MAX_BLOCK_WEIGHT T vMatch vnIndex x s0 hrun hbad
  · intro hw
    simp only [TraverseAndExtract, if_neg (not_le.2 hlt), hbit, Bool.not_true,
      Bool.false_eq_true, if_false, hleft, if_neg hw]

/-- C33 at an example: the tree of the two equal leaves `[7, 7]`, both matched.
At the root, the left and the right child both return 7, and `ExtractMatches`
returns the null digest. -/
theorem C33_equal_children_rejected_witness :
    (ExtractMatches demoHasher 4000000 demoTwinTree [] []).map (fun r => r.root) = some 0 ∧
    TraverseAndExtract demoHasher demoTwinTree 0 1
      { nBitsUsed := 2, nHashUsed := 1, vMatch := [7], vnIndex := [0], fBad := false,
        overflowed := false } =
      some (7, { nBitsUsed := 3, nHashUsed := 2, vMatch := [7, 7], vnIndex := [0, 1],
                 fBad := false, overflowed := false }) ∧
    ∃ r, ExtractMatches demoHasher 4000000 demoTwinTree [] [] = some r ∧
      r.root = demoHasher.null :=
  ⟨by decide, by decide,
    (C33_equal_children_rejected demoHasher 4000000 demoTwinTree [] [] 0 0
      (extractStart demoTwinTree []) 7
      { nBitsUsed := 2, nHashUsed := 1, vMatch := [7], vnIndex := [0], fBad := false,
        overflowed := false }
      (SubCall.refl _) (by decide) (by decide)).1 7
      { nBitsUsed := 3, nHashUsed := 2, vMatch := [7, 7], vnIndex := [0, 1],
        fBad := false, overflowed := false }
      (by decide) (by decide) rfl⟩

/-- C34. For every non-empty leaf list `L` and mask `M` of the same length, the
constructor returns a tree with `nTransactions = |L|`,
`vHash.size() <= nTransactions` and `vBits.size() >= vHash.size()`. -/
theorem C34_built_tree_lengths {D : Type} (H : Hasher D) (L : List D) (M : List Bool)
    (hL : L ≠ []) (hM : M.length = L.length) :
    ∃ T, CPartialMerkleTree.build H L M = some T ∧
      T.nTransactions = L.length ∧
      T.vHash.length ≤ T.nTransactions ∧
      T.vBits.length ≥ T.vHash.length := by
  refine ⟨_, build_eq H L M hL hM, rfl, ?_, ?_⟩
  · exact builtTree_hash_le H L M hL
  · exact builtHashes_length_le_bits H L M _ _

/-- C34 at an example: three leaves, the last one matched. -/
theorem C34_built_tree_lengths_witness :
    CPartialMerkleTree.build demoHasher [1, 2, 3] [false, false, true] = some demoTree ∧
    ∃ T, CPartialMerkleTree.build demoHasher [1, 2, 3] [false, false, true] = some T ∧
      T.nTransactions = ([1, 2, 3] : List Nat).length ∧
      T.vHash.length ≤ T.nTransactions ∧
      T.vBits.length ≥ T.vHash.length :=
  ⟨by decide,
    C34_built_tree_lengths demoHasher [1, 2, 3] [false, false, true] (by decide) (by decide)⟩

/-- C35. For every non-empty leaf list `L` and mask `M` of the same length, the
constructor returns a tree: the height loop leaves through its own condition
(the width at the height it reaches is at most 1), and at every node of the
implicit tree (position `pos` below the width `ceil(|L| / 2^h)` at height `h`)
the scan of the mask, `CalcHash` and `TraverseAndBuild` return, so the
assertion holds and every read of `L` and `M` is in bounds. -/
theorem C35_build_completes {D : Type} (H : Hasher D) (L : List D) (M : List Bool)
    (hL : L ≠ []) (hM : M.length = L.length) :
    (∃ T, CPartialMerkleTree.build H L M = some T) ∧
    CalcTreeWidth L.length (treeHeight L.length) ≤ 1 ∧
    ∀ h pos, pos < CalcTreeWidth L.length h →
      (∃ b, parentOfMatch L.length M h pos = some b) ∧
      (∃ d, CalcHash H L.length h pos L = some d) ∧
      ∀ T : CPartialMerkleTree D, T.nTransactions = L.length →
        ∃ T1, TraverseAndBuild H L M h pos T = some T1 := by
  refine ⟨⟨_, build_eq H L M hL hM⟩, treeHeight_width L.length, ?_⟩
  intro h pos hpos
  have hlt : pos * 2 ^ h < L.length := (lt_CalcTreeWidth L.length h pos).1 hpos
  refine ⟨⟨_, parentOfMatch_eq L.length M hM h pos⟩, ⟨_, CalcHash_eq H L hL h pos hlt⟩, ?_⟩
  intro T hT
  exact ⟨_, TraverseAndBuild_eq H L M hL hM h pos T hT hlt⟩

/-- C35 at an example: three leaves, the last one matched. -/
theorem C35_build_completes_witness :
    (∃ T, CPartialMerkleTree.build demoHasher [1, 2, 3] [false, false, true] = some T) ∧
    CalcTreeWidth ([1, 2, 3] : List Nat).length (treeHeight ([1, 2, 3] : List Nat).length) ≤ 1 ∧
    ∀ h pos, pos < CalcTreeWidth ([1, 2, 3] : List Nat).length h →
      (∃ b, parentOfMatch ([1, 2, 3] : List Nat).length [false, false, true] h pos = some b) ∧
      (∃ d, CalcHash demoHasher ([1, 2, 3] : List Nat).length h pos [1, 2, 3] = some d) ∧
      ∀ T : CPartialMerkleTree Nat, T.nTransactions = ([1, 2, 3] : List Nat).length →
        ∃ T1, TraverseAndBuild demoHasher [1, 2, 3] [false, false, true] h pos T = some T1 :=
  C35_build_completes demoHasher [1, 2, 3] [false, false, true] (by decide) (by decide)

/-- C36. For every leaf list `L` of odd length at least 3 with last element
`x`, `ComputeMerkleRoot` returns the same root for `L` followed by `x` as for
`L`, and reports mutated = true for the extended list. -/
theorem C36_duplicate_last {D : Type} [DecidableEq D] (H : Hasher D) (L : List D) (x : D)
    (mutated : Bool) (hlast : L.getLast? = some x) (hodd : L.length % 2 = 1)
    (h3 : 3 ≤ L.length) :
    (ComputeMerkleRoot H (L ++ [x]) mutated).1 = (ComputeMerkleRoot H L mutated).1 ∧
    (ComputeMerkleRoot H (L ++ [x]) true).2 = some true := by
  constructor
  · have hlen : (L ++ [x]).length = L.length + 1 := by simp
    obtain ⟨n, hn⟩ : ∃ n, L.length = n + 1 := ⟨L.length - 1, by omega⟩
    have e1 : merkleLoop H mutated (n + 1 + 1) (L ++ [x]) false =
        merkleLoop H mutated (n + 1) (merkleRound H (L ++ [x]))
          (if mutated then scanPairs (L ++ [x]) false else false) := by
      conv_lhs => rw [merkleLoop]
      rw [if_pos (by rw [hlen]; omega)]
    have e2 : merkleLoop H mutated (n + 1) L false =
        merkleLoop H mutated n (merkleRound H L)
          (if mutated then scanPairs L false else false) := by
      conv_lhs => rw [merkleLoop]
      rw [if_pos (by omega)]
    have hloop : (merkleLoop H mutated (L ++ [x]).length (L ++ [x]) false).1 =
        (merkleLoop H mutated L.length L false).1 := by
      rw [hlen, hn, e1, e2, merkleRound_append_last H L x hlast hodd,
        merkleLoop_fuel H mutated (n + 1) n (merkleRound H L) _
          (by rw [merkleRound_length]; omega) (by rw [merkleRound_length]; omega)]
      exact merkleLoop_fst H mutated mutated n _ _ _
    unfold ComputeMerkleRoot
    simp only [hloop]
  · unfold ComputeMerkleRoot
    simp only [if_true, Option.some.injEq]
    rw [merkleLoop_mutation H _ _ _ (by omega)]
    right
    refine ⟨0, (L.length - 1) / 2, ?_, ?_⟩
    · simp only [Function.iterate_zero, id_eq, List.length_append, List.length_singleton]
      omega
    · simp only [Function.iterate_zero, id_eq]
      have h1 : (L.length - 1) / 2 * 2 = L.length - 1 := by omega
      have h2 : L.length - 1 + 1 = L.length := by omega
      rw [h1, h2, List.getElem?_append_left (by omega), List.getElem?_append_right (by omega)]
      simp only [Nat.sub_self, List.getElem?_cons_zero]
      rw [← hlast, List.getLast?_eq_getElem?]

/-- C36 at an example: the leaves `[1, 2, 3]` and `[1, 2, 3, 3]` have the same
root, and the second list is reported as mutated. -/
theorem C36_duplicate_last_witness :
    (ComputeMerkleRoot demoHasher ([1, 2, 3] ++ [3]) true).1 =
      (ComputeMerkleRoot demoHasher [1, 2, 3] true).1 ∧
    (ComputeMerkleRoot demoHasher ([1, 2, 3] ++ [3]) true).2 = some true :=
  C36_duplicate_last demoHasher [1, 2, 3] 3 true (by decide) (by decide) (by decide)

/-- C37. `ExtractMatches` returns on every tree and leaves `nTransactions`,
`vBits` and `vHash` as they were; a second call, on the tree as the first call
left it and again with an empty index list, returns the same root, the same
matched hashes and the same indices, and leaves the tree as the first call
left it. -/
theorem C37_extract_repeatable {D : Type} [DecidableEq D] (H : Hasher D)
    (MAX_BLOCK_WEIGHT : Nat) (T : CPartialMerkleTree D) (vMatch0 vMatch1 : List D) :
    ∃ r1 r2,
      ExtractMatches H MAX_BLOCK_WEIGHT T vMatch0 [] = some r1 ∧
      ExtractMatches H MAX_BLOCK_WEIGHT r1.tree vMatch1 [] = some r2 ∧
      r1.tree.nTransactions = T.nTransactions ∧
      r1.tree.vBits = T.vBits ∧
      r1.tree.vHash = T.vHash ∧
      r2.root = r1.root ∧ r2.vMatch = r1.vMatch ∧ r2.vnIndex = r1.vnIndex ∧
      r2.tree = r1.tree := by
  by_cases hpre : T.nTransactions = 0 ∨
      T.nTransactions > MAX_BLOCK_WEIGHT / MIN_TRANSACTION_WEIGHT ∨
      T.vHash.length > T.nTransactions ∨ T.vBits.length < T.vHash.length
  · have h1 := ExtractMatches_precheck H MAX_BLOCK_WEIGHT T vMatch0 [] hpre
    have h2 := ExtractMatches_precheck H MAX_BLOCK_WEIGHT T vMatch1 [] hpre
    exact ⟨_, _, h1, h2, rfl, rfl, rfl, rfl, rfl, rfl, rfl⟩
  · obtain ⟨⟨x, s⟩, hrun⟩ := TraverseAndExtract_total H T (treeHeight T.nTransactions) 0
      (extractStart T [])
    have hrun2 := TraverseAndExtract_repeat H T _ _ _ _ _ hrun
    simp only [not_or, not_lt, gt_iff_lt] at hpre
    obtain ⟨hp1, hp2, hp3, hp4⟩ := hpre
    have e1 : ∀ vM, ExtractMatches H MAX_BLOCK_WEIGHT T vM [] =
        some { root := if s.fBad then H.null
                 else if (s.nBitsUsed + 7) / 8 ≠ (T.vBits.length + 7) / 8 then H.null
                 else if s.nHashUsed ≠ T.vHash.length then H.null else x,
               vMatch := s.vMatch, vnIndex := s.vnIndex,
               tree := { T with fBad := s.fBad } } := by
      intro vM
      unfold ExtractMatches
      rw [if_neg hp1, if_neg (by omega), if_neg (by omega), if_neg (by omega), hrun]
      simp only
      split
      · rfl
      · split
        · rfl
        · split <;> rfl
    have e2 : ExtractMatches H MAX_BLOCK_WEIGHT { T with fBad := s.fBad } vMatch1 [] =
        some { root := if s.fBad then H.null
                 else if (s.nBitsUsed + 7) / 8 ≠ (T.vBits.length + 7) / 8 then H.null
                 else if s.nHashUsed ≠ T.vHash.length then H.null else x,
               vMatch := s.vMatch, vnIndex := s.vnIndex,
               tree := { T with fBad := s.fBad } } := by
      unfold ExtractMatches
      have hstart : extractStart { T with fBad := s.fBad } [] =
          { extractStart T [] with fBad := s.fBad } := rfl
      simp only [hstart]
      rw [if_neg hp1, if_neg (by omega), if_neg (by omega), if_neg (by omega), hrun2]
      simp only
      split
      · rfl
      · split
        · rfl
        · split <;> rfl
    exact ⟨_, _, e1 vMatch0, e2, rfl, rfl, rfl, rfl, rfl, rfl, rfl⟩

/-- C38. On every tree `ExtractMatches`, called with an empty index list,
returns; the indices it outputs are strictly increasing and each is less than
`nTransactions`; there are as many matched hashes as indices, and at most as
many as the tree stores hashes. -/
theorem C38_indices_increasing {D : Type} [DecidableEq D] (H : Hasher D)
    (MAX_BLOCK_WEIGHT : Nat) (T : CPartialMerkleTree D) (vMatch0 : List D) :
    ∃ r, ExtractMatches H MAX_BLOCK_WEIGHT T vMatch0 [] = some r ∧
      r.vnIndex.Pairwise (fun a b => a < b) ∧
      (∀ i ∈ r.vnIndex, i < T.nTransactions) ∧
      r.vMatch.length = r.vnIndex.length ∧
      r.vMatch.length ≤ T.vHash.length := by
  by_cases hpre : T.nTransactions = 0 ∨
      T.nTransactions > MAX_BLOCK_WEIGHT / MIN_TRANSACTION_WEIGHT ∨
      T.vHash.length > T.nTransactions ∨ T.vBits.length < T.vHash.length
  · have h1 := ExtractMatches_precheck H MAX_BLOCK_WEIGHT T vMatch0 [] hpre
    exact ⟨_, h1, List.Pairwise.nil, by simp, rfl, by simp⟩
  · obtain ⟨⟨x, s⟩, hrun⟩ := TraverseAndExtract_total H T (treeHeight T.nTransactions) 0
      (extractStart T [])
    simp only [not_or, not_lt, gt_iff_lt] at hpre
    obtain ⟨hp1, hp2, hp3, hp4⟩ := hpre
    obtain ⟨idx, hs, hi, hm, hlen, hused, hcap, hsort, hrange⟩ :=
      TraverseAndExtract_outputs H T _ 0 _ x s hrun (by omega)
    simp only [extractStart, List.nil_append, Nat.zero_add] at hi hm hused hcap
    have hcap2 := hcap (Nat.zero_le _)
    have hres : ∃ r, ExtractMatches H MAX_BLOCK_WEIGHT T vMatch0 [] = some r ∧
        r.vnIndex = s.vnIndex ∧ r.vMatch = s.vMatch := by
      unfold ExtractMatches
      rw [if_neg hp1, if_neg (by omega), if_neg (by omega), if_neg (by omega), hrun]
      simp only
      split
      · exact ⟨_, rfl, rfl, rfl⟩
      · split
        · exact ⟨_, rfl, rfl, rfl⟩
        · split
          · exact ⟨_, rfl, rfl, rfl⟩
          · exact ⟨_, rfl, rfl, rfl⟩
    obtain ⟨r, hr, hv, hmm⟩ := hres
    refine ⟨r, hr, ?_, ?_, ?_, ?_⟩
    · rw [hv, hi]; exact hsort
    · intro i hmem
      rw [hv, hi] at hmem
      exact (hrange i hmem).2.2
    · rw [hv, hmm, hi, hm]; exact hlen
    · rw [hmm, hm, hlen]; omega

/-- C39. When the valid-amount range is not empty and the output total of the
transaction is not negative, `CheckTxInputs` does not fail with the reason
`bad-txns-fee-outofrange`: when every input value and running sum is in the
range and the input total is at least the output total, it succeeds with a fee
in the range. -/
theorem C39_no_fee_outofrange (MAX_MONEY : Int) (tx : Transaction)
    (inputs : Nat × Nat → Option Coin) (nSpendHeight : Int)
    (hmax : 0 ≤ MAX_MONEY) (hout : 0 ≤ tx.valueOut) :
    CheckTxInputs MAX_MONEY tx inputs nSpendHeight ≠
      some (.invalid "bad-txns-fee-outofrange") ∧
    ∀ nValueIn, checkInputsLoop MAX_MONEY inputs nSpendHeight tx.vin 0 = some (.ok nValueIn) →
      HaveInputs inputs tx = true → tx.valueOut ≤ nValueIn →
      CheckTxInputs MAX_MONEY tx inputs nSpendHeight = some (.success (nValueIn - tx.valueOut)) ∧
      MoneyRange MAX_MONEY (nValueIn - tx.valueOut) = true := by
  have hfee : ∀ nValueIn,
      checkInputsLoop MAX_MONEY inputs nSpendHeight tx.vin 0 = some (.ok nValueIn) →
      tx.valueOut ≤ nValueIn → MoneyRange MAX_MONEY (nValueIn - tx.valueOut) = true := by
    intro nValueIn hloop hge
    obtain ⟨coins, hmap, hv, hvals, _, hsums⟩ :=
      checkInputsLoop_ok MAX_MONEY inputs nSpendHeight tx.vin 0 nValueIn hloop
    have hin : nValueIn ≤ MAX_MONEY := by
      by_cases hc : coins.length = 0
      · have hnil : coins = [] := List.length_eq_zero.1 hc
        subst hnil
        simp only [List.map_nil, List.sum_nil, add_zero] at hv
        omega
      · have hk := hsums coins.length (by omega) (le_refl _)
        rw [List.take_length, ← hv] at hk
        simp only [MoneyRange, decide_eq_true_eq] at hk
        omega
    simp only [MoneyRange, decide_eq_true_eq]
    omega
  constructor
  · intro h
    unfold CheckTxInputs at h
    split at h
    · exact absurd h (by decide)
    · split at h
      · exact absurd h (by simp)
      · rename_i reason hloop
        rcases checkInputsLoop_error MAX_MONEY inputs nSpendHeight tx.vin 0 reason hloop
          with hr | hr <;> subst hr <;> exact absurd h (by decide)
      · rename_i nValueIn hloop
        split at h
        · exact absurd h (by decide)
        · rename_i hge
          split at h
          · rename_i hbad
            have := hfee nValueIn hloop (by omega)
            rw [this] at hbad
            simp at hbad
          · exact absurd h (by simp)
  · intro nValueIn hloop hhave hge
    have hm := hfee nValueIn hloop hge
    refine ⟨?_, hm⟩
    unfold CheckTxInputs
    rw [hhave, hloop]
    simp only [Bool.not_true, Bool.false_eq_true, if_false]
    rw [if_neg (by omega), hm]
    simp

/-- C39 at the example of the spec: inputs worth 5 and 3 with an output total
of 7 succeed with the fee 1, which is in the range. -/
theorem C39_no_fee_outofrange_witness :
    CheckTxInputs 1000 demoTxFee demoView 150 ≠ some (.invalid "bad-txns-fee-outofrange") ∧
    ∀ nValueIn, checkInputsLoop 1000 demoView 150 demoTxFee.vin 0 = some (.ok nValueIn) →
      HaveInputs demoView demoTxFee = true → demoTxFee.valueOut ≤ nValueIn →
      CheckTxInputs 1000 demoTxFee demoView 150 =
        some (.success (nValueIn - demoTxFee.valueOut)) ∧
      MoneyRange 1000 (nValueIn - demoTxFee.valueOut) = true :=
  C39_no_fee_outofrange 1000 demoTxFee demoView 150 (by decide) (by decide)

/-- C40, the code at a failing input. `EncodeBase58` of the one-byte input
`0x01` is the empty string, and `DecodeBase58` of the empty string with
`maxRetLength = 1` returns true with the empty byte sequence, whatever
`IsSpace` is. For the one-byte input `0x00` the string is `"1"`, which is
decoded to the two bytes `00 00`. -/
theorem C40_round_trip_fails :
    EncodeBase58 [1] = some [] ∧
    (∀ IsSpace : Char → Bool, DecodeBase58 IsSpace [] 1 = Outcome.go []) ∧
    EncodeBase58 [0] = some ['1'] ∧
    DecodeBase58 demoIsSpace ['1'] 1 = Outcome.go [0, 0] := by
  refine ⟨by decide, fun _ => rfl, by decide, by decide⟩

end SphinxPoC
